import Mathlib

/-! # TechShell: a shallow embedding of the pipeline builder and execution engine

The repository holds two variants of the shell:

* the top-level sources (`techShell.c`, `command.c`, `builtins.c`), whose
  `processLine` launches every Command as soon as it is complete and which
  supports the redirect operators `<`, `>` and `>&`;
* the `ProgramTechShell` sources, whose `processLine` collects a `Statement`
  and hands it to `processStatement`.

Strings are C strings (no embedded NUL); file descriptors are natural numbers
and the parent's descriptor table is a list indexed by descriptor.
-/

namespace TechShell

/-! ## Variable store (varSet.c) -/

/-- The store is a linked list behind a dummy head node; the list below is the
chain that starts at `set->next`. -/
abbrev VarSet := List (String × String)

/-- `createVarSet`: a dummy head with an empty chain. -/
def createVarSet : VarSet := []

/-- `findInSet`: the first entry whose name compares equal with `strcmp`. -/
def findInSet (set : VarSet) (name : String) : Option (String × String) :=
  set.find? (fun e => e.1 == name)

/-- The replace branch of `addToSet`: the value of the entry that `findInSet`
located (the first one with that name) is replaced in place. -/
def replaceLocated : VarSet → String → String → VarSet
  | [], _, _ => []
  | e :: rest, name, value =>
    if e.1 == name then (e.1, value) :: rest else e :: replaceLocated rest name value

/-- `addToSet`: replace the value of an existing entry in place, otherwise link
a new entry right behind the dummy head. -/
def addToSet (set : VarSet) (name value : String) : VarSet :=
  match findInSet set name with
  | none => (name, value) :: set
  | some _ => replaceLocated set name value

/-- `printSet`: one line `name: value` per entry, in chain order. -/
def printSet (set : VarSet) : List String :=
  set.map (fun e => e.1 ++ ": " ++ e.2 ++ "\n")

/-! ## Variable substitution (techShell.c, preprocess) -/

def MAX_LINE_LENGTH : Nat := 500

def MAX_SUBSTITUTION_LEVEL : Nat := 10

/-- Loop state of `preprocess`: the response buffer written so far, the
characters of the variable name being read (`start ≠ NULL`), and the change
flag. -/
structure PreState where
  response : List Char
  start : Option (List Char)
  changeFlag : Bool
deriving DecidableEq, Repr

/-- Copy loop of `preprocess`: characters are written while
`currResponse < responseEnd`. -/
def copyBounded (response value : List Char) : List Char :=
  response ++ value.take (MAX_LINE_LENGTH - response.length)

/-- One iteration of the character loop of `preprocess`. -/
def preprocessStep (vars : VarSet) (st : PreState) (c : Char) : PreState :=
  if c = '$' then
    match st.start with
    | none => { st with start := some [], changeFlag := true }
    | some name =>
      match findInSet vars (String.mk name) with
      | some m => { st with response := copyBounded st.response m.2.data, start := none }
      | none => { st with start := none }
  else
    match st.start with
    | none =>
      if st.response.length < MAX_LINE_LENGTH then
        { st with response := st.response ++ [c] }
      else st
    | some name => { st with start := some (name ++ [c]) }

/-- `preprocess`: one substitution pass; returns the expanded string and the
change flag. -/
def preprocess (vars : VarSet) (token : String) : String × Bool :=
  let st := token.data.foldl (preprocessStep vars) ⟨[], none, false⟩
  (String.mk st.response, st.changeFlag)

/-- The `while (changeFlag && count++ < MAX_SUBSTITUTION_LEVEL)` loop of
`processLine`; `fuel` is the number of iterations still allowed by the count. -/
def expandLoop (vars : VarSet) : Nat → String × Bool → String × Bool
  | 0, r => r
  | fuel + 1, (s, changed) =>
    if changed then expandLoop vars fuel (preprocess vars s) else (s, changed)

/-! ## Tokens (tokenizer.h; the redirect kinds are used by the top-level
`processLine`) -/

inductive TokenType where
  | BASIC | SINGLE_QUOTE | DOUBLE_QUOTE | PIPE | SEMICOLON | EOL | ERROR
  | INPUT | OUTPUT | ERR_REDIR
deriving DecidableEq, Repr

structure aToken where
  start : String
  type : TokenType
deriving DecidableEq, Repr

/-- The expansion of a word token as computed at the top of the word case of
`processLine`: single-quoted tokens are duplicated, the others are run through
`preprocess` at most `MAX_SUBSTITUTION_LEVEL` times. -/
def expandToken (vars : VarSet) (tok : aToken) : String :=
  if tok.type = TokenType.SINGLE_QUOTE then tok.start
  else (expandLoop vars (MAX_SUBSTITUTION_LEVEL - 1) (preprocess vars tok.start)).1

/-! ## Descriptor table of a process -/

/-- What an open descriptor refers to. -/
inductive Obj where
  | inherited (n : Nat)
  | pipeRead (id : Nat)
  | pipeWrite (id : Nat)
  | file (name : String)
deriving DecidableEq, Repr

/-- Entry `i` is the object descriptor `i` refers to, `none` when closed. -/
abbrev FdTable := List (Option Obj)

def fdGet (t : FdTable) (fd : Nat) : Option Obj := t.getD fd none

/-- The lowest descriptor that is not open. -/
def lowestFree : FdTable → Nat
  | [] => 0
  | none :: _ => 0
  | some _ :: t => lowestFree t + 1

/-- Bind descriptor `fd` to `o`, growing the table when `fd` lies beyond it. -/
def fdBind (t : FdTable) (fd : Nat) (o : Obj) : FdTable :=
  if fd < t.length then t.set fd (some o)
  else t ++ List.replicate (fd - t.length) none ++ [some o]

/-- `open`, `creat`, `dup` all return the lowest free descriptor. -/
def fdAlloc (t : FdTable) (o : Obj) : FdTable × Nat :=
  (fdBind t (lowestFree t) o, lowestFree t)

/-- `dup(fd)`: fails (`none`) when `fd` is not open. -/
def sysDup (t : FdTable) (fd : Nat) : FdTable × Option Nat :=
  match fdGet t fd with
  | none => (t, none)
  | some o => ((fdAlloc t o).1, some (fdAlloc t o).2)

/-- `dup2(src, dst)`: fails and changes nothing when `src` is not open (this
covers a `src` of -1, modelled as `none`). -/
def sysDup2 (t : FdTable) (src : Option Nat) (dst : Nat) : FdTable :=
  match src with
  | none => t
  | some s =>
    match fdGet t s with
    | none => t
    | some o => fdBind t dst o

/-- `close(fd)`: the table afterwards and whether the call succeeded. -/
def sysClose (t : FdTable) (fd : Option Nat) : FdTable × Bool :=
  match fd with
  | none => (t, false)
  | some f =>
    match fdGet t f with
    | none => (t, false)
    | some _ => (t.set f none, true)

/-- `pipe(comm)`: the read end takes the lowest free descriptor, the write end
the next lowest; `id` names the new pipe. -/
def sysPipe (t : FdTable) (id : Nat) : FdTable × Nat × Nat :=
  let r := fdAlloc t (Obj.pipeRead id)
  let w := fdAlloc r.1 (Obj.pipeWrite id)
  (w.1, r.2, w.2)

/-! ## Commands (command.h, command.c) -/

inductive InputKind where
  | STDIN | PIPE_IN | IFILE
deriving DecidableEq, Repr

inductive OutputKind where
  | STDOUT | PIPE_OUT | OFILE | ERRFILE
deriving DecidableEq, Repr

/-- A Command: its name, the argument chain from `head` to `tail` (each
argument with the token type it was lexed as), and the two stream tags. -/
structure Command where
  command : String
  args : List (String × TokenType)
  input : InputKind
  output : OutputKind
deriving DecidableEq, Repr

def newCommand (cmd : String) : Command :=
  { command := cmd, args := [], input := InputKind.STDIN, output := OutputKind.STDOUT }

/-- `addArg`: link the new argument behind the tail. -/
def addArg (cmd : Command) (arg : String) (token : TokenType) : Command :=
  { cmd with args := cmd.args ++ [(arg, token)] }

/-- A store into a C array: defined only inside the allocation. -/
def writeAt {α : Type} (arr : List α) (i : Nat) (v : α) : Option (List α) :=
  if i < arr.length then some (arr.set i v) else none

/-- The `for (a = 1; curr != NULL; a++, curr = curr->next)` loop of
`processCommand`: returns the final index and the array. -/
def fillArgs : List (String × TokenType) → Nat → List (Option String) →
    Option (Nat × List (Option String))
  | [], a, arr => some (a, arr)
  | curr :: next, a, arr =>
    match writeAt arr a (some curr.1) with
    | none => none
    | some arr1 => fillArgs next (a + 1) arr1

/-- The argument array of `processCommand`: `calloc(1000, ...)`, the command
name at index 0, the arguments from index 1, then the `NULL` store. `none`
when a store falls outside the 1000 slots. -/
def buildArgs (cmd : Command) : Option (List (Option String)) :=
  match writeAt (List.replicate 1000 none) 0 (some cmd.command) with
  | none => none
  | some arr0 =>
    match fillArgs cmd.args 1 arr0 with
    | none => none
    | some (a, arr1) => writeAt arr1 a none

/-- What `execvp` reads from an argument array: the entries before the first
`NULL`. -/
def argvOf (arr : List (Option String)) : List String :=
  (arr.takeWhile Option.isSome).filterMap id

/-! ## Shell state (global.h) and the operating-system model -/

inductive Outcome where
  | running
  | returned
  | assertFailed
  | memoryFault
  | exited (code : Nat)
deriving DecidableEq, Repr

inductive Diag where
  | msg (text : String)
  | doneExit (status : Int)
deriving DecidableEq, Repr

inductive OpenMode where
  | rdonly | wronly | creat
deriving DecidableEq, Repr

/-- A forked child: the Command it was forked for, what its descriptors 0, 1
and 2 refer to when it reaches `execvp` (or exits), the `open`/`creat` calls it
made with their success, the argument array given to `execvp` (`none` when the
child exits before `execvp`), and its exit code. -/
structure Child where
  pid : Nat
  cmd : Command
  fd0 : Option Obj
  fd1 : Option Obj
  fd2 : Option Obj
  opens : List (Option String × OpenMode × Bool)
  execArgs : Option (List (Option String))
  exitCode : Nat
deriving DecidableEq, Repr

/-- The globals of `global.h` together with the parts of the operating system
the shell acts on. `run` is the outcome of a program started with `execvp`
(`none`: `execvp` fails; `some c`: the program exits normally with code `c`),
`chdirTo cwd path` the working directory after a successful `chdir`, `files`
the names of the existing files and `denied` the names that cannot be opened
or created. The last block of fields is a log of what the shell did. -/
structure Shell where
  varList : VarSet
  sFlag : Nat
  status : Int
  dir : String
  ioFlag : Nat
  inputFlag : Nat
  outputFlag : Nat
  errorFlag : Nat
  input : Option String
  output : Option String
  error : Option String
  comm0 : Nat
  comm1 : Nat
  fds : FdTable
  nextPipe : Nat
  nextPid : Nat
  files : List String
  denied : List String
  home : Option String
  cwd : String
  chdirTo : String → String → Option String
  run : String → List String → Option Nat
  outcome : Outcome
  handed : List (Command × VarSet)
  children : List Child
  reaped : List Nat
  pipesMade : List (Nat × Nat × Nat)
  closeLog : List (Option Nat × Option Obj)
  writes : List (Option Obj × String)
  diag : List Diag

/-- The encoding of a normal exit with code `c` in the status word that
`waitpid` stores (sys/wait.h of the platform: the code sits in bits 8..15). -/
def W_EXITCODE (c : Nat) : Int := ((c % 256) * 256 : Nat)

/-- The exit code held in a status word (sys/wait.h). -/
def WEXITSTATUS (status : Int) : Int := (status / 256) % 256

/-! ## Builtins (builtins.c) -/

def builtinNames : List String := ["SET", "LIST", "EXIT", "STATUS", "CD", "PWD"]

/-- `strcasecmp(a, b) == 0`. -/
def strcasecmpEq (a b : String) : Bool :=
  a.data.map Char.toLower == b.data.map Char.toLower

/-- The index of the first builtin name matching `name`, as found by the
`for` loop of `processBuiltin`. -/
def builtinIndex (name : String) : Option Nat :=
  (List.range builtinNames.length).find?
    (fun i => strcasecmpEq name (builtinNames.getD i ""))

/-- A `printf`/`printSet` to `stdout`: the text goes to whatever descriptor 1
refers to at the time of the call. -/
def writeStdout (s : Shell) (text : String) : Shell :=
  { s with writes := s.writes ++ [(fdGet s.fds 1, text)] }

/-- A `fprintf(stderr, ...)` of the shell itself. -/
def writeStderr (s : Shell) (text : String) : Shell :=
  { s with diag := s.diag ++ [Diag.msg text] }

/-- `stringCopy(pwd, holder, 1000, homeLength)` behind the two characters
`~/`: the characters of `holder` from index `homeLength + 1` on, at most
998 of them. -/
def stringCopy (src : List Char) (homeLength : Nat) : List Char :=
  (src.drop (homeLength + 1)).take 998

/-- `findDir`: recompute the prompt text `dir` (`strlen` of a missing `HOME`
is a fault). -/
def findDir (s : Shell) : Shell :=
  match s.home with
  | none => { s with outcome := Outcome.memoryFault }
  | some home =>
    if s.cwd.data.take home.length = home.data then
      if s.cwd.length = home.length then { s with dir := "~" }
      else { s with dir := String.mk ('~' :: '/' :: stringCopy s.cwd.data home.length) }
    else { s with dir := s.cwd }

/-- `processSet`. The store follows `ProgramTechShell/varSet.c`; the token type
that the top-level `addToSet` receives as a fourth argument is taken to leave
name and value alone. -/
def processSet (s : Shell) (cmd : Command) : Shell :=
  match cmd.args with
  | [] => s
  | [a] => { s with varList := addToSet s.varList a.1 "" }
  | a :: b :: _ => { s with varList := addToSet s.varList a.1 b.1 }

/-- `processList`: `printSet(varList, stdout); fflush(stdout)`. -/
def processList (s : Shell) (_cmd : Command) : Shell :=
  writeStdout s (String.join (printSet s.varList))

/-- `processExit`: `exit(EXIT_SUCCESS)`. -/
def processExit (s : Shell) (_cmd : Command) : Shell :=
  { s with outcome := Outcome.exited 0 }

/-- `processStatus`. -/
def processStatus (s : Shell) (_cmd : Command) : Shell :=
  if s.sFlag = 0 then { s with sFlag := 1 } else { s with sFlag := 0 }

/-- `processCD`. -/
def processCD (s : Shell) (cmd : Command) : Shell :=
  match cmd.args with
  | [] =>
    let target := match s.home with
      | none => "/"
      | some home => home
    match s.chdirTo s.cwd target with
    | none => findDir (writeStderr s "Unknown error with cd.\n")
    | some d => findDir { s with cwd := d }
  | a :: _ =>
    match s.chdirTo s.cwd a.1 with
    | none => findDir (writeStderr s ("Directory " ++ a.1 ++ " not found.\n"))
    | some d => findDir { s with cwd := d }

/-- `processPWD`. The buffer `pwd` has 1000 places: `~/`, the copied
characters, and zeros in the places that remain. When all 998 places behind
`~/` are taken by copied characters the buffer holds no terminator and
`printf("%s\n", pwd)` reads past its end. -/
def processPWD (s : Shell) (_cmd : Command) : Shell :=
  match s.home with
  | none => { s with outcome := Outcome.memoryFault }
  | some home =>
    if s.cwd.data.take home.length = home.data then
      if s.cwd.length = home.length then writeStdout s (home ++ "\n")
      else
        let pwd := String.mk ('~' :: '/' :: stringCopy s.cwd.data home.length)
        if (stringCopy s.cwd.data home.length).length < 998 then
          { writeStdout s (pwd ++ "\n") with dir := pwd }
        else { s with outcome := Outcome.memoryFault }
    else { writeStdout s (s.cwd ++ "\n") with dir := s.cwd }

/-- The table `builtinFn`, by index. -/
def builtinFn (i : Nat) (s : Shell) (cmd : Command) : Shell :=
  match i with
  | 0 => processSet s cmd
  | 1 => processList s cmd
  | 2 => processExit s cmd
  | 3 => processStatus s cmd
  | 4 => processCD s cmd
  | _ => processPWD s cmd

/-- The parent's `close(fd)`, logged with the object that was closed. -/
def shClose (s : Shell) (fd : Option Nat) : Shell :=
  { s with
    fds := (sysClose s.fds fd).1
    closeLog := s.closeLog ++ [(fd, fd.bind (fdGet s.fds))] }

/-- The parent's `pipe(comm)`. -/
def shPipe (s : Shell) : Shell :=
  let p := sysPipe s.fds s.nextPipe
  { s with
    fds := p.1, comm0 := p.2.1, comm1 := p.2.2
    nextPipe := s.nextPipe + 1
    pipesMade := s.pipesMade ++ [(s.nextPipe, p.2.1, p.2.2)] }

/-- The part of `processBuiltin` before the handler runs: redirect the shell's
own descriptors 0 and 1 for piped input and output. Returns the state and the
saved duplicates `savedIn`, `savedOut`. -/
def builtinRedirect (s : Shell) (cmd : Command) : Shell × Option Nat × Option Nat :=
  let r1 : Shell × Option Nat :=
    if cmd.input = InputKind.PIPE_IN then
      let d := sysDup s.fds 0
      let t := sysDup2 d.1 (some s.comm0) 0
      (shClose { s with fds := t } (some s.comm0), d.2)
    else (s, none)
  let r2 : Shell × Option Nat :=
    if cmd.output = OutputKind.PIPE_OUT then
      let d := sysDup r1.1.fds 1
      let s2 := shPipe { r1.1 with fds := d.1 }
      let t := sysDup2 s2.fds (some s2.comm1) 1
      (shClose { s2 with fds := t } (some s2.comm1), d.2)
    else (r1.1, none)
  (r2.1, r1.2, r2.2)

/-- The part of `processBuiltin` after the handler: put descriptors 0 and 1
back and close the saved duplicates. -/
def builtinRestore (s : Shell) (cmd : Command) (savedIn savedOut : Option Nat) : Shell :=
  let s1 :=
    if cmd.input = InputKind.PIPE_IN then
      shClose { s with fds := sysDup2 s.fds savedIn 0 } savedIn
    else s
  if cmd.output = OutputKind.PIPE_OUT then
    shClose { s1 with fds := sysDup2 s1.fds savedOut 1 } savedOut
  else s1

/-- `processBuiltin`: the state afterwards and the return value (1: a builtin
was found and run). When the handler ends the process nothing after it
happens. -/
def processBuiltin (s : Shell) (cmd : Command) : Shell × Nat :=
  match builtinIndex cmd.command with
  | none => (s, 0)
  | some i =>
    let r := builtinRedirect s cmd
    let s1 := builtinFn i r.1 cmd
    if s1.outcome = Outcome.running then
      (builtinRestore s1 cmd r.2.1 r.2.2, 1)
    else (s1, 1)

/-! ## Launching an external command (command.c, processCommand) -/

/-- The child's view while it sets up its descriptors: its own copy of the
descriptor table, the files that exist, and the `open`/`creat` calls made. -/
structure ChildSt where
  fds : FdTable
  files : List String
  denied : List String
  opens : List (Option String × OpenMode × Bool)
deriving DecidableEq, Repr

/-- `open(name, O_RDONLY)` and `open(name, O_WRONLY)` succeed on an existing
file; `creat(name, S_IRWXU)` succeeds on a missing one too. A null name fails,
and so does every call on a name in `denied` (no permission, missing
directory). Returns the descriptor (`none` for -1). -/
def childOpen (c : ChildSt) (name : Option String) (mode : OpenMode) : ChildSt × Option Nat :=
  match name with
  | none => ({ c with opens := c.opens ++ [(name, mode, false)] }, none)
  | some n =>
    if n ∉ c.denied ∧ (mode = OpenMode.creat ∨ n ∈ c.files) then
      let a := fdAlloc c.fds (Obj.file n)
      ({ fds := a.1
         files := if n ∈ c.files then c.files else n :: c.files
         denied := c.denied
         opens := c.opens ++ [(name, mode, true)] }, some a.2)
    else ({ c with opens := c.opens ++ [(name, mode, false)] }, none)

/-- `dup2(a, b); close(a)` in the child. -/
def childDup2Close (c : ChildSt) (src : Option Nat) (dst : Nat) : ChildSt :=
  { c with fds := (sysClose (sysDup2 c.fds src dst) src).1 }

def childClose (c : ChildSt) (fd : Nat) : ChildSt :=
  { c with fds := (sysClose c.fds (some fd)).1 }

/-- The `open` of an output or error target: `open(name, O_WRONLY)` and, when
that fails, `creat(name, S_IRWXU)`. -/
def childOpenOut (c : ChildSt) (name : Option String) : ChildSt × Option Nat :=
  match childOpen c name OpenMode.wronly with
  | (c1, some fd) => (c1, some fd)
  | (c1, none) => childOpen c1 name OpenMode.creat

/-- The child branch of `processCommand` up to `execvp`: the child's state
and whether it reaches `execvp` (it exits with 1 when the input file cannot be
opened). -/
def childSetup (s : Shell) (cmd : Command) (inputPipe : Nat) : ChildSt × Bool :=
  let c0 : ChildSt := { fds := s.fds, files := s.files, denied := s.denied, opens := [] }
  let c1 := if cmd.input = InputKind.PIPE_IN then childDup2Close c0 (some inputPipe) 0 else c0
  let c2 :=
    if cmd.output = OutputKind.PIPE_OUT then
      childClose (childDup2Close c1 (some s.comm1) 1) s.comm0
    else c1
  let r3 : ChildSt × Bool :=
    if cmd.input = InputKind.IFILE ∨ s.inputFlag = 1 then
      match childOpen c2 s.input OpenMode.rdonly with
      | (c, none) => (c, false)
      | (c, some fd) => (childDup2Close c (some fd) 0, true)
    else (c2, true)
  if r3.2 then
    let c4 :=
      if cmd.output = OutputKind.OFILE ∨ s.outputFlag = 1 then
        let o := childOpenOut r3.1 s.output
        childClose (childDup2Close o.1 o.2 1) s.comm0
      else r3.1
    let c5 :=
      if cmd.output = OutputKind.ERRFILE ∨ s.errorFlag = 1 then
        let o := childOpenOut c4 s.error
        childClose (childDup2Close o.1 o.2 2) s.comm0
      else c4
    (c5, true)
  else r3

/-- `fork()` in `processCommand`: the child is set up from the parent's state
at the time of the fork; the parent gets a fresh non-zero process id. -/
def forkChild (s : Shell) (cmd : Command) (inputPipe : Nat)
    (args : List (Option String)) : Shell × Nat :=
  let c := childSetup s cmd inputPipe
  let pid := s.nextPid + 1
  let code : Nat :=
    if c.2 then
      match s.run cmd.command (argvOf args) with
      | some k => k
      | none => 1
    else 1
  let child : Child :=
    { pid := pid, cmd := cmd
      fd0 := fdGet c.1.fds 0, fd1 := fdGet c.1.fds 1, fd2 := fdGet c.1.fds 2
      opens := c.1.opens
      execArgs := if c.2 then some args else none
      exitCode := code }
  ({ s with nextPid := pid, files := c.1.files, children := s.children ++ [child] }, pid)

/-- `processCommand`: returns the child's process id, 0 for a builtin. Every
call is logged in `handed` with the variable store at that moment. -/
def processCommand (s : Shell) (cmd : Command) : Shell × Nat :=
  let s0 := { s with handed := s.handed ++ [(cmd, s.varList)] }
  let b := processBuiltin s0 cmd
  if b.2 ≠ 0 then
    if b.1.outcome = Outcome.running then (findDir b.1, 0) else (b.1, 0)
  else
    match buildArgs cmd with
    | none => ({ s0 with outcome := Outcome.memoryFault }, 0)
    | some args =>
      let inputPipe := s0.comm0
      let s1 :=
        if cmd.output = OutputKind.PIPE_OUT ∨ cmd.output = OutputKind.OFILE then shPipe s0
        else s0
      let f := forkChild s1 cmd inputPipe args
      let s2 := if cmd.input = InputKind.PIPE_IN then shClose f.1 (some inputPipe) else f.1
      let s3 := if cmd.output = OutputKind.PIPE_OUT then shClose s2 (some s2.comm1) else s2
      (findDir s3, f.2)

/-! ## The line processor (techShell.c, processLine) -/

inductive Mode where
  | CMD | PIPED_CMD | ARGS
deriving DecidableEq, Repr

/-- The local pointer `cmd` of `processLine`: null, pointing to a live
Command, or left pointing to a Command that `freeCommand` has released. -/
inductive CmdPtr where
  | null
  | live (c : Command)
  | freed
deriving DecidableEq, Repr

/-- The locals of `processLine` next to the global state. -/
structure LineState where
  sh : Shell
  processMode : Mode
  cmd : CmdPtr
  doneFlag : Bool

def LineState.stop (ls : LineState) (o : Outcome) : LineState :=
  { ls with sh := { ls.sh with outcome := o } }

/-- `waitpid(child, &status, 0)`: the status word of the child with that id. -/
def waitpidStatus (s : Shell) (child : Nat) : Int :=
  match s.children.find? (fun c => c.pid == child) with
  | some c => W_EXITCODE c.exitCode
  | none => s.status

/-- The word case once the token is expanded and no redirect is pending. -/
def wordCase (ls : LineState) (expandedToken : String) (type : TokenType) : LineState :=
  match ls.processMode, ls.cmd with
  | Mode.CMD, CmdPtr.null =>
    { ls with cmd := CmdPtr.live (newCommand expandedToken), processMode := Mode.ARGS }
  | Mode.CMD, _ => ls.stop Outcome.assertFailed
  | Mode.PIPED_CMD, _ =>
    { ls with
      cmd := CmdPtr.live { newCommand expandedToken with input := InputKind.PIPE_IN }
      processMode := Mode.ARGS }
  | Mode.ARGS, CmdPtr.live c => { ls with cmd := CmdPtr.live (addArg c expandedToken type) }
  | Mode.ARGS, CmdPtr.null => ls.stop Outcome.assertFailed
  | Mode.ARGS, CmdPtr.freed => ls.stop Outcome.memoryFault

/-- The statement terminator case (`SEMICOLON`, and `EOL` after it has set
`doneFlag`). -/
def terminatorCase (ls : LineState) : LineState :=
  match ls.processMode, ls.cmd with
  | Mode.PIPED_CMD, CmdPtr.null =>
    { ls with sh := { writeStderr ls.sh "Error: Broken pipe\n" with
                      outcome := Outcome.returned } }
  | Mode.PIPED_CMD, _ =>
    { ls with sh := { writeStderr ls.sh "Error: Broken pipe\n" with
                      outcome := Outcome.assertFailed } }
  | Mode.CMD, CmdPtr.null =>
    { ls with
      processMode := Mode.CMD
      sh := { ls.sh with inputFlag := 0, outputFlag := 0, errorFlag := 0, ioFlag := 0 } }
  | Mode.CMD, _ => ls.stop Outcome.assertFailed
  | Mode.ARGS, CmdPtr.null => ls.stop Outcome.assertFailed
  | Mode.ARGS, CmdPtr.freed => ls.stop Outcome.memoryFault
  | Mode.ARGS, CmdPtr.live c =>
    let r := processCommand ls.sh c
    if r.1.outcome = Outcome.running then
      let s1 :=
        if r.2 ≠ 0 then
          let st := waitpidStatus r.1 r.2
          let s : Shell := { r.1 with status := st, reaped := r.1.reaped ++ [r.2] }
          if s.sFlag = 1 then { s with diag := s.diag ++ [Diag.doneExit st] } else s
        else
          if r.1.sFlag = 1 then { r.1 with diag := r.1.diag ++ [Diag.doneExit 0] } else r.1
      { ls with
        cmd := CmdPtr.null
        processMode := Mode.CMD
        sh := { s1 with inputFlag := 0, outputFlag := 0, errorFlag := 0, ioFlag := 0 } }
    else { ls with sh := r.1 }

/-- A redirect operator case: set the flags, then store the stream tag through
`cmd` (a fault when `cmd` is null or released). -/
def redirectCase (ls : LineState) (setFlags : Shell → Shell)
    (setTag : Command → Command) : LineState :=
  match ls.cmd with
  | CmdPtr.live c => { ls with sh := setFlags ls.sh, cmd := CmdPtr.live (setTag c) }
  | _ => { ls with sh := { setFlags ls.sh with outcome := Outcome.memoryFault } }

/-- One pass through the `switch` of `processLine` for the token `answer`. -/
def lineStep (ls : LineState) (answer : aToken) : LineState :=
  match answer.type with
  | TokenType.ERROR =>
    let s := writeStderr ls.sh "Error parsing line.\n"
    match ls.cmd with
    | CmdPtr.freed => { ls with sh := { s with outcome := Outcome.memoryFault } }
    | _ => { ls with sh := { s with outcome := Outcome.returned }, cmd := CmdPtr.null }
  | TokenType.BASIC | TokenType.DOUBLE_QUOTE | TokenType.SINGLE_QUOTE =>
    let expandedToken := expandToken ls.sh.varList answer
    if ls.sh.inputFlag = 1 ∧ ls.sh.ioFlag = 1 then
      { ls with sh := { ls.sh with input := some expandedToken, inputFlag := 0, ioFlag := 0 } }
    else if ls.sh.outputFlag = 1 ∧ ls.sh.ioFlag = 1 then
      { ls with sh := { ls.sh with output := some expandedToken, ioFlag := 0 } }
    else if ls.sh.errorFlag = 1 ∧ ls.sh.ioFlag = 1 then
      { ls with sh := { ls.sh with error := some expandedToken, ioFlag := 0 } }
    else wordCase ls expandedToken answer.type
  | TokenType.PIPE =>
    match ls.processMode, ls.cmd with
    | Mode.ARGS, CmdPtr.live c =>
      let r := processCommand ls.sh { c with output := OutputKind.PIPE_OUT }
      { ls with sh := r.1, cmd := CmdPtr.freed, processMode := Mode.PIPED_CMD }
    | Mode.ARGS, CmdPtr.null => ls.stop Outcome.assertFailed
    | Mode.ARGS, CmdPtr.freed => ls.stop Outcome.memoryFault
    | _, CmdPtr.null =>
      { ls with sh := { writeStderr ls.sh "Error: Missing command\n" with
                        outcome := Outcome.returned } }
    | _, _ =>
      { ls with sh := { writeStderr ls.sh "Error: Missing command\n" with
                        outcome := Outcome.assertFailed } }
  | TokenType.INPUT =>
    redirectCase ls (fun s => { s with inputFlag := 1, ioFlag := 1 })
      (fun c => { c with input := InputKind.IFILE })
  | TokenType.OUTPUT =>
    redirectCase ls (fun s => { s with outputFlag := 1, ioFlag := 1 })
      (fun c => { c with output := OutputKind.OFILE })
  | TokenType.ERR_REDIR =>
    redirectCase ls (fun s => { s with errorFlag := 1, ioFlag := 1 })
      (fun c => { c with output := OutputKind.ERRFILE })
  | TokenType.EOL => terminatorCase { ls with doneFlag := true }
  | TokenType.SEMICOLON => terminatorCase ls

/-- The `while (!doneFlag)` loop over the tokens that `getNextToken` returns;
once the list is used up `getNextToken` returns `EOL`. -/
def runTokens : LineState → List aToken → LineState
  | ls, [] => lineStep ls ⟨"", TokenType.EOL⟩
  | ls, t :: ts =>
    let ls1 := lineStep ls t
    if ls1.sh.outcome = Outcome.running ∧ ls1.doneFlag = false then runTokens ls1 ts
    else ls1

/-- `processLine` on the token sequence of the line: the shell state when the
call is over (`outcome` tells how it ended). -/
def processLine (s : Shell) (line : List aToken) : Shell :=
  let ls := runTokens
    { sh := { s with outcome := Outcome.running }, processMode := Mode.CMD,
      cmd := CmdPtr.null, doneFlag := false } line
  if ls.sh.outcome = Outcome.running then
    match ls.cmd with
    | CmdPtr.null => { ls.sh with outcome := Outcome.returned }
    | _ => { ls.sh with outcome := Outcome.assertFailed }
  else ls.sh

/-- The state in which `main` first calls `processLine`: empty store, status
reporting off, all redirect flags 0, zeroed globals, and descriptors 0, 1, 2
inherited. `HOME` is set (otherwise the `findDir` call of `main` faults). -/
def initShell (run : String → List String → Option Nat)
    (chdirTo : String → String → Option String) (home cwd : String)
    (files : List String) : Shell :=
  { varList := createVarSet, sFlag := 0, status := 0, dir := cwd
    ioFlag := 0, inputFlag := 0, outputFlag := 0, errorFlag := 0
    input := none, output := none, error := none
    comm0 := 0, comm1 := 0
    fds := [some (Obj.inherited 0), some (Obj.inherited 1), some (Obj.inherited 2)]
    nextPipe := 0, nextPid := 0
    files := files, denied := [], home := some home, cwd := cwd
    chdirTo := chdirTo, run := run
    outcome := Outcome.running
    handed := [], children := [], reaped := []
    pipesMade := [], closeLog := [], writes := [], diag := [] }

/-- The read loop of `main`: every line is passed to `processLine` until the
input is used up or the shell has ended. -/
def runLines : Shell → List (List aToken) → Shell
  | s, [] => s
  | s, line :: rest =>
    if (processLine s line).outcome = Outcome.returned then runLines (processLine s line) rest
    else processLine s line

/-- `main` run on a script (no prompt is printed), from the state the process
starts in: the store is created, status reporting switched off, `findDir()` is
called, the redirect flags are zeroed, and then the lines are read. -/
def main (s : Shell) (lines : List (List aToken)) : Shell :=
  let s1 := findDir { s with varList := createVarSet, sFlag := 0, outcome := Outcome.running }
  if s1.outcome = Outcome.running then
    runLines { s1 with ioFlag := 0, inputFlag := 0, outputFlag := 0, errorFlag := 0,
                       varList := createVarSet } lines
  else s1

/-- A word token. -/
def word (text : String) : aToken := ⟨text, TokenType.BASIC⟩

/-- An operator token (its text is not used). -/
def op (type : TokenType) : aToken := ⟨"", type⟩

end TechShell

/-! # The statement-based variant (directory ProgramTechShell) -/

namespace ProgramTechShell

open TechShell (VarSet addToSet printSet FdTable Obj fdGet sysPipe sysClose Outcome
  writeAt strcasecmpEq W_EXITCODE WEXITSTATUS)

def MAX_PROCS : Nat := 100

inductive InputKind where
  | STDIN | PIPE_IN
deriving DecidableEq, Repr

inductive OutputKind where
  | STDOUT | PIPE_OUT
deriving DecidableEq, Repr

/-- The Command of this variant: the argument chain and the stream tags, plus
the three descriptors that `processStatement` fills in. -/
structure Command where
  command : String
  args : List String
  input : InputKind
  output : OutputKind
  inFd : Nat
  outFd : Nat
  errFd : Nat
deriving DecidableEq, Repr

def newCommand (cmd : String) : Command :=
  { command := cmd, args := [], input := InputKind.STDIN, output := OutputKind.STDOUT
    inFd := 0, outFd := 1, errFd := 2 }

def addArg (cmd : Command) (arg : String) : Command :=
  { cmd with args := cmd.args ++ [arg] }

/-- A slot of a `malloc`ed `char*` array: not yet written, `NULL`, or a
string. -/
inductive Slot where
  | uninit
  | null
  | str (s : String)
deriving DecidableEq, Repr

/-- The counting loop of `argListToArray`:
`for (cnt = 1, curr = list; curr != NULL; cnt++, curr = curr->next);`. -/
def countArgs : List String → Nat → Nat
  | [], cnt => cnt
  | _ :: next, cnt => countArgs next (cnt + 1)

/-- The copying loop of `argListToArray`. -/
def copyArgs : List String → Nat → List Slot → Option (Nat × List Slot)
  | [], cnt, argv => some (cnt, argv)
  | curr :: next, cnt, argv =>
    match writeAt argv cnt (Slot.str curr) with
    | none => none
    | some argv1 => copyArgs next (cnt + 1) argv1

/-- `argListToArray`: `none` when a store falls outside the allocation. -/
def argListToArray (cmdName : String) (list : List String) : Option (List Slot) :=
  let cnt := countArgs list 1 + 1
  match writeAt (List.replicate cnt Slot.uninit) 0 (Slot.str cmdName) with
  | none => none
  | some argv0 =>
    match copyArgs list 1 argv0 with
    | none => none
    | some (k, argv1) => writeAt argv1 k Slot.null

inductive Diag where
  | msg (text : String)
  | doneExit (code : Option Int)
deriving DecidableEq, Repr

/-- The globals and statics of this variant with the operating-system inputs:
`forkResult n` is what the `n`-th call of `fork` returns to the parent,
`waits` the successive results (process id, status word) of `wait`. An
uninitialised local is `none`. `execs` logs the calls of `execvp` that the
children make: the file name and the argument array. -/
structure Shell where
  varList : VarSet
  exitStatusFlag : Nat
  fds : FdTable
  nextPipe : Nat
  pipeFd0 : Nat
  pipeFd1 : Nat
  home : Option String
  cwd : String
  chdirTo : String → String → Option String
  forkResult : Nat → Int
  forkCalls : Nat
  waits : List (Int × Int)
  procCount : Nat
  pidList : List Int
  status : Option Int
  exitStatus : Option Int
  outcome : Outcome
  launched : List (Int × Command)
  execs : List (String × Option (List Slot))
  waited : List Int
  closeLog : List (Nat × Option Obj)
  writes : List (Option Obj × String)
  diag : List Diag

/-! ## Builtins (ProgramTechShell/builtins.c) -/

def builtinNames : List String := ["CD", "SET", "LIST", "EXIT", "STATUS"]

def builtinIndex (name : String) : Option Nat :=
  (List.range builtinNames.length).find?
    (fun i => strcasecmpEq name (builtinNames.getD i ""))

def isSpaceC (c : Char) : Bool :=
  c = ' ' || c = '\t' || c = '\n' || c = '\r' || c.toNat = 11 || c.toNat = 12

/-- The digit loop of `atoi`. -/
def atoiDigits : List Char → Nat → Nat
  | [], acc => acc
  | c :: cs, acc => if c.isDigit then atoiDigits cs (acc * 10 + (c.toNat - 48)) else acc

/-- `atoi` of the C library: leading white space, an optional sign, then
decimal digits (values outside `int` are not modelled). -/
def atoi (s : String) : Int :=
  match s.data.dropWhile isSpaceC with
  | '-' :: cs => - (atoiDigits cs 0 : Int)
  | '+' :: cs => (atoiDigits cs 0 : Int)
  | cs => (atoiDigits cs 0 : Int)

def processSet (s : Shell) (cmd : Command) : Shell :=
  match cmd.args with
  | [] => s
  | [a] => { s with varList := addToSet s.varList a "" }
  | a :: b :: _ => { s with varList := addToSet s.varList a b }

/-- `processList`: `fdopen(cmd->outFd, "a")`, then `printSet` to that stream
(the `strerror` text of the failure message is fixed to one value). -/
def processList (s : Shell) (cmd : Command) : Shell :=
  match fdGet s.fds cmd.outFd with
  | none => { s with diag := s.diag ++ [Diag.msg "Error: Bad file descriptor\n"] }
  | some o => { s with writes := s.writes ++ [(some o, String.join (printSet s.varList))] }

/-- `processExit`: `exit(0)` without argument, else `exit(atoi(arg))`; the
process exit code is the low byte of the value. -/
def processExit (s : Shell) (cmd : Command) : Shell :=
  match cmd.args with
  | [] => { s with outcome := Outcome.exited 0 }
  | a :: _ => { s with outcome := Outcome.exited ((atoi a) % 256).toNat }

/-- `processCd`: `chdir` to the first argument, to `HOME` without one, to `/`
when `HOME` is unset; a failure is reported on `cmd->errFd` (the `strerror`
text is fixed to one value). -/
def processCd (s : Shell) (cmd : Command) : Shell :=
  let dirName : String :=
    match cmd.args with
    | [] => match s.home with
      | none => "/"
      | some h => h
    | a :: _ => a
  match s.chdirTo s.cwd dirName with
  | some d => { s with cwd := d }
  | none =>
    { s with writes := s.writes ++ [(fdGet s.fds cmd.errFd, ">> Error: chdir failed\n")] }

def processPrintStatus (s : Shell) (cmd : Command) : Shell :=
  match cmd.args with
  | [] => { s with exitStatusFlag := if s.exitStatusFlag = 0 then 1 else 0 }
  | a :: _ =>
    if strcasecmpEq a "OFF" then { s with exitStatusFlag := 0 }
    else if strcasecmpEq a "ON" then { s with exitStatusFlag := 1 }
    else s

def builtinFn (i : Nat) (s : Shell) (cmd : Command) : Shell :=
  match i with
  | 0 => processCd s cmd
  | 1 => processSet s cmd
  | 2 => processList s cmd
  | 3 => processExit s cmd
  | _ => processPrintStatus s cmd

/-- `processBuiltin`: the state afterwards and the return value. -/
def processBuiltin (s : Shell) (cmd : Command) : Shell × Nat :=
  match builtinIndex cmd.command with
  | none => (s, 0)
  | some i => (builtinFn i s cmd, 1)

/-! ## Statements (ProgramTechShell/command.c) -/

/-- `executeCommand`: the parent records the result of `fork` in `pidList`
unless the list is full; the child, which exists when `fork` returned a
process id to the parent, builds `argv` with `argListToArray` and calls
`execvp(cmd->command, argv)`. -/
def executeCommand (s : Shell) (cmd : Command) : Shell :=
  if s.procCount ≥ MAX_PROCS then
    { s with diag := s.diag ++ [Diag.msg ">> Error: Too many pipes.\n"] }
  else
    let pid := s.forkResult s.forkCalls
    { s with
      pidList := s.pidList.set s.procCount pid
      procCount := s.procCount + 1
      forkCalls := s.forkCalls + 1
      launched := s.launched ++ [(pid, cmd)]
      execs :=
        if 0 < pid then s.execs ++ [(cmd.command, argListToArray cmd.command cmd.args)]
        else s.execs }

def processCommand (s : Shell) (cmd : Command) : Shell :=
  let r := processBuiltin s cmd
  if r.2 ≠ 0 then r.1 else executeCommand s cmd

def shClose (s : Shell) (fd : Nat) : Shell :=
  { s with fds := (sysClose s.fds (some fd)).1, closeLog := s.closeLog ++ [(fd, fdGet s.fds fd)] }

/-- The body of the `for` loop of `processStatement` for one Command. -/
def launchOne (s : Shell) (cmd : Command) : Shell :=
  let c1 : Command :=
    if cmd.input = InputKind.PIPE_IN then { cmd with inFd := s.pipeFd0 } else { cmd with inFd := 0 }
  let r : Shell × Command :=
    if cmd.output = OutputKind.PIPE_OUT then
      let p := sysPipe s.fds s.nextPipe
      ({ s with fds := p.1, pipeFd0 := p.2.1, pipeFd1 := p.2.2, nextPipe := s.nextPipe + 1 },
       { c1 with outFd := p.2.2 })
    else (s, { c1 with outFd := 1 })
  let c : Command := { r.2 with errFd := 2 }
  let s1 := processCommand r.1 c
  if s1.outcome = Outcome.running then
    let s2 := if c.inFd ≠ 0 then shClose s1 c.inFd else s1
    let s3 := if c.outFd ≠ 1 then shClose s2 c.outFd else s2
    if c.errFd ≠ 2 then shClose s3 c.errFd else s3
  else s1

def launchAll : Shell → List Command → Shell
  | s, [] => s
  | s, c :: cs =>
    let s1 := launchOne s c
    if s1.outcome = Outcome.running then launchAll s1 cs else s1

/-- The search `for (i = 0; i < procCount; i++) if (pidList[i] == pid) break;`:
the index reached. -/
def findPid (pidList : List Int) (procCount : Nat) (pid : Int) : Nat :=
  ((List.range procCount).find? (fun i => pidList.getD i 0 == pid)).getD procCount

/-- The reaping loop `while (leftOver > 0)`; the first argument is `leftOver`.
When no result of `wait` is left, `wait` returns -1 and stores nothing. -/
def reapLoop : Nat → Shell → Shell
  | 0, s => s
  | leftOver + 1, s =>
    let pid : Int := match s.waits with
      | [] => -1
      | w :: _ => w.1
    let status : Option Int := match s.waits with
      | [] => s.status
      | w :: _ => some w.2
    let i := findPid s.pidList s.procCount pid
    let s1 : Shell := { s with waits := s.waits.tail, status := status, waited := s.waited ++ [pid] }
    if i < s.procCount then
      reapLoop leftOver
        { s1 with
          pidList := s1.pidList.set i (-1)
          exitStatus := if i + 1 = s.procCount then status else s1.exitStatus }
    else { s1 with outcome := Outcome.assertFailed }

/-- `processStatement`: launch every Command, reap, and report the exit
status when `exitStatusFlag` is set. The locals `status` and `exitStatus`
start uninitialised. -/
def processStatement (s : Shell) (stmt : List Command) : Shell :=
  let s0 : Shell := { s with procCount := 0, status := none, exitStatus := none,
                             outcome := Outcome.running }
  let s1 := launchAll s0 stmt
  if s1.outcome = Outcome.running then
    let s2 := reapLoop s1.procCount s1
    if s2.outcome = Outcome.running then
      let s3 : Shell :=
        if s2.exitStatusFlag ≠ 0 then
          { s2 with diag := s2.diag ++ [Diag.doneExit (s2.exitStatus.map WEXITSTATUS)] }
        else s2
      { s3 with outcome := Outcome.returned }
    else s2
  else s1

end ProgramTechShell

/-! # The statement shape of a plain pipeline -/

namespace TechShell

/-- A word token: plain, double-quoted or single-quoted. -/
def isWord (t : aToken) : Bool :=
  t.type = TokenType.BASIC || t.type = TokenType.DOUBLE_QUOTE
    || t.type = TokenType.SINGLE_QUOTE

/-- The token sequence `c1 | c2 | ... | cn`. -/
def pipelineTokens : List (List aToken) → List aToken
  | [] => []
  | [c] => c
  | c :: cs => c ++ op TokenType.PIPE :: pipelineTokens cs

/-- The first word of a command's token list. -/
def firstWord (c : List aToken) : aToken := c.headD (word "")

/-- The Command the specification describes for the word list `c`, read under
the store `vars`: the name is the expansion of the first word, the arguments
are the expansions of the other words in order; the first Command of a
pipeline reads `STDIN` and every later one `PIPE_IN`, the last one writes
`STDOUT` and every earlier one `PIPE_OUT`. -/
def expectedCommand (vars : VarSet) (c : List aToken) (first last : Bool) : Command :=
  { command := expandToken vars (firstWord c)
    args := c.tail.map (fun t => (expandToken vars t, t.type))
    input := if first then InputKind.STDIN else InputKind.PIPE_IN
    output := if last then OutputKind.STDOUT else OutputKind.PIPE_OUT }

/-- The log entries the specification describes for the commands `cs`, the
`i`-th being read under the `i`-th store of `stores`. -/
def expectedHanded : List VarSet → List (List aToken) → Bool → List (Command × VarSet)
  | v :: vs, c :: cs, first =>
    (expectedCommand v c first cs.isEmpty, v) :: expectedHanded vs cs false
  | _, _, _ => []

/-- The store after a Command was handed over: the builtin `SET` (entry 0 of
the table) sets the name given as its first argument, as `processSet` does;
every other Command leaves the store as it is. -/
def storeAfter (vars : VarSet) (cmd : Command) : VarSet :=
  if builtinIndex cmd.command = some 0 then
    match cmd.args with
    | [] => vars
    | [a] => addToSet vars a.1 ""
    | a :: b :: _ => addToSet vars a.1 b.1
  else vars

/-- The store in effect when each Command of the pipeline `cs` is handed over,
for a line that starts under the store `vars`. -/
def storesAlong (vars : VarSet) : List (List aToken) → Bool → List VarSet
  | [], _ => []
  | c :: cs, first =>
    vars :: storesAlong (storeAfter vars (expectedCommand vars c first cs.isEmpty)) cs false

end TechShell

/-! # Prefixes of a line, redirect targets, and sequences of SET -/

namespace TechShell

/-- The locals of `processLine` at its first token. -/
def lineStart (s : Shell) : LineState :=
  { sh := { s with outcome := Outcome.running }, processMode := Mode.CMD,
    cmd := CmdPtr.null, doneFlag := false }

/-- The `while (!doneFlag)` loop of `processLine` over the first tokens of a
line only: the state in which the next token is read (or the state in which
the loop was left). -/
def runPrefix : LineState → List aToken → LineState
  | ls, [] => ls
  | ls, t :: ts =>
    let ls1 := lineStep ls t
    if ls1.sh.outcome = Outcome.running ∧ ls1.doneFlag = false then runPrefix ls1 ts
    else ls1

/-- A token that neither is a pipe nor ends a statement. -/
def insideCommand (t : aToken) : Bool :=
  t.type ≠ TokenType.PIPE && t.type ≠ TokenType.SEMICOLON && t.type ≠ TokenType.EOL

/-- The files of the system with their contents. -/
abbrev FileStore := List (String × List Char)

def fileContent (fs : FileStore) (name : String) : Option (List Char) :=
  (fs.find? (fun e => e.1 == name)).map (fun e => e.2)

/-- Give the file `name` the content `data`, creating the file when missing. -/
def setContent : FileStore → String → List Char → FileStore
  | [], name, data => [(name, data)]
  | e :: rest, name, data =>
    if e.1 == name then (name, data) :: rest else e :: setContent rest name data

/-- `open(name, O_WRONLY)`: succeeds on an existing file and leaves its
content as it is; the file offset of the new descriptor is 0. -/
def openWronly (fs : FileStore) (name : String) : Option FileStore :=
  match fileContent fs name with
  | some _ => some fs
  | none => none

/-- `creat(name, S_IRWXU)`: the file exists afterwards and is empty. -/
def creatFile (fs : FileStore) (name : String) : FileStore := setContent fs name []

/-- The opening of an output or error target in the child of `processCommand`:
`file = open(name, O_WRONLY); if (file == -1) file = creat(name, S_IRWXU);`. -/
def openTarget (fs : FileStore) (name : String) : FileStore :=
  match openWronly fs name with
  | some fs1 => fs1
  | none => creatFile fs name

/-- A program writing the bytes `b` through a descriptor whose offset is 0:
the first `b.length` bytes of the file are replaced, later bytes stay. -/
def writeFromStart (fs : FileStore) (name : String) (b : List Char) : FileStore :=
  setContent fs name (b ++ ((fileContent fs name).getD []).drop b.length)

/-- The target file after the redirected Command has written `b`. -/
def redirectWrite (fs : FileStore) (name : String) (b : List Char) : FileStore :=
  writeFromStart (openTarget fs name) name b

/-- The store after the commands `SET n v` for the pairs of `ops`, in order,
starting from the empty store. -/
def setAll (ops : List (String × String)) : VarSet :=
  ops.foldl (fun st p => addToSet st p.1 p.2) createVarSet

/-- The names in the order in which they were first inserted. -/
def insertionOrder (names : List String) : List String :=
  names.foldl (fun acc n => if n ∈ acc then acc else acc ++ [n]) []

end TechShell

/-! # Substitution passes and decimal texts -/

namespace TechShell

/-- The results of the passes that the `while (changeFlag && count++ <
MAX_SUBSTITUTION_LEVEL)` loop of `processLine` makes, in order; `fuel` is the
number of iterations the count still allows and the argument is the result of
the pass before. -/
def loopPasses (vars : VarSet) : Nat → String × Bool → List (String × Bool)
  | 0, _ => []
  | fuel + 1, (s, changed) =>
    if changed then preprocess vars s :: loopPasses vars fuel (preprocess vars s) else []

/-- All the substitution passes made for a word or double-quoted token: the
call of `preprocess` on the token, then the passes of the loop. -/
def expandPasses (vars : VarSet) (token : String) : List (String × Bool) :=
  preprocess vars token :: loopPasses vars (MAX_SUBSTITUTION_LEVEL - 1) (preprocess vars token)

/-- The character of a decimal digit. -/
def digitChar (d : Nat) : Char := Char.ofNat (48 + d)

/-- The decimal text of a natural number: its digits, most significant first,
`0` for zero. -/
def natText (n : Nat) : String :=
  String.mk (if n = 0 then ['0'] else ((Nat.digits 10 n).reverse.map digitChar))

/-- The decimal text of an integer: a minus sign before the text of the
absolute value when the integer is negative. -/
def decimalText (n : Int) : String :=
  if n < 0 then "-" ++ natText n.natAbs else natText n.natAbs

end TechShell

/-! # The tokenizer (ProgramTechShell/tokenizer.c) -/

namespace ProgramTechShell

/-- The token kinds of `tokenizer.h`. -/
inductive TokenType where
  | BASIC | SINGLE_QUOTE | DOUBLE_QUOTE | PIPE | SEMICOLON | EOL | ERROR
deriving DecidableEq, Repr

/-- A token: `start` is the null-terminated text `res.start` points to when
`getNextToken` returns, `none` for a null pointer. -/
structure aToken where
  start : Option String
  type : TokenType
deriving DecidableEq, Repr

/-- The white space that `getNextToken` skips: space, tab, newline. -/
def isBlank (c : Char) : Bool := c = ' ' || c = '\t' || c = '\n'

/-- `startToken`: `strcpy` of the line into `tokLine`, and `currTokPos` set to
its start. The tokenizer state is the text `currTokPos` points to, up to its
terminator (`realloc` is taken to succeed; a null `currTokPos` behaves as the
empty text). -/
def startToken (line : String) : List Char :=
  line.data.takeWhile (fun c => c != Char.ofNat 0)

/-- Lines 118-124 of `getNextToken`: when `currTokPos` is not at the end of the
line the character there is overwritten with the terminator and skipped;
otherwise a quoted token becomes `ERROR`. -/
def endToken (type : TokenType) (start : Option (List Char)) (currTokPos : List Char) :
    aToken × List Char :=
  match currTokPos with
  | _ :: rest => (⟨start.map String.mk, type⟩, rest)
  | [] =>
    if type = TokenType.SINGLE_QUOTE ∨ type = TokenType.DOUBLE_QUOTE then
      (⟨start.map String.mk, TokenType.ERROR⟩, [])
    else (⟨start.map String.mk, type⟩, [])

/-- `getNextToken`: the token and the new `currTokPos`. -/
def getNextToken (currTokPos : List Char) : aToken × List Char :=
  match currTokPos with
  | [] => (⟨none, TokenType.EOL⟩, [])
  | _ :: _ =>
    match currTokPos.dropWhile isBlank with
    | [] => (⟨none, TokenType.EOL⟩, [])
    | c :: q =>
      if c = '#' then (⟨none, TokenType.EOL⟩, c :: q)
      else if c = '\'' then
        endToken TokenType.SINGLE_QUOTE (some (q.takeWhile (fun x => x != '\'')))
          (q.dropWhile (fun x => x != '\''))
      else if c = '"' then
        endToken TokenType.DOUBLE_QUOTE (some (q.takeWhile (fun x => x != '"')))
          (q.dropWhile (fun x => x != '"'))
      else if c = '|' then endToken TokenType.PIPE none q
      else if c = ';' then endToken TokenType.SEMICOLON none q
      else
        endToken TokenType.BASIC (some ((c :: q).takeWhile (fun x => !isBlank x)))
          ((c :: q).dropWhile (fun x => !isBlank x))

/-- The tokenizer state after `k` calls of `getNextToken`. -/
def stateAfter : Nat → List Char → List Char
  | 0, st => st
  | k + 1, st => stateAfter k (getNextToken st).2

/-- The result of call number `k + 1` of `getNextToken`. -/
def nthResult (k : Nat) (st : List Char) : aToken :=
  (getNextToken (stateAfter k st)).1

/-- The results of the calls that `processLine` makes: up to and including
the first `EOL` or `ERROR`, at most `fuel` of them. -/
def tokenize : Nat → List Char → List aToken
  | 0, _ => []
  | fuel + 1, st =>
    if (getNextToken st).1.type = TokenType.EOL ∨ (getNextToken st).1.type = TokenType.ERROR
    then [(getNextToken st).1]
    else (getNextToken st).1 :: tokenize fuel (getNextToken st).2

/-- All tokens of a line. -/
def tokensOf (line : String) : List aToken :=
  tokenize (line.length + 1) (startToken line)

end ProgramTechShell

/-! # One substitution pass, as the specification words it -/

namespace TechShell

/-- The store value for a name, empty when the name is absent. -/
def valueOf (vars : VarSet) (name : List Char) : List Char :=
  match findInSet vars (String.mk name) with
  | some m => m.2.data
  | none => []

/-- The segments of a token cut at its `$` characters, read from a literal
segment on: odd segments are copied, an even segment that is followed by a
further segment (so closed by a `$`) is replaced by its value, a last even
segment is dropped. -/
def renderSegments (vars : VarSet) : List (List Char) → List Char
  | [] => []
  | [lit] => lit
  | [lit, _] => lit
  | lit :: name :: next :: rest =>
    lit ++ valueOf vars name ++ renderSegments vars (next :: rest)

/-- The segments read from inside a name whose first characters `name` were
seen already. -/
def renderOpen (vars : VarSet) (name : List Char) : List (List Char) → List Char
  | [] => []
  | [_] => []
  | seg :: next :: rest => valueOf vars (name ++ seg) ++ renderSegments vars (next :: rest)

/-- One substitution pass as the specification describes it, without the
bound on the length of the result. -/
def preprocessReference (vars : VarSet) (token : String) : String × Bool :=
  (String.mk (renderSegments vars (token.data.splitOn '$')), decide ('$' ∈ token.data))

end TechShell

/-! # Auxiliary predicates -/

namespace TechShell

/-- The fields a builtin handler leaves alone. -/
def SameCore (s t : Shell) : Prop :=
  t.fds = s.fds ∧ t.handed = s.handed ∧ t.ioFlag = s.ioFlag ∧ t.home = s.home ∧
  t.comm0 = s.comm0 ∧ t.nextPipe = s.nextPipe

/-- The longest directory name that `findDir` and `processPWD` can hold:
`getcwd(holder, 1000)` returns at most 999 characters, and with `HOME` empty
`stringCopy` needs one place more for its terminator. -/
def dirBound (s : Shell) : Nat := if s.home = some "" then 998 else 999

/-- The working directory and every directory `chdir` can lead to have names
of at most `n` characters. -/
def DirsWithin (n : Nat) (s : Shell) : Prop :=
  s.cwd.length ≤ n ∧ ∀ d a r, s.chdirTo d a = some r → r.length ≤ n

/-- The working directory and every directory `chdir` can lead to have names
of at most `dirBound` characters. -/
def DirsFit (s : Shell) : Prop := DirsWithin (dirBound s) s

end TechShell

/-! # Sample environments -/

namespace TechShell

/-- A sample program table: `false` exits with code 1, `nosuch` cannot be
executed, every other program exits with code 0. -/
def sampleRun (name : String) (_argv : List String) : Option Nat :=
  if name = "false" then some 1 else if name = "nosuch" then none else some 0

/-- A sample `chdir`: every directory named in fewer than 999 characters
exists and becomes the working directory as given. -/
def sampleChdir (_cwd path : String) : Option String :=
  if path.length < 999 then some path else none

/-- The Command `ls -l`. -/
def sampleCommand : Command :=
  { command := "ls", args := [("-l", TokenType.BASIC)], input := InputKind.STDIN,
    output := OutputKind.STDOUT }

/-- The shell as `main` first calls `processLine`, in the sample environment,
with home and working directory `/home/u` and no files. -/
def sampleShell : Shell := initShell sampleRun sampleChdir "/home/u" "/home/u" []

/-- The sample shell on a system where `/nodir/out` cannot be opened or
created. -/
def sampleDeniedShell : Shell := { sampleShell with denied := ["/nodir/out"] }

/-- The sample shell with `HOME` unset. -/
def sampleHomelessShell : Shell := { sampleShell with home := none }

/-- The sample shell with `HOME` set to `/home/user`, in the sibling directory
`/home/userX`. -/
def sampleSiblingShell : Shell :=
  { sampleShell with home := some "/home/user", cwd := "/home/userX" }

/-- A relative path of 998 characters: three directory names of 249 letters
and one of 248, separated by `/`. -/
def sampleLongPath : String :=
  String.mk (List.replicate 249 'a' ++ '/' :: List.replicate 249 'b' ++
    '/' :: List.replicate 249 'c' ++ '/' :: List.replicate 248 'd')

/-- The sample shell with `HOME` set to the empty text, in the directory
`/` followed by `sampleLongPath`. -/
def sampleLongShell : Shell :=
  { sampleShell with home := some "", cwd := "" ++ "/" ++ sampleLongPath }

/-- The sample shell with the variable `c` set to `ls`. -/
def sampleStoreShell : Shell := { sampleShell with varList := [("c", "ls")] }

/-- The token lists of the pipeline `$c$ | wc`. -/
def sampleVarPipeline : List (List aToken) := [[word "$c$"], [word "wc"]]

end TechShell

namespace ProgramTechShell

/-- The statement-based shell before its first statement: descriptors 0, 1, 2
inherited, status reporting as given, every `fork` succeeding with the ids
`100, 101, ...`, and `waits` the results `wait` is going to return. -/
def sampleShell (exitStatusFlag : Nat) (waits : List (Int × Int)) : Shell :=
  { varList := TechShell.createVarSet, exitStatusFlag := exitStatusFlag
    fds := [some (TechShell.Obj.inherited 0), some (TechShell.Obj.inherited 1),
            some (TechShell.Obj.inherited 2)]
    nextPipe := 0, pipeFd0 := 0, pipeFd1 := 0
    home := some "/home/u", cwd := "/home/u"
    chdirTo := TechShell.sampleChdir
    forkResult := fun n => 100 + (n : Int), forkCalls := 0
    waits := waits, procCount := 0, pidList := List.replicate MAX_PROCS 0
    status := none, exitStatus := none, outcome := TechShell.Outcome.running
    launched := [], execs := [], waited := [], closeLog := [], writes := [], diag := [] }

end ProgramTechShell

/-! # Theorems -/

set_option maxRecDepth 100000

namespace TechShell

/-- C3 (evaluated at the failing input): the single-command statement `false`,
whose program exits normally with code 1, run with status reporting on, is
reported as `>> Done: Exit 256`: the raw status word of `waitpid`, whose exit
code field is 1. -/
theorem single_command_reports_raw_status :
    (processLine { sampleShell with sFlag := 1 } [word "false"]).children.map
        (fun c => c.exitCode) = [1] ∧
    (processLine { sampleShell with sFlag := 1 } [word "false"]).diag = [Diag.doneExit 256] ∧
    WEXITSTATUS 256 = 1 := by
  decide

/-- C5 (evaluated at the failing input): for `ls | wc` two children are
forked (process ids 1 and 2) and `processLine` returns having waited for the
second one only. -/
theorem piped_statement_reaps_last_child_only :
    (processLine sampleShell [word "ls", op TokenType.PIPE, word "wc"]).children.map
        (fun c => c.pid) = [1, 2] ∧
    (processLine sampleShell [word "ls", op TokenType.PIPE, word "wc"]).reaped = [2] ∧
    (processLine sampleShell [word "ls", op TokenType.PIPE, word "wc"]).outcome
        = Outcome.returned := by
  decide

/-- C6 (evaluated at the failing input): for `ls > out` the parent creates one
pipe (descriptors 3 and 4), closes nothing, and both ends are still open when
`processLine` returns. -/
theorem output_redirect_leaks_pipe :
    (processLine sampleShell [word "ls", op TokenType.OUTPUT, word "out"]).pipesMade
        = [(0, 3, 4)] ∧
    (processLine sampleShell [word "ls", op TokenType.OUTPUT, word "out"]).closeLog = [] ∧
    (processLine sampleShell [word "ls", op TokenType.OUTPUT, word "out"]).fds
        = [some (Obj.inherited 0), some (Obj.inherited 1), some (Obj.inherited 2),
           some (Obj.pipeRead 0), some (Obj.pipeWrite 0)] ∧
    (processLine sampleShell [word "ls", op TokenType.OUTPUT, word "out"]).outcome
        = Outcome.returned := by
  decide

/-- C8 (evaluated at the failing input): for `LIST > F` with the store holding
`a: hi`, the listing is written to the inherited standard output; `F` is
neither opened nor created and no child is forked. -/
theorem builtin_ignores_file_redirect :
    (processLine { sampleShell with varList := [("a", "hi")] }
        [word "LIST", op TokenType.OUTPUT, word "F"]).writes
        = [(some (Obj.inherited 1), "a: hi\n")] ∧
    (processLine { sampleShell with varList := [("a", "hi")] }
        [word "LIST", op TokenType.OUTPUT, word "F"]).files = [] ∧
    (processLine { sampleShell with varList := [("a", "hi")] }
        [word "LIST", op TokenType.OUTPUT, word "F"]).children = [] := by
  decide

/-- C9 (evaluated at the failing input): for `ls > F >& G` the name recorded
for standard output is `G` and no name is recorded for standard error; the
child's standard output is the file `G` and its standard error is the
inherited one. -/
theorem output_then_error_redirect_misfiles :
    (processLine sampleShell [word "ls", op TokenType.OUTPUT, word "F",
        op TokenType.ERR_REDIR, word "G"]).output = some "G" ∧
    (processLine sampleShell [word "ls", op TokenType.OUTPUT, word "F",
        op TokenType.ERR_REDIR, word "G"]).error = none ∧
    (processLine sampleShell [word "ls", op TokenType.OUTPUT, word "F",
        op TokenType.ERR_REDIR, word "G"]).children.map (fun c => (c.fd1, c.fd2))
        = [(some (Obj.file "G"), some (Obj.inherited 2))] := by
  decide

/-- C10 (evaluated at the failing input): in `a > F | b` the Command `b`
carries no redirect (its tags are `PIPE_IN` and `STDOUT`), yet its child is
launched with standard output bound to the file `F`. -/
theorem redirect_leaks_to_next_command :
    (processLine sampleShell [word "a", op TokenType.OUTPUT, word "F",
        op TokenType.PIPE, word "b"]).children.map (fun c => (c.cmd, c.fd1))
      = [({ command := "a", args := [], input := InputKind.STDIN,
            output := OutputKind.PIPE_OUT }, some (Obj.file "F")),
         ({ command := "b", args := [], input := InputKind.PIPE_IN,
            output := OutputKind.STDOUT }, some (Obj.file "F"))] := by
  decide

end TechShell

namespace ProgramTechShell

/-- C4 (evaluated at the failing input): for the statement `false | LIST`,
whose last Command is a builtin, `processStatement` takes as exit status the
status word 256 reaped for `false` and reports exit code 1, not 0. -/
theorem statement_status_of_last_forked :
    (processStatement (sampleShell 1 [(100, 256)])
        [{ newCommand "false" with output := OutputKind.PIPE_OUT },
         { newCommand "LIST" with input := InputKind.PIPE_IN }]).exitStatus = some 256 ∧
    (processStatement (sampleShell 1 [(100, 256)])
        [{ newCommand "false" with output := OutputKind.PIPE_OUT },
         { newCommand "LIST" with input := InputKind.PIPE_IN }]).diag
        = [Diag.doneExit (some 1)] := by
  decide

end ProgramTechShell

namespace TechShell

theorem writeAt_mid {α : Type} (pre post : List α) (x v : α) :
    writeAt (pre ++ x :: post) pre.length v = some (pre ++ v :: post) := by
  simp [writeAt]

theorem fillArgs_replicate (rest : List (String × TokenType)) :
    ∀ (pre : List (Option String)) (k : Nat), rest.length ≤ k →
      fillArgs rest pre.length (pre ++ List.replicate k none)
        = some (pre.length + rest.length,
            pre ++ rest.map (fun a => some a.1) ++ List.replicate (k - rest.length) none) := by
  induction rest with
  | nil => intro pre k _; simp [fillArgs]
  | cons x rest ih =>
    intro pre k hk
    obtain ⟨k1, rfl⟩ : ∃ k1, k = k1 + 1 := ⟨k - 1, by simp at hk; omega⟩
    have hlen : rest.length ≤ k1 := by simpa using hk
    have h1 := ih (pre ++ [some x.1]) k1 hlen
    simp only [List.length_append, List.length_singleton, List.append_assoc,
      List.singleton_append] at h1
    simp only [fillArgs, List.replicate_succ, writeAt_mid, h1, List.length_cons, List.map_cons,
      List.append_assoc, List.cons_append, Nat.add_sub_add_right]
    simp [Nat.add_assoc, Nat.add_comm 1]

theorem argvOf_prefix (l : List String) (rest : List (Option String)) :
    argvOf (l.map some ++ none :: rest) = l := by
  induction l with
  | nil => simp [argvOf]
  | cons x l ih =>
    simp only [argvOf] at ih
    simp [argvOf, List.takeWhile_cons, ih]

theorem buildArgs_eq (cmd : Command) (h : cmd.args.length < 999) :
    buildArgs cmd
      = some (some cmd.command :: cmd.args.map (fun a => some a.1)
          ++ none :: List.replicate (998 - cmd.args.length) none) := by
  have h0 : writeAt (List.replicate 1000 (none : Option String)) 0 (some cmd.command)
      = some ([some cmd.command] ++ List.replicate 999 none) := by
    have := writeAt_mid ([] : List (Option String)) (List.replicate 999 none) none
      (some cmd.command)
    simpa [List.replicate_succ] using this
  have h1 := fillArgs_replicate cmd.args [some cmd.command] 999 (by omega)
  have h2 : List.replicate (999 - cmd.args.length) (none : Option String)
      = none :: List.replicate (998 - cmd.args.length) none := by
    rw [show 999 - cmd.args.length = (998 - cmd.args.length) + 1 by omega, List.replicate_succ]
  have h3 := writeAt_mid ([some cmd.command] ++ cmd.args.map (fun a => some a.1))
    (List.replicate (998 - cmd.args.length) none) none none
  simp only [List.length_append, List.length_singleton, List.length_map] at h1 h3
  simp only [buildArgs, h0]
  rw [show (1 : Nat) = [some cmd.command].length by rfl] at *
  simp only [List.length_singleton] at *
  rw [h1, h2]
  simpa using h3

end TechShell

namespace ProgramTechShell
open TechShell

theorem countArgs_eq (l : List String) : ∀ cnt, countArgs l cnt = cnt + l.length := by
  induction l with
  | nil => intro cnt; simp [countArgs]
  | cons x l ih => intro cnt; simp [countArgs, ih]; omega

theorem copyArgs_replicate (rest : List String) :
    ∀ (pre : List Slot) (k : Nat), rest.length ≤ k →
      copyArgs rest pre.length (pre ++ List.replicate k Slot.uninit)
        = some (pre.length + rest.length,
            pre ++ rest.map Slot.str ++ List.replicate (k - rest.length) Slot.uninit) := by
  induction rest with
  | nil => intro pre k _; simp [copyArgs]
  | cons x rest ih =>
    intro pre k hk
    obtain ⟨k1, rfl⟩ : ∃ k1, k = k1 + 1 := ⟨k - 1, by simp at hk; omega⟩
    have hlen : rest.length ≤ k1 := by simpa using hk
    have h1 := ih (pre ++ [Slot.str x]) k1 hlen
    simp only [List.length_append, List.length_singleton, List.append_assoc,
      List.singleton_append] at h1
    simp only [copyArgs, List.replicate_succ, writeAt_mid, h1, List.length_cons, List.map_cons,
      List.append_assoc, List.cons_append, Nat.add_sub_add_right]
    simp [Nat.add_assoc, Nat.add_comm 1]

end ProgramTechShell

namespace TechShell

theorem SameCore.refl (s : Shell) : SameCore s s :=
  ⟨Eq.refl _, Eq.refl _, Eq.refl _, Eq.refl _, Eq.refl _, Eq.refl _⟩

theorem SameCore.trans {s t u : Shell} (h1 : SameCore s t) (h2 : SameCore t u) :
    SameCore s u := by
  unfold SameCore at *
  refine ⟨?_, ?_, ?_, ?_, ?_, ?_⟩
  · rw [h2.1, h1.1]
  · rw [h2.2.1, h1.2.1]
  · rw [h2.2.2.1, h1.2.2.1]
  · rw [h2.2.2.2.1, h1.2.2.2.1]
  · rw [h2.2.2.2.2.1, h1.2.2.2.2.1]
  · rw [h2.2.2.2.2.2, h1.2.2.2.2.2]

theorem findDir_core (s : Shell) : SameCore s (findDir s) := by
  unfold findDir; (repeat' split) <;> exact SameCore.refl _

theorem findDir_outcome (s : Shell) (h : s.home ≠ none) : (findDir s).outcome = s.outcome := by
  unfold findDir
  split
  · rename_i hn; exact absurd hn h
  · (repeat' split) <;> rfl

theorem processCD_core (s : Shell) (cmd : Command) : SameCore s (processCD s cmd) := by
  unfold processCD
  cases cmd.args with
  | nil =>
    simp only
    cases s.chdirTo s.cwd _ with
    | none => exact SameCore.trans (SameCore.refl _) (findDir_core _)
    | some d => exact SameCore.trans (SameCore.refl _) (findDir_core _)
  | cons a l =>
    simp only
    cases s.chdirTo s.cwd _ with
    | none => exact SameCore.trans (SameCore.refl _) (findDir_core _)
    | some d => exact SameCore.trans (SameCore.refl _) (findDir_core _)

theorem processCD_outcome (s : Shell) (cmd : Command) (hh : s.home ≠ none) :
    (processCD s cmd).outcome = s.outcome := by
  unfold processCD
  cases cmd.args with
  | nil =>
    simp only
    cases s.chdirTo s.cwd _ with
    | none => exact findDir_outcome (writeStderr s _) hh
    | some d => exact findDir_outcome { s with cwd := d } hh
  | cons a l =>
    simp only
    cases s.chdirTo s.cwd _ with
    | none => exact findDir_outcome (writeStderr s _) hh
    | some d => exact findDir_outcome { s with cwd := d } hh

theorem builtinFn_core (i : Nat) (s : Shell) (cmd : Command) :
    SameCore s (builtinFn i s cmd) := by
  unfold builtinFn
  split
  · unfold processSet; (repeat' split) <;> exact SameCore.refl _
  · exact SameCore.refl _
  · exact SameCore.refl _
  · unfold processStatus; (repeat' split) <;> exact SameCore.refl _
  · exact processCD_core s cmd
  · unfold processPWD; (repeat' split) <;> exact SameCore.refl _

theorem findDir_dirs (s : Shell) :
    (findDir s).cwd = s.cwd ∧ (findDir s).chdirTo = s.chdirTo := by
  unfold findDir; (repeat' split) <;> exact ⟨rfl, rfl⟩

theorem builtinRestore_outcome (s : Shell) (cmd : Command) (si so : Option Nat) :
    (builtinRestore s cmd si so).outcome = s.outcome := by
  unfold builtinRestore shClose
  split_ifs <;> rfl

theorem builtinRedirect_in_fds (s : Shell) (cmd : Command) :
    (if cmd.input = InputKind.PIPE_IN then
        (shClose { s with fds := sysDup2 (sysDup s.fds 0).1 (some s.comm0) 0 } (some s.comm0),
          (sysDup s.fds 0).2)
      else (s, none)).1.fds
      = if cmd.input = InputKind.PIPE_IN then
          (sysClose (sysDup2 (sysDup s.fds 0).1 (some s.comm0) 0) (some s.comm0)).1
        else s.fds := by
  split_ifs <;> rfl

theorem builtinIndex_ne_exit (name : String) (i : Nat)
    (hi : builtinIndex name = some i) (hx : strcasecmpEq name "EXIT" = false) : i ≠ 2 := by
  intro h2
  subst h2
  have := List.find?_some hi
  simp only [builtinNames] at this
  have h3 : strcasecmpEq name "EXIT" = true := this
  rw [hx] at h3
  cases h3

theorem builtinRedirect_home (s : Shell) (cmd : Command) :
    (builtinRedirect s cmd).1.home = s.home ∧
    (builtinRedirect s cmd).1.outcome = s.outcome := by
  unfold builtinRedirect shClose shPipe
  split_ifs <;> exact ⟨rfl, rfl⟩

theorem builtinRedirect_dirs (s : Shell) (cmd : Command) :
    (builtinRedirect s cmd).1.cwd = s.cwd ∧
    (builtinRedirect s cmd).1.chdirTo = s.chdirTo := by
  unfold builtinRedirect shClose shPipe
  split_ifs <;> exact ⟨rfl, rfl⟩

theorem builtinRestore_dirs (s : Shell) (cmd : Command) (si so : Option Nat) :
    (builtinRestore s cmd si so).cwd = s.cwd ∧
    (builtinRestore s cmd si so).chdirTo = s.chdirTo := by
  unfold builtinRestore shClose
  split_ifs <;> exact ⟨rfl, rfl⟩

end TechShell

namespace TechShell

/-- The fields that running a Command leaves alone. -/
theorem shClose_keep (s : Shell) (fd : Option Nat) :
    (shClose s fd).handed = s.handed ∧ (shClose s fd).ioFlag = s.ioFlag ∧
    (shClose s fd).home = s.home ∧ (shClose s fd).outcome = s.outcome :=
  ⟨rfl, rfl, rfl, rfl⟩

theorem shPipe_keep (s : Shell) :
    (shPipe s).handed = s.handed ∧ (shPipe s).ioFlag = s.ioFlag ∧
    (shPipe s).home = s.home ∧ (shPipe s).outcome = s.outcome :=
  ⟨rfl, rfl, rfl, rfl⟩

theorem forkChild_keep (s : Shell) (cmd : Command) (ip : Nat) (args : List (Option String)) :
    (forkChild s cmd ip args).1.handed = s.handed ∧ (forkChild s cmd ip args).1.ioFlag = s.ioFlag ∧
    (forkChild s cmd ip args).1.home = s.home ∧
    (forkChild s cmd ip args).1.outcome = s.outcome :=
  ⟨rfl, rfl, rfl, rfl⟩

theorem builtinRedirect_keep (s : Shell) (cmd : Command) :
    (builtinRedirect s cmd).1.handed = s.handed ∧ (builtinRedirect s cmd).1.ioFlag = s.ioFlag := by
  unfold builtinRedirect shClose shPipe
  split_ifs <;> exact ⟨rfl, rfl⟩

theorem builtinRestore_keep (s : Shell) (cmd : Command) (si so : Option Nat) :
    (builtinRestore s cmd si so).handed = s.handed ∧
    (builtinRestore s cmd si so).ioFlag = s.ioFlag ∧
    (builtinRestore s cmd si so).home = s.home := by
  unfold builtinRestore shClose
  split_ifs <;> exact ⟨rfl, rfl, rfl⟩

theorem processBuiltin_keep (s : Shell) (cmd : Command) :
    (processBuiltin s cmd).1.handed = s.handed ∧ (processBuiltin s cmd).1.ioFlag = s.ioFlag ∧
    (processBuiltin s cmd).1.home = s.home := by
  unfold processBuiltin
  cases builtinIndex cmd.command with
  | none => exact ⟨rfl, rfl, rfl⟩
  | some i =>
    obtain ⟨_, c2, c3, c4, _, _⟩ := builtinFn_core i (builtinRedirect s cmd).1 cmd
    obtain ⟨r1, r2⟩ := builtinRedirect_keep s cmd
    obtain ⟨r3, _⟩ := builtinRedirect_home s cmd
    simp only
    split_ifs
    · obtain ⟨k1, k2, k3⟩ := builtinRestore_keep (builtinFn i (builtinRedirect s cmd).1 cmd) cmd
        (builtinRedirect s cmd).2.1 (builtinRedirect s cmd).2.2
      exact ⟨by rw [k1, c2, r1], by rw [k2, c3, r2], by rw [k3, c4, r3]⟩
    · exact ⟨by rw [c2, r1], by rw [c3, r2], by rw [c4, r3]⟩

/-- What `processCommand` does to the log of handed Commands and to the fields
the line processor relies on. -/
theorem processCommand_keep (s : Shell) (cmd : Command) :
    (processCommand s cmd).1.handed = s.handed ++ [(cmd, s.varList)] ∧
    (processCommand s cmd).1.ioFlag = s.ioFlag ∧
    (processCommand s cmd).1.home = s.home := by
  obtain ⟨b1, b2, b3⟩ := processBuiltin_keep
    { s with handed := s.handed ++ [(cmd, s.varList)] } cmd
  unfold processCommand
  simp only
  by_cases h1 : (processBuiltin { s with handed := s.handed ++ [(cmd, s.varList)] } cmd).2 ≠ 0
  · rw [if_pos h1]
    by_cases h2 : (processBuiltin { s with handed := s.handed ++ [(cmd, s.varList)] } cmd).1.outcome
        = Outcome.running
    · rw [if_pos h2]
      obtain ⟨_, f2, f3, f4, _, _⟩ := findDir_core
        (processBuiltin { s with handed := s.handed ++ [(cmd, s.varList)] } cmd).1
      exact ⟨by rw [f2, b1], by rw [f3, b2], by rw [f4, b3]⟩
    · rw [if_neg h2]; exact ⟨b1, b2, b3⟩
  · rw [if_neg h1]
    cases buildArgs cmd with
    | none => exact ⟨rfl, rfl, rfl⟩
    | some args =>
      simp only
      refine ⟨?_, ?_, ?_⟩
      · rw [(findDir_core _).2.1]; split_ifs <;> rfl
      · rw [(findDir_core _).2.2.1]; split_ifs <;> rfl
      · rw [(findDir_core _).2.2.2.1]; split_ifs <;> rfl

theorem lineStep_word (ls : LineState) (t : aToken) (hw : isWord t = true)
    (hio : ls.sh.ioFlag = 0) :
    lineStep ls t = wordCase ls (expandToken ls.sh.varList t) t.type := by
  unfold lineStep
  cases ht : t.type <;> simp [isWord, ht] at hw <;> simp [hio]

theorem run_args (sh : Shell) (hio : sh.ioFlag = 0) (hrun : sh.outcome = Outcome.running)
    (rest : List aToken) :
    ∀ (ws : List aToken), (∀ t ∈ ws, isWord t = true) → ∀ c : Command,
      runTokens ⟨sh, Mode.ARGS, CmdPtr.live c, false⟩ (ws ++ rest)
        = runTokens ⟨sh, Mode.ARGS, CmdPtr.live
            { c with args := c.args ++ ws.map (fun t => (expandToken sh.varList t, t.type)) },
            false⟩ rest := by
  intro ws
  induction ws with
  | nil => intro _ c; simp
  | cons t ws ih =>
    intro hw c
    have ht : isWord t = true := hw t (List.mem_cons_self _ _)
    have hws : ∀ u ∈ ws, isWord u = true := fun u hu => hw u (List.mem_cons_of_mem _ hu)
    have step : lineStep ⟨sh, Mode.ARGS, CmdPtr.live c, false⟩ t
        = ⟨sh, Mode.ARGS, CmdPtr.live (addArg c (expandToken sh.varList t) t.type), false⟩ := by
      rw [lineStep_word _ t ht hio]; rfl
    rw [List.cons_append, runTokens, step]
    simp only [hrun, and_self, if_true]
    rw [ih hws]
    simp [addArg, List.append_assoc]

/-- Reading the words of one command: from the start of a statement
(`first`) or after a pipe, the words build the Command the specification
describes, with output still `STDOUT`. -/
theorem run_command (sh : Shell) (hio : sh.ioFlag = 0) (hrun : sh.outcome = Outcome.running)
    (m : Mode) (ptr : CmdPtr) (first : Bool)
    (hstart : (first = true ∧ m = Mode.CMD ∧ ptr = CmdPtr.null) ∨
      (first = false ∧ m = Mode.PIPED_CMD))
    (c : List aToken) (hc : c ≠ []) (hw : ∀ t ∈ c, isWord t = true) (rest : List aToken) :
    runTokens ⟨sh, m, ptr, false⟩ (c ++ rest)
      = runTokens ⟨sh, Mode.ARGS, CmdPtr.live (expectedCommand sh.varList c first true), false⟩
          rest := by
  cases c with
  | nil => exact absurd rfl hc
  | cons w ws =>
    have hw1 : isWord w = true := hw w (List.mem_cons_self _ _)
    have hws : ∀ u ∈ ws, isWord u = true := fun u hu => hw u (List.mem_cons_of_mem _ hu)
    have step : lineStep ⟨sh, m, ptr, false⟩ w
        = ⟨sh, Mode.ARGS, CmdPtr.live (expectedCommand sh.varList [w] first true), false⟩ := by
      rw [lineStep_word _ w hw1 hio]
      rcases hstart with ⟨h1, h2, h3⟩ | ⟨h1, h2⟩
      · subst h1 h2 h3; rfl
      · subst h1 h2; cases ptr <;> rfl
    rw [List.cons_append, runTokens, step]
    simp only [hrun, and_self, if_true]
    rw [run_args sh hio hrun rest ws hws]
    simp [expectedCommand, firstWord]

/-- The pipe token after a complete command hands the Command over with
output `PIPE_OUT`. -/
theorem run_pipe (sh : Shell) (c : Command) (rest : List aToken)
    (hrun : (processCommand sh { c with output := OutputKind.PIPE_OUT }).1.outcome
      = Outcome.running) :
    runTokens ⟨sh, Mode.ARGS, CmdPtr.live c, false⟩ (op TokenType.PIPE :: rest)
      = runTokens ⟨(processCommand sh { c with output := OutputKind.PIPE_OUT }).1,
          Mode.PIPED_CMD, CmdPtr.freed, false⟩ rest := by
  have step : lineStep ⟨sh, Mode.ARGS, CmdPtr.live c, false⟩ (op TokenType.PIPE)
      = ⟨(processCommand sh { c with output := OutputKind.PIPE_OUT }).1,
          Mode.PIPED_CMD, CmdPtr.freed, false⟩ := rfl
  rw [runTokens, step]
  simp only [hrun, and_self, if_true]

theorem terminatorCase_handed (sh : Shell) (c : Command) (d : Bool) :
    (terminatorCase ⟨sh, Mode.ARGS, CmdPtr.live c, d⟩).sh.handed
      = sh.handed ++ [(c, sh.varList)] := by
  have k := (processCommand_keep sh c).1
  simp only [terminatorCase]
  split_ifs <;> exact k

theorem terminatorCase_shape (sh : Shell) (c : Command) (d : Bool)
    (h : (terminatorCase ⟨sh, Mode.ARGS, CmdPtr.live c, d⟩).sh.outcome = Outcome.running) :
    (terminatorCase ⟨sh, Mode.ARGS, CmdPtr.live c, d⟩).processMode = Mode.CMD ∧
    (terminatorCase ⟨sh, Mode.ARGS, CmdPtr.live c, d⟩).cmd = CmdPtr.null ∧
    (terminatorCase ⟨sh, Mode.ARGS, CmdPtr.live c, d⟩).doneFlag = d := by
  simp only [terminatorCase] at h ⊢
  by_cases h1 : (processCommand sh c).1.outcome = Outcome.running
  · simp only [h1, if_true, and_self]
  · rw [if_neg h1] at h; exact absurd h h1

/-- The terminator after a complete command hands the Command over as it
stands and nothing more is handed on this line. -/
theorem run_terminator (sh : Shell) (c : Command) (term : aToken)
    (hterm : term.type = TokenType.EOL ∨ term.type = TokenType.SEMICOLON) :
    (runTokens ⟨sh, Mode.ARGS, CmdPtr.live c, false⟩ [term]).sh.handed
      = sh.handed ++ [(c, sh.varList)] := by
  rcases hterm with h | h
  · have step : lineStep ⟨sh, Mode.ARGS, CmdPtr.live c, false⟩ term
        = terminatorCase ⟨sh, Mode.ARGS, CmdPtr.live c, true⟩ := by
      simp only [lineStep, h]
    rw [runTokens, step]
    split_ifs with hc
    · obtain ⟨_, _, h3⟩ := terminatorCase_shape sh c true hc.1
      rw [h3] at hc; exact absurd hc.2 (by decide)
    · exact terminatorCase_handed sh c true
  · have step : lineStep ⟨sh, Mode.ARGS, CmdPtr.live c, false⟩ term
        = terminatorCase ⟨sh, Mode.ARGS, CmdPtr.live c, false⟩ := by
      simp only [lineStep, h]
    rw [runTokens, step]
    split_ifs with hc
    · obtain ⟨h1, h2, h3⟩ := terminatorCase_shape sh c false hc.1
      have hk := terminatorCase_handed sh c false
      generalize terminatorCase ⟨sh, Mode.ARGS, CmdPtr.live c, false⟩ = ls at *
      obtain ⟨s1, m1, p1, d1⟩ := ls
      simp only at h1 h2 h3 hk
      subst h1 h2 h3
      simp only [runTokens, lineStep, terminatorCase]
      exact hk
    · exact terminatorCase_handed sh c false

theorem processLine_handed (s : Shell) (line : List aToken) :
    (processLine s line).handed
      = (runTokens ⟨{ s with outcome := Outcome.running }, Mode.CMD, CmdPtr.null, false⟩
          line).sh.handed := by
  unfold processLine
  simp only
  split_ifs
  · split <;> rfl
  · rfl

end TechShell

/-! # Theorems on redirects, parse errors, builtin lookup and the store -/

namespace TechShell

/-- C11 (evaluated at the failing input): in `a > F | b` the Command `a` is
handed over with the tag `PIPE_OUT`, yet its child creates and opens `F` and
runs with standard output bound to `F`, not to the write end of the pipe. -/
theorem file_wins_over_pipe :
    (processLine sampleShell [word "a", op TokenType.OUTPUT, word "F",
        op TokenType.PIPE, word "b"]).children.head?.map (fun c => c.cmd.output)
      = some OutputKind.PIPE_OUT ∧
    (processLine sampleShell [word "a", op TokenType.OUTPUT, word "F",
        op TokenType.PIPE, word "b"]).children.head?.map (fun c => c.fd1)
      = some (some (Obj.file "F")) ∧
    (processLine sampleShell [word "a", op TokenType.OUTPUT, word "F",
        op TokenType.PIPE, word "b"]).children.head?.map (fun c => c.opens)
      = some [(some "F", OpenMode.wronly, false), (some "F", OpenMode.creat, true)] := by
  decide

/-- C12 (evaluated at the failing input): after the line `ls > "abc` (an
unterminated quote after a redirect operator) `processLine` returns with
`ioFlag` and `outputFlag` still 1, and on the next line `echo hi` the word
`echo` is stored as the output file name and the Command handed over is `hi`. -/
theorem flags_survive_parse_error :
    (processLine sampleShell
        [word "ls", op TokenType.OUTPUT, ⟨"abc", TokenType.ERROR⟩]).outcome
      = Outcome.returned ∧
    (processLine sampleShell
        [word "ls", op TokenType.OUTPUT, ⟨"abc", TokenType.ERROR⟩]).ioFlag = 1 ∧
    (processLine sampleShell
        [word "ls", op TokenType.OUTPUT, ⟨"abc", TokenType.ERROR⟩]).outputFlag = 1 ∧
    (processLine (processLine sampleShell
        [word "ls", op TokenType.OUTPUT, ⟨"abc", TokenType.ERROR⟩])
        [word "echo", word "hi"]).output = some "echo" ∧
    (processLine (processLine sampleShell
        [word "ls", op TokenType.OUTPUT, ⟨"abc", TokenType.ERROR⟩])
        [word "echo", word "hi"]).handed.map (fun e => (e.1.command, e.1.args))
      = [("hi", [])] := by
  decide

/-- C14 (evaluated at the failing input): for `ls > /nodir/out`, where the
target can be neither opened nor created, the child still reaches `execvp`
and runs `ls` with the inherited standard output; for `cat < nofile | wc`,
where the input file is missing, `cat` is not executed and `wc` is
launched. -/
theorem unopened_output_still_executes :
    (processLine sampleDeniedShell
        [word "ls", op TokenType.OUTPUT, word "/nodir/out"]).children.map (fun c => c.opens)
      = [[(some "/nodir/out", OpenMode.wronly, false),
          (some "/nodir/out", OpenMode.creat, false)]] ∧
    (processLine sampleDeniedShell
        [word "ls", op TokenType.OUTPUT, word "/nodir/out"]).children.map
        (fun c => (c.execArgs.map argvOf, c.fd1))
      = [(some ["ls"], some (Obj.inherited 1))] ∧
    (processLine sampleShell
        [word "cat", op TokenType.INPUT, word "nofile", op TokenType.PIPE,
          word "wc"]).children.map (fun c => c.opens)
      = [[(some "nofile", OpenMode.rdonly, false)], []] ∧
    (processLine sampleShell
        [word "cat", op TokenType.INPUT, word "nofile", op TokenType.PIPE,
          word "wc"]).children.map (fun c => c.execArgs.map argvOf)
      = [none, some ["wc"]] := by
  decide

/-- C17 (evaluated at the failing inputs): none of the three lines invokes
EXIT, and none makes `processLine` return: `ls |` and `ls | | wc` fail the
assertion `cmd == NULL` (the pointer still refers to the released Command),
and `> f` stores through the null `cmd`. -/
theorem dangling_pipe_aborts :
    (processLine sampleShell [word "ls", op TokenType.PIPE]).outcome
      = Outcome.assertFailed ∧
    (processLine sampleShell
        [word "ls", op TokenType.PIPE, op TokenType.PIPE, word "wc"]).outcome
      = Outcome.assertFailed ∧
    (processLine sampleShell [op TokenType.OUTPUT, word "f"]).outcome
      = Outcome.memoryFault := by
  decide

/-- C13 (counterexample to the claim as stated): a redirect to the existing
file `F` holding `hello`, by a Command that writes `hi`, leaves `hillo` in
`F`: the target is opened with `open(F, O_WRONLY)` and not truncated. -/
theorem redirect_keeps_old_tail :
    fileContent (redirectWrite [("F", "hello".data)] "F" "hi".data) "F" = some "hillo".data ∧
    (childOpenOut { fds := sampleShell.fds, files := ["F"], denied := [], opens := [] }
        (some "F")).1.opens = [(some "F", OpenMode.wronly, true)] := by
  decide

/-- C15 (counterexample to the claim as stated): in `ls | cat "abc` the error
token comes after a pipe and the Command `ls` of the statement has been
executed (its child forked) when the parse error is reported. -/
theorem error_after_pipe_runs_first_command :
    (processLine sampleShell
        [word "ls", op TokenType.PIPE, word "cat", ⟨"abc", TokenType.ERROR⟩]).children.map
        (fun c => c.execArgs.map argvOf) = [some ["ls"]] ∧
    (processLine sampleShell
        [word "ls", op TokenType.PIPE, word "cat", ⟨"abc", TokenType.ERROR⟩]).diag
      = [Diag.msg "Error parsing line.\n"] := by
  decide

/-- C20 (counterexample to the claim as stated): after `SET a 1; SET b 2` the
listing prints `b` before `a`, although `a` was inserted first. -/
theorem list_prints_newest_first :
    printSet (setAll [("a", "1"), ("b", "2")]) = ["b: 2\n", "a: 1\n"] ∧
    (processLine sampleShell
        [word "SET", word "a", word "1", op TokenType.SEMICOLON,
         word "SET", word "b", word "2", op TokenType.SEMICOLON,
         word "LIST"]).writes = [(some (Obj.inherited 1), "b: 2\na: 1\n")] := by
  decide

/-! ## The variable store -/

theorem findInSet_eq_none_iff (st : VarSet) (n : String) :
    findInSet st n = none ↔ n ∉ st.map (fun e => e.1) := by
  induction st with
  | nil => simp [findInSet]
  | cons e st ih =>
    simp only [findInSet] at ih
    by_cases h : e.1 = n
    · simp [findInSet, List.find?_cons, h]
    · simp [findInSet, List.find?_cons, h, ih, Ne.symm h]

theorem replaceLocated_names (st : VarSet) (n v : String) :
    (replaceLocated st n v).map (fun e => e.1) = st.map (fun e => e.1) := by
  induction st with
  | nil => rfl
  | cons e st ih =>
    by_cases h : e.1 = n
    · simp [replaceLocated, h]
    · simp [replaceLocated, h, ih]

theorem findInSet_replaceLocated (st : VarSet) (n v : String) (h : findInSet st n ≠ none) :
    findInSet (replaceLocated st n v) n = some (n, v) := by
  induction st with
  | nil => simp [findInSet] at h
  | cons e st ih =>
    by_cases he : e.1 = n
    · simp [replaceLocated, findInSet, List.find?_cons, he]
    · have h2 : findInSet st n ≠ none := by
        simpa [findInSet, List.find?_cons, he] using h
      have := ih h2
      simp only [findInSet] at this
      simp [replaceLocated, findInSet, List.find?_cons, he, this]

theorem findInSet_addToSet_self (st : VarSet) (n v : String) :
    findInSet (addToSet st n v) n = some (n, v) := by
  unfold addToSet
  cases h : findInSet st n with
  | none => simp [findInSet, List.find?_cons]
  | some e => exact findInSet_replaceLocated st n v (by rw [h]; exact Option.some_ne_none e)

theorem addToSet_names (st : VarSet) (n v : String) :
    (addToSet st n v).map (fun e => e.1)
      = if n ∈ st.map (fun e => e.1) then st.map (fun e => e.1)
        else n :: st.map (fun e => e.1) := by
  unfold addToSet
  cases h : findInSet st n with
  | none =>
    have := (findInSet_eq_none_iff st n).mp h
    simp only [List.map_cons, if_neg this]
  | some e =>
    have : n ∈ st.map (fun e => e.1) := by
      by_contra hc
      rw [(findInSet_eq_none_iff st n).mpr hc] at h
      cases h
    simp only [replaceLocated_names, if_pos this]

/-- C19: after `SET n v` (whatever further arguments follow) a lookup of `n`
finds the value `v`, and after `SET n` it finds the empty string, whether or
not `n` was in the store before; this holds for the handler of either variant
and for `addToSet` itself. -/
theorem set_then_lookup (st : VarSet) (n v : String) :
    findInSet (addToSet st n v) n = some (n, v) ∧
    (∀ (s : Shell) (name : String) (t1 t2 : TokenType) (more : List (String × TokenType))
        (i : InputKind) (o : OutputKind),
      findInSet (processSet s ⟨name, (n, t1) :: (v, t2) :: more, i, o⟩).varList n
          = some (n, v) ∧
      findInSet (processSet s ⟨name, [(n, t1)], i, o⟩).varList n = some (n, "")) ∧
    (∀ (s : ProgramTechShell.Shell) (c : ProgramTechShell.Command) (more : List String),
      findInSet (ProgramTechShell.processSet s { c with args := n :: v :: more }).varList n
          = some (n, v) ∧
      findInSet (ProgramTechShell.processSet s { c with args := [n] }).varList n
          = some (n, "")) := by
  refine ⟨findInSet_addToSet_self st n v, ?_, ?_⟩
  · intro s name t1 t2 more i o
    exact ⟨findInSet_addToSet_self _ n v, findInSet_addToSet_self _ n ""⟩
  · intro s c more
    exact ⟨findInSet_addToSet_self _ n v, findInSet_addToSet_self _ n ""⟩

theorem insertion_fold_names (ops : List (String × String)) :
    ∀ (st : VarSet) (acc : List String), st.map (fun e => e.1) = acc.reverse →
      (ops.foldl (fun st p => addToSet st p.1 p.2) st).map (fun e => e.1)
        = ((ops.map (fun p => p.1)).foldl
            (fun acc n => if n ∈ acc then acc else acc ++ [n]) acc).reverse := by
  induction ops with
  | nil => intro st acc h; simpa using h
  | cons p ops ih =>
    intro st acc h
    simp only [List.foldl_cons, List.map_cons]
    apply ih
    rw [addToSet_names, h]
    by_cases hm : p.1 ∈ acc
    · simp [hm]
    · simp [hm]

theorem insertion_fold_nodup (names : List String) :
    ∀ acc : List String, acc.Nodup →
      (names.foldl (fun acc n => if n ∈ acc then acc else acc ++ [n]) acc).Nodup := by
  induction names with
  | nil => intro acc h; simpa using h
  | cons n names ih =>
    intro acc h
    simp only [List.foldl_cons]
    apply ih
    by_cases hm : n ∈ acc
    · simpa [hm] using h
    · simp only [hm, if_false]
      exact List.Nodup.append h (List.nodup_singleton n) (by simpa using hm)

/-- C20 (as amended): for every sequence of SET commands the listing has one
line `name: value` per entry of the store, the store holds each name once, and
the names appear in the reverse of the order of their first insertion: a name
first inserted later is printed before a name first inserted earlier. -/
theorem list_order_is_reverse_insertion (ops : List (String × String)) :
    printSet (setAll ops) = (setAll ops).map (fun e => e.1 ++ ": " ++ e.2 ++ "\n") ∧
    ((setAll ops).map (fun e => e.1)).Nodup ∧
    (setAll ops).map (fun e => e.1) = (insertionOrder (ops.map (fun p => p.1))).reverse := by
  have h := insertion_fold_names ops createVarSet [] rfl
  refine ⟨rfl, ?_, h⟩
  show ((setAll ops).map (fun e => e.1)).Nodup
  unfold setAll
  rw [h]
  exact List.nodup_reverse.mpr (insertion_fold_nodup _ [] List.nodup_nil)

/-! ## Builtin lookup -/

theorem builtinIndex_of_match (name : String) (i : Nat) (hi : i < builtinNames.length)
    (hm : strcasecmpEq name (builtinNames.getD i "") = true) : builtinIndex name = some i := by
  have hlow : ∀ b : String, strcasecmpEq name b = true →
      name.data.map Char.toLower = b.data.map Char.toLower := by
    intro b hb; simpa [strcasecmpEq] using hb
  simp only [builtinNames, List.length_cons, List.length_nil] at hi
  have h6 : i = 0 ∨ i = 1 ∨ i = 2 ∨ i = 3 ∨ i = 4 ∨ i = 5 := by omega
  rcases h6 with h | h | h | h | h | h <;> subst h <;>
    (have hl := hlow _ hm
     simp only [builtinNames, List.getD_cons_zero, List.getD_cons_succ] at hl
     simp only [builtinIndex, builtinNames, strcasecmpEq, hl]
     decide)

theorem builtinIndex_some_match (name : String) (i : Nat) (h : builtinIndex name = some i) :
    i < builtinNames.length ∧ strcasecmpEq name (builtinNames.getD i "") = true := by
  have h1 := List.find?_some h
  have h2 := List.mem_of_find?_eq_some h
  exact ⟨List.mem_range.mp h2, h1⟩

/-! ## Redirect targets -/

theorem fileContent_setContent (fs : FileStore) (name : String) (data : List Char) :
    fileContent (setContent fs name data) name = some data := by
  induction fs with
  | nil => simp [setContent, fileContent, List.find?_cons]
  | cons e fs ih =>
    by_cases h : e.1 = name
    · simp [setContent, fileContent, List.find?_cons, h]
    · simp only [fileContent] at ih
      simp [setContent, fileContent, List.find?_cons, h, ih]

/-- C13 (as amended): a stdout or stderr redirect opens an existing target
with `open(name, O_WRONLY)`, without truncating it, so with prior content `p`
and bytes `b` written by the Command the content afterwards is `b` followed by
the bytes of `p` beyond the length of `b`; a missing target is created with
`creat` and then holds exactly `b`. -/
theorem redirect_target_content (fs : FileStore) (name : String) (p b : List Char)
    (c : ChildSt) (hd : name ∉ c.denied) :
    (fileContent fs name = some p →
      fileContent (redirectWrite fs name b) name = some (b ++ p.drop b.length)) ∧
    (fileContent fs name = none →
      fileContent (redirectWrite fs name b) name = some b) ∧
    (name ∈ c.files →
      (childOpenOut c (some name)).1.opens = c.opens ++ [(some name, OpenMode.wronly, true)]) ∧
    (name ∉ c.files →
      (childOpenOut c (some name)).1.opens
        = c.opens ++ [(some name, OpenMode.wronly, false), (some name, OpenMode.creat, true)] ∧
      name ∈ (childOpenOut c (some name)).1.files) := by
  refine ⟨?_, ?_, ?_, ?_⟩
  · intro h
    simp only [redirectWrite, openTarget, openWronly, h, writeFromStart,
      fileContent_setContent, Option.getD_some]
  · intro h
    have h2 : fileContent (creatFile fs name) name = some [] :=
      fileContent_setContent fs name []
    simp only [redirectWrite, openTarget, openWronly, h, writeFromStart,
      fileContent_setContent, h2, Option.getD_some, List.drop_nil, List.append_nil]
  · intro h
    simp [childOpenOut, childOpen, hd, h]
  · intro h
    simp [childOpenOut, childOpen, hd, h]

/-- The theorem `redirect_target_content` at the file `F` holding `hello` and
the bytes `hi`. -/
theorem redirect_target_content_witness :
    ("F" ∉ ([] : List String) ∧ fileContent [("F", "hello".data)] "F" = some "hello".data) ∧
    fileContent (redirectWrite [("F", "hello".data)] "F" "hi".data) "F"
      = some ("hi".data ++ "hello".data.drop "hi".data.length) :=
  ⟨⟨by decide, by decide⟩,
    (redirect_target_content [("F", "hello".data)] "F" "hello".data "hi".data
      { fds := [], files := ["F"], denied := [], opens := [] } (by decide)).1 (by decide)⟩

/-! ## Errors in a line -/

theorem processLine_log (s : Shell) (line : List aToken) :
    (processLine s line).handed = (runTokens (lineStart s) line).sh.handed ∧
    (processLine s line).children = (runTokens (lineStart s) line).sh.children ∧
    (processLine s line).diag = (runTokens (lineStart s) line).sh.diag := by
  unfold processLine lineStart
  simp only
  split_ifs
  · split <;> exact ⟨rfl, rfl, rfl⟩
  · exact ⟨rfl, rfl, rfl⟩

theorem runTokens_append (pre : List aToken) (t : aToken) (rest : List aToken) :
    ∀ ls : LineState, ls.sh.outcome = Outcome.running → ls.doneFlag = false →
      runTokens ls (pre ++ t :: rest)
        = if (runPrefix ls pre).sh.outcome = Outcome.running ∧ (runPrefix ls pre).doneFlag = false
          then runTokens (runPrefix ls pre) (t :: rest) else runPrefix ls pre := by
  induction pre with
  | nil => intro ls h1 h2; simp [runPrefix, h1, h2]
  | cons a pre ih =>
    intro ls _ _
    rw [List.cons_append, runTokens, runPrefix]
    by_cases hc : (lineStep ls a).sh.outcome = Outcome.running ∧ (lineStep ls a).doneFlag = false
    · simp only [hc, and_self, if_true]
      exact ih _ hc.1 hc.2
    · simp only [hc, if_false]

/-- What the switch does on an error token. -/
theorem lineStep_error (ls : LineState) (err : aToken) (h : err.type = TokenType.ERROR) :
    (lineStep ls err).sh.handed = ls.sh.handed ∧
    (lineStep ls err).sh.children = ls.sh.children ∧
    (lineStep ls err).sh.diag = ls.sh.diag ++ [Diag.msg "Error parsing line.\n"] ∧
    (lineStep ls err).sh.outcome ≠ Outcome.running := by
  simp only [lineStep, h]
  cases ls.cmd <;> exact ⟨rfl, rfl, rfl, by simp⟩

/-- A token inside a command (a word or a redirect operator) launches
nothing. -/
theorem lineStep_inside (ls : LineState) (t : aToken) (h : insideCommand t = true) :
    (lineStep ls t).sh.handed = ls.sh.handed ∧
    (lineStep ls t).sh.children = ls.sh.children := by
  unfold lineStep
  cases ht : t.type <;> simp [insideCommand, ht] at h
  · simp only [wordCase]
    split_ifs
    · exact ⟨rfl, rfl⟩
    · exact ⟨rfl, rfl⟩
    · exact ⟨rfl, rfl⟩
    · split <;> exact ⟨rfl, rfl⟩
  · simp only [wordCase]
    split_ifs
    · exact ⟨rfl, rfl⟩
    · exact ⟨rfl, rfl⟩
    · exact ⟨rfl, rfl⟩
    · split <;> exact ⟨rfl, rfl⟩
  · simp only [wordCase]
    split_ifs
    · exact ⟨rfl, rfl⟩
    · exact ⟨rfl, rfl⟩
    · exact ⟨rfl, rfl⟩
    · split <;> exact ⟨rfl, rfl⟩
  · cases ls.cmd <;> exact ⟨rfl, rfl⟩
  · simp only [redirectCase]
    cases ls.cmd <;> exact ⟨rfl, rfl⟩
  · simp only [redirectCase]
    cases ls.cmd <;> exact ⟨rfl, rfl⟩
  · simp only [redirectCase]
    cases ls.cmd <;> exact ⟨rfl, rfl⟩

theorem runPrefix_inside (pre : List aToken) :
    ∀ ls : LineState, (∀ t ∈ pre, insideCommand t = true) →
      (runPrefix ls pre).sh.handed = ls.sh.handed ∧
      (runPrefix ls pre).sh.children = ls.sh.children := by
  induction pre with
  | nil => intro ls _; exact ⟨rfl, rfl⟩
  | cons a pre ih =>
    intro ls h
    obtain ⟨e1, e2⟩ := lineStep_inside ls a (h a (List.mem_cons_self _ _))
    rw [runPrefix]
    split_ifs
    · obtain ⟨i1, i2⟩ := ih (lineStep ls a) (fun t ht => h t (List.mem_cons_of_mem _ ht))
      exact ⟨i1.trans e1, i2.trans e2⟩
    · exact ⟨e1, e2⟩

/-- C15 (as amended): when a line holds an error token, the Commands executed
are exactly those executed before the error token was read (each Command of
the statement that was completed by a pipe token has been launched at that
pipe token); nothing is executed at or after the error token, and when the
error token comes before any pipe or terminator of the line no Command is
executed at all. `runPrefix (lineStart s) pre` is the state in which the error
token is read. -/
theorem error_token_stops_line (s : Shell) (pre rest : List aToken) (err : aToken)
    (herr : err.type = TokenType.ERROR) :
    (processLine s (pre ++ err :: rest)).handed = (runPrefix (lineStart s) pre).sh.handed ∧
    (processLine s (pre ++ err :: rest)).children
      = (runPrefix (lineStart s) pre).sh.children ∧
    ((∀ t ∈ pre, insideCommand t = true) →
      (processLine s (pre ++ err :: rest)).handed = s.handed ∧
      (processLine s (pre ++ err :: rest)).children = s.children ∧
      (processLine s (pre ++ err :: rest)).outcome ≠ Outcome.running) := by
  obtain ⟨p1, p2, _⟩ := processLine_log s (pre ++ err :: rest)
  have key : (runTokens (lineStart s) (pre ++ err :: rest)).sh.handed
        = (runPrefix (lineStart s) pre).sh.handed ∧
      (runTokens (lineStart s) (pre ++ err :: rest)).sh.children
        = (runPrefix (lineStart s) pre).sh.children := by
    rw [runTokens_append pre err rest (lineStart s) rfl rfl]
    split_ifs with hc
    · obtain ⟨e1, e2, _, e4⟩ := lineStep_error (runPrefix (lineStart s) pre) err herr
      rw [runTokens]
      simp only [e4, false_and, if_false]
      exact ⟨e1, e2⟩
    · exact ⟨rfl, rfl⟩
  refine ⟨p1.trans key.1, p2.trans key.2, ?_⟩
  intro hin
  obtain ⟨i1, i2⟩ := runPrefix_inside pre (lineStart s) hin
  refine ⟨(p1.trans key.1).trans i1, (p2.trans key.2).trans i2, ?_⟩
  unfold processLine
  simp only
  split_ifs
  · split <;> simp
  · assumption

/-- The theorem `error_token_stops_line` at the line `echo "abc`. -/
theorem error_token_stops_line_witness :
    (∀ t ∈ [word "echo"], insideCommand t = true) ∧
    (processLine sampleShell ([word "echo"] ++ ⟨"abc", TokenType.ERROR⟩ :: [])).handed
      = sampleShell.handed ∧
    (processLine sampleShell ([word "echo"] ++ ⟨"abc", TokenType.ERROR⟩ :: [])).children
      = sampleShell.children ∧
    (processLine sampleShell ([word "echo"] ++ ⟨"abc", TokenType.ERROR⟩ :: [])).outcome
      ≠ Outcome.running :=
  ⟨by decide,
    (error_token_stops_line sampleShell [word "echo"] [] ⟨"abc", TokenType.ERROR⟩ rfl).2.2
      (by decide)⟩

theorem lineStep_pipe_no_command (ls : LineState) (t : aToken) (ht : t.type = TokenType.PIPE)
    (hm : ls.processMode = Mode.CMD ∨ ls.processMode = Mode.PIPED_CMD) :
    (lineStep ls t).sh.diag = ls.sh.diag ++ [Diag.msg "Error: Missing command\n"] ∧
    (lineStep ls t).sh.handed = ls.sh.handed ∧
    (lineStep ls t).sh.children = ls.sh.children ∧
    (lineStep ls t).sh.outcome ≠ Outcome.running := by
  obtain ⟨sh, m, c, d⟩ := ls
  simp only at hm
  simp only [lineStep, ht]
  rcases hm with h | h <;> subst h <;> cases c <;> exact ⟨rfl, rfl, rfl, by simp⟩

theorem lineStep_terminator_after_pipe (ls : LineState) (t : aToken)
    (ht : t.type = TokenType.EOL ∨ t.type = TokenType.SEMICOLON)
    (hm : ls.processMode = Mode.PIPED_CMD) :
    (lineStep ls t).sh.diag = ls.sh.diag ++ [Diag.msg "Error: Broken pipe\n"] ∧
    (lineStep ls t).sh.handed = ls.sh.handed ∧
    (lineStep ls t).sh.children = ls.sh.children ∧
    (lineStep ls t).sh.outcome ≠ Outcome.running := by
  obtain ⟨sh, m, c, d⟩ := ls
  simp only at hm
  subst hm
  rcases ht with h | h <;> simp only [lineStep, h, terminatorCase] <;> cases c <;>
    exact ⟨rfl, rfl, rfl, by simp⟩

/-- After a step that ends the loop, `processLine` keeps the log as it is. -/
theorem processLine_stopped (s : Shell) (pre : List aToken) (t : aToken) (rest : List aToken)
    (hrun : (runPrefix (lineStart s) pre).sh.outcome = Outcome.running)
    (hdone : (runPrefix (lineStart s) pre).doneFlag = false)
    (hstop : (lineStep (runPrefix (lineStart s) pre) t).sh.outcome ≠ Outcome.running) :
    (processLine s (pre ++ t :: rest)).diag
        = (lineStep (runPrefix (lineStart s) pre) t).sh.diag ∧
    (processLine s (pre ++ t :: rest)).handed
        = (lineStep (runPrefix (lineStart s) pre) t).sh.handed ∧
    (processLine s (pre ++ t :: rest)).children
        = (lineStep (runPrefix (lineStart s) pre) t).sh.children := by
  obtain ⟨p1, p2, p3⟩ := processLine_log s (pre ++ t :: rest)
  have e : runTokens (lineStart s) (pre ++ t :: rest)
      = lineStep (runPrefix (lineStart s) pre) t := by
    rw [runTokens_append pre t rest (lineStart s) rfl rfl]
    simp only [hrun, hdone, and_self, if_true]
    rw [runTokens]
    simp only [hstop, false_and, if_false]
  rw [p1, p2, p3, e]
  exact ⟨rfl, rfl, rfl⟩

/-- C16: when the loop of `processLine` reads a pipe token while no Command is
open (mode `CMD` or `PIPED_CMD`), it reports `Error: Missing command`, and when
it reads a terminator in mode `PIPED_CMD` it reports `Error: Broken pipe`; in
both cases no Command is handed over or launched from then on: the log of
handed Commands and the list of children are those of the state in which the
token was read (`runPrefix (lineStart s) pre`). -/
theorem missing_command_reported (s : Shell) (pre rest : List aToken) (t : aToken)
    (hrun : (runPrefix (lineStart s) pre).sh.outcome = Outcome.running)
    (hdone : (runPrefix (lineStart s) pre).doneFlag = false) :
    (t.type = TokenType.PIPE →
      ((runPrefix (lineStart s) pre).processMode = Mode.CMD ∨
        (runPrefix (lineStart s) pre).processMode = Mode.PIPED_CMD) →
      (processLine s (pre ++ t :: rest)).diag
          = (runPrefix (lineStart s) pre).sh.diag ++ [Diag.msg "Error: Missing command\n"] ∧
      (processLine s (pre ++ t :: rest)).handed = (runPrefix (lineStart s) pre).sh.handed ∧
      (processLine s (pre ++ t :: rest)).children
          = (runPrefix (lineStart s) pre).sh.children) ∧
    ((t.type = TokenType.EOL ∨ t.type = TokenType.SEMICOLON) →
      (runPrefix (lineStart s) pre).processMode = Mode.PIPED_CMD →
      (processLine s (pre ++ t :: rest)).diag
          = (runPrefix (lineStart s) pre).sh.diag ++ [Diag.msg "Error: Broken pipe\n"] ∧
      (processLine s (pre ++ t :: rest)).handed = (runPrefix (lineStart s) pre).sh.handed ∧
      (processLine s (pre ++ t :: rest)).children
          = (runPrefix (lineStart s) pre).sh.children) := by
  constructor
  · intro ht hm
    obtain ⟨a1, a2, a3, a4⟩ := lineStep_pipe_no_command _ t ht hm
    obtain ⟨b1, b2, b3⟩ := processLine_stopped s pre t rest hrun hdone a4
    exact ⟨b1.trans a1, b2.trans a2, b3.trans a3⟩
  · intro ht hm
    obtain ⟨a1, a2, a3, a4⟩ := lineStep_terminator_after_pipe _ t ht hm
    obtain ⟨b1, b2, b3⟩ := processLine_stopped s pre t rest hrun hdone a4
    exact ⟨b1.trans a1, b2.trans a2, b3.trans a3⟩

/-- The theorem `missing_command_reported` at the line `ls | | wc`, whose
second pipe token is read in mode `PIPED_CMD`. -/
theorem missing_command_reported_witness :
    ((runPrefix (lineStart sampleShell) [word "ls", op TokenType.PIPE]).sh.outcome
        = Outcome.running ∧
      (runPrefix (lineStart sampleShell) [word "ls", op TokenType.PIPE]).doneFlag = false ∧
      (runPrefix (lineStart sampleShell) [word "ls", op TokenType.PIPE]).processMode
        = Mode.PIPED_CMD) ∧
    (processLine sampleShell
        ([word "ls", op TokenType.PIPE] ++ op TokenType.PIPE :: [word "wc"])).diag
      = (runPrefix (lineStart sampleShell) [word "ls", op TokenType.PIPE]).sh.diag
          ++ [Diag.msg "Error: Missing command\n"] ∧
    (processLine sampleShell
        ([word "ls", op TokenType.PIPE] ++ op TokenType.PIPE :: [word "wc"])).handed
      = (runPrefix (lineStart sampleShell) [word "ls", op TokenType.PIPE]).sh.handed ∧
    (processLine sampleShell
        ([word "ls", op TokenType.PIPE] ++ op TokenType.PIPE :: [word "wc"])).children
      = (runPrefix (lineStart sampleShell) [word "ls", op TokenType.PIPE]).sh.children :=
  ⟨⟨by decide, by decide, by decide⟩,
    (missing_command_reported sampleShell [word "ls", op TokenType.PIPE] [word "wc"]
      (op TokenType.PIPE) (by decide) (by decide)).1 rfl (Or.inr (by decide))⟩

end TechShell

/-! # Theorems on EXIT, STATUS, the working directory and substitution -/

namespace TechShell

/-! ## Decimal texts read back by `atoi` -/

theorem digitChar_facts :
    ∀ d, d < 10 →
      (digitChar d).isDigit = true ∧ (digitChar d).toNat - 48 = d ∧
      ProgramTechShell.isSpaceC (digitChar d) = false ∧
      digitChar d ≠ '-' ∧ digitChar d ≠ '+' := by
  decide

theorem atoiDigits_map (ds : List Nat) :
    ∀ acc, (∀ d ∈ ds, d < 10) →
      ProgramTechShell.atoiDigits (ds.map digitChar) acc
        = ds.foldl (fun a d => a * 10 + d) acc := by
  induction ds with
  | nil => intro acc _; rfl
  | cons d ds ih =>
    intro acc h
    obtain ⟨h1, h2, _, _, _⟩ := digitChar_facts d (h d (List.mem_cons_self _ _))
    have hrest : ∀ e ∈ ds, e < 10 := fun e he => h e (List.mem_cons_of_mem _ he)
    simp only [List.map_cons, ProgramTechShell.atoiDigits, h1, if_true, h2, List.foldl_cons]
    exact ih _ hrest

theorem atoi_digit_text (d : Nat) (ds : List Nat) (h : ∀ e ∈ d :: ds, e < 10) :
    ProgramTechShell.atoi (String.mk ((d :: ds).map digitChar))
      = (((d :: ds).foldl (fun a e => a * 10 + e) 0 : Nat) : Int) := by
  obtain ⟨_, _, h3, h4, h5⟩ := digitChar_facts d (h d (List.mem_cons_self _ _))
  have hdrop : ((d :: ds).map digitChar).dropWhile ProgramTechShell.isSpaceC
      = (d :: ds).map digitChar := by
    simp only [List.map_cons, List.dropWhile_cons, h3]
    rfl
  unfold ProgramTechShell.atoi
  simp only [hdrop]
  split
  · rename_i cs heq
    simp only [List.map_cons, List.cons.injEq] at heq
    exact absurd heq.1 h4
  · rename_i cs heq
    simp only [List.map_cons, List.cons.injEq] at heq
    exact absurd heq.1 h5
  · rw [atoiDigits_map (d :: ds) 0 h]

theorem atoi_minus_text (ds : List Nat) (h : ∀ e ∈ ds, e < 10) :
    ProgramTechShell.atoi (String.mk ('-' :: ds.map digitChar))
      = - (((ds.foldl (fun a e => a * 10 + e) 0 : Nat)) : Int) := by
  have hdrop : ('-' :: ds.map digitChar).dropWhile ProgramTechShell.isSpaceC
      = '-' :: ds.map digitChar := by
    rw [List.dropWhile_cons]
    rfl
  unfold ProgramTechShell.atoi
  simp only [hdrop]
  rw [atoiDigits_map ds 0 h]

theorem foldl_digits_reverse (k : Nat) :
    (Nat.digits 10 k).reverse.foldl (fun a e => a * 10 + e) 0 = k := by
  rw [List.foldl_reverse]
  have h : ∀ L : List Nat, L.foldr (fun e a => a * 10 + e) 0 = Nat.ofDigits 10 L := by
    intro L
    induction L with
    | nil => rfl
    | cons e L ih =>
      rw [List.foldr_cons, ih, Nat.ofDigits_cons]
      omega
  rw [h, Nat.ofDigits_digits]

/-- The digit list written by `natText`. -/
theorem natText_digits (k : Nat) :
    ∃ d ds, (∀ e ∈ d :: ds, e < 10) ∧ natText k = String.mk ((d :: ds).map digitChar) ∧
      (d :: ds).foldl (fun a e => a * 10 + e) 0 = k := by
  by_cases hk : k = 0
  · refine ⟨0, [], by simp, ?_, by simp [hk]⟩
    rw [hk]
    rfl
  · have hne : (Nat.digits 10 k).reverse ≠ [] := by
      simpa using Nat.digits_ne_nil_iff_ne_zero.mpr hk
    obtain ⟨d, ds, hd⟩ := List.exists_cons_of_ne_nil hne
    refine ⟨d, ds, ?_, ?_, ?_⟩
    · intro e he
      rw [← hd] at he
      exact Nat.digits_lt_base (by decide) (List.mem_reverse.mp he)
    · unfold natText
      rw [if_neg hk, hd]
    · rw [← hd]
      exact foldl_digits_reverse k

theorem atoi_decimalText (n : Int) : ProgramTechShell.atoi (decimalText n) = n := by
  obtain ⟨d, ds, hlt, htext, hval⟩ := natText_digits n.natAbs
  unfold decimalText
  by_cases hn : n < 0
  · rw [if_pos hn, htext]
    have hcat : "-" ++ String.mk ((d :: ds).map digitChar)
        = String.mk ('-' :: (d :: ds).map digitChar) := rfl
    rw [hcat, atoi_minus_text (d :: ds) hlt, hval]
    omega
  · rw [if_neg hn, htext, atoi_digit_text d ds hlt, hval]
    omega

/-- C21 (amended): the top-level `EXIT` ends the shell with code 0 whatever
its arguments. In the statement-based variant `EXIT` without argument ends the
shell with code 0, and `EXIT` whose first argument is the decimal text of an
integer `n` in the range of `int` ends it with the low byte `n mod 256` of `n`,
which is `n` itself when `0 ≤ n ≤ 255`. -/
theorem exit_code_of_argument (n : Int) (hlo : -2147483648 ≤ n) (hhi : n ≤ 2147483647)
    (t : Shell) (cmd : Command) (s : ProgramTechShell.Shell) (c : ProgramTechShell.Command)
    (more : List String) :
    (processExit t cmd).outcome = Outcome.exited 0 ∧
    (ProgramTechShell.processExit s { c with args := [] }).outcome = Outcome.exited 0 ∧
    (ProgramTechShell.processExit s { c with args := decimalText n :: more }).outcome
      = Outcome.exited (n % 256).toNat ∧
    (0 ≤ n → n ≤ 255 →
      (ProgramTechShell.processExit s { c with args := decimalText n :: more }).outcome
        = Outcome.exited n.toNat) := by
  have h3 : (ProgramTechShell.processExit s { c with args := decimalText n :: more }).outcome
      = Outcome.exited (n % 256).toNat := by
    simp only [ProgramTechShell.processExit, atoi_decimalText]
  refine ⟨rfl, rfl, h3, ?_⟩
  intro h0 h255
  rw [h3, Int.emod_eq_of_lt h0 (by omega)]

theorem exit_code_of_argument_witness :
    (-2147483648 : Int) ≤ 3 ∧ (3 : Int) ≤ 2147483647 ∧
    (ProgramTechShell.processExit (ProgramTechShell.sampleShell 0 [])
        { ProgramTechShell.newCommand "EXIT" with args := decimalText 3 :: [] }).outcome
      = Outcome.exited (3 % 256 : Int).toNat :=
  ⟨by decide, by decide,
    (exit_code_of_argument 3 (by decide) (by decide) sampleShell (newCommand "EXIT")
      (ProgramTechShell.sampleShell 0 []) (ProgramTechShell.newCommand "EXIT") []).2.2.1⟩

/-! ## STATUS -/

/-- C22 (as amended): in the statement-based variant, for either prior value
of the flag, `STATUS ON` leaves it on, `STATUS OFF` leaves it off (letter case
ignored) and `STATUS` with any other argument leaves it unchanged; the
top-level `STATUS` ignores its arguments and toggles the flag. -/
theorem status_argument_effect (s : ProgramTechShell.Shell) (c : ProgramTechShell.Command)
    (a : String) (more : List String) (t : Shell) (cmd : Command) :
    (strcasecmpEq a "ON" = true →
      (ProgramTechShell.processPrintStatus s { c with args := a :: more }).exitStatusFlag = 1) ∧
    (strcasecmpEq a "OFF" = true →
      (ProgramTechShell.processPrintStatus s { c with args := a :: more }).exitStatusFlag = 0) ∧
    (strcasecmpEq a "ON" = false → strcasecmpEq a "OFF" = false →
      (ProgramTechShell.processPrintStatus s { c with args := a :: more }).exitStatusFlag
        = s.exitStatusFlag) ∧
    (processStatus t cmd).sFlag = (if t.sFlag = 0 then 1 else 0) := by
  refine ⟨?_, ?_, ?_, ?_⟩
  · intro h
    have hoff : strcasecmpEq a "OFF" = false := by
      have h1 : a.data.map Char.toLower = "ON".data.map Char.toLower := by
        simpa [strcasecmpEq] using h
      simp only [strcasecmpEq, h1]
      decide
    simp [ProgramTechShell.processPrintStatus, h, hoff]
  · intro h
    simp [ProgramTechShell.processPrintStatus, h]
  · intro h1 h2
    simp [ProgramTechShell.processPrintStatus, h1, h2]
  · unfold processStatus
    split_ifs <;> rfl

/-- The theorem `status_argument_effect` at `STATUS on` with the flag off. -/
theorem status_argument_effect_witness :
    strcasecmpEq "on" "ON" = true ∧
    (ProgramTechShell.processPrintStatus (ProgramTechShell.sampleShell 0 [])
      { ProgramTechShell.newCommand "STATUS" with args := "on" :: [] }).exitStatusFlag = 1 :=
  ⟨by decide,
    (status_argument_effect (ProgramTechShell.sampleShell 0 [])
      (ProgramTechShell.newCommand "STATUS") "on" [] sampleShell (newCommand "STATUS")).1
      (by decide)⟩

/-- C23: `STATUS` without argument toggles the flag in both variants: the new
value is the negation of the old one (1 when it was 0, else 0), two
consecutive bare `STATUS` give back the original truth value, and a bare
`STATUS` after the flag was turned on turns it off. -/
theorem bare_status_toggles (t : Shell) (cmd : Command) (s : ProgramTechShell.Shell)
    (c : ProgramTechShell.Command) :
    (processStatus t { cmd with args := [] }).sFlag = (if t.sFlag = 0 then 1 else 0) ∧
    (processStatus (processStatus t { cmd with args := [] }) { cmd with args := [] }).sFlag
      = (if t.sFlag = 0 then 0 else 1) ∧
    (processStatus { t with sFlag := 1 } { cmd with args := [] }).sFlag = 0 ∧
    (ProgramTechShell.processPrintStatus s { c with args := [] }).exitStatusFlag
      = (if s.exitStatusFlag = 0 then 1 else 0) ∧
    (ProgramTechShell.processPrintStatus
        (ProgramTechShell.processPrintStatus s { c with args := [] })
        { c with args := [] }).exitStatusFlag
      = (if s.exitStatusFlag = 0 then 0 else 1) ∧
    (ProgramTechShell.processPrintStatus { s with exitStatusFlag := 1 }
        { c with args := [] }).exitStatusFlag = 0 := by
  refine ⟨?_, ?_, ?_, ?_, ?_, ?_⟩
  · unfold processStatus; split_ifs <;> rfl
  · unfold processStatus
    by_cases h : t.sFlag = 0 <;> simp [h]
  · rfl
  · rfl
  · simp only [ProgramTechShell.processPrintStatus]
    by_cases h : s.exitStatusFlag = 0 <;> simp [h]
  · rfl

/-! ## Evaluations at single inputs -/

/-- C25 (evaluated at the failing input): with `HOME` and the working
directory both `/home/u`, `PWD` writes `/home/u` and a newline, not `~`. -/
theorem pwd_at_home_prints_home :
    sampleShell.home = some sampleShell.cwd ∧
    (processPWD sampleShell (newCommand "PWD")).writes
      = [(some (Obj.inherited 1), "/home/u\n")] := by
  decide

/-- C27 (evaluated at the failing input): with `HOME` set to `/home/user` and
the working directory `/home/userX`, `PWD` writes `~/` and a newline, not the
working directory. -/
theorem pwd_in_sibling_prints_tilde :
    (processPWD sampleSiblingShell (newCommand "PWD")).writes
      = [(some (Obj.inherited 1), "~/\n")] := by
  decide

/-- C21 (counterexample to the claim as stated): the top-level `EXIT 3` ends
the shell with code 0, and in the statement-based variant `EXIT 256` ends it
with code 0 and `EXIT -1` with code 255. -/
theorem exit_code_not_always_argument :
    (processExit sampleShell { newCommand "EXIT" with args := [("3", TokenType.BASIC)] }).outcome
      = Outcome.exited 0 ∧
    (ProgramTechShell.processExit (ProgramTechShell.sampleShell 0 [])
        { ProgramTechShell.newCommand "EXIT" with args := ["256"] }).outcome
      = Outcome.exited 0 ∧
    (ProgramTechShell.processExit (ProgramTechShell.sampleShell 0 [])
        { ProgramTechShell.newCommand "EXIT" with args := ["-1"] }).outcome
      = Outcome.exited 255 := by
  decide

/-- C22 (counterexample to the claim as stated): with the flag on, the
top-level `STATUS ON` turns it off. -/
theorem status_on_toggles_at_top_level :
    (processStatus { sampleShell with sFlag := 1 }
        { newCommand "STATUS" with args := [("ON", TokenType.BASIC)] }).sFlag = 0 := by
  decide

/-- C29 (counterexample to the claim as stated): the name `a$b` is not in the
empty store, and the token `$a$b$` expands to `b`, not to the empty string. -/
theorem dollar_name_expands_to_rest :
    findInSet createVarSet "a$b" = none ∧
    expandToken createVarSet ⟨"$" ++ "a$b" ++ "$", TokenType.BASIC⟩ = "b" := by
  decide

/-! ## PWD -/

/-- C26 (evaluated at the failing input): with `HOME` the empty text and the
working directory `/` followed by a path `r` of 998 characters (999
characters in all, so `getcwd` fills its 1000 places with them and the
terminator), `stringCopy` fills all 998 places behind `~/` and leaves no
terminator: `PWD` reads past the end of the buffer instead of writing `~/r`
and a newline. -/
theorem pwd_unterminated_buffer :
    sampleLongShell.home = some "" ∧
    sampleLongShell.cwd = "" ++ "/" ++ sampleLongPath ∧
    sampleLongPath.length = 998 ∧
    ("" ++ "/" ++ sampleLongPath).length < 1000 ∧
    (stringCopy sampleLongShell.cwd.data "".length).length = 998 ∧
    (processPWD sampleLongShell (newCommand "PWD")).outcome = Outcome.memoryFault ∧
    (processPWD sampleLongShell (newCommand "PWD")).writes = [] := by
  decide

/-- With `HOME` set to `h` and the working directory `h/r` (fewer than 1000
characters in all), where `h` is not empty or `r` has fewer than 998
characters, `PWD` writes `~/r` and a newline to standard output and returns.
This is the statement of C26 away from the one case where the buffer is left
without a terminator. -/
theorem pwd_below_home (s : Shell) (cmd : Command) (h r : String)
    (hhome : s.home = some h) (hcwd : s.cwd = h ++ "/" ++ r)
    (hlen : (h ++ "/" ++ r).length < 1000) (hfit : h ≠ "" ∨ r.length < 998) :
    (processPWD s cmd).writes = s.writes ++ [(fdGet s.fds 1, "~/" ++ r ++ "\n")] ∧
    (processPWD s cmd).outcome = s.outcome := by
  have hdata : s.cwd.data = h.data ++ '/' :: r.data := by
    rw [hcwd, String.data_append, String.data_append]
    show h.data ++ ['/'] ++ r.data = _
    rw [List.append_assoc, List.singleton_append]
  have hlh : h.length = h.data.length := rfl
  have hl : s.cwd.length = h.length + 1 + r.length := by
    show s.cwd.data.length = h.data.length + 1 + r.data.length
    rw [hdata, List.length_append, List.length_cons]; omega
  have hsum : (h ++ "/" ++ r).length = h.length + 1 + r.length := by
    rw [← hcwd]; exact hl
  have hrl : r.length = r.data.length := rfl
  have hr : r.data.length ≤ 998 := by omega
  have hfit2 : r.data.length < 998 := by
    rcases hfit with hne | hlt
    · have hpos : 0 < h.length := by
        rcases Nat.eq_zero_or_pos h.length with hz | hp
        · exact absurd (String.ext (List.length_eq_zero.mp hz)) hne
        · exact hp
      omega
    · omega
  have htake : s.cwd.data.take h.length = h.data := by
    rw [hdata, hlh]; exact List.take_left _ _
  have hne : s.cwd.length ≠ h.length := by rw [hl]; omega
  have hcopy : stringCopy s.cwd.data h.length = r.data := by
    unfold stringCopy
    have hd : List.drop (h.length + 1) (h.data ++ '/' :: r.data) = r.data := by
      have e : h.data ++ '/' :: r.data = (h.data ++ ['/']) ++ r.data := by
        rw [List.append_assoc, List.singleton_append]
      have e2 : h.length + 1 = (h.data ++ ['/']).length := by
        rw [List.length_append, List.length_singleton]; rfl
      rw [e, e2]
      exact List.drop_left _ _
    rw [hdata, hd]
    exact List.take_of_length_le hr
  have htext : String.mk ('~' :: '/' :: r.data) ++ "\n" = "~/" ++ r ++ "\n" := by
    apply String.ext
    rw [String.data_append, String.data_append, String.data_append]
    rfl
  simp only [processPWD, hhome, htake, hne, hcopy, hfit2, if_true, if_false, writeStdout, htext,
    and_self]

/-- The theorem `pwd_below_home` at `HOME = /home/u` and the working directory
`/home/u/src`. -/
theorem pwd_below_home_witness :
    (({ sampleShell with cwd := "/home/u/src" } : Shell).home = some "/home/u" ∧
      ({ sampleShell with cwd := "/home/u/src" } : Shell).cwd = "/home/u" ++ "/" ++ "src" ∧
      ("/home/u" ++ "/" ++ "src").length < 1000 ∧ ("/home/u" ≠ "" ∨ "src".length < 998)) ∧
    (processPWD { sampleShell with cwd := "/home/u/src" } (newCommand "PWD")).writes
      = ({ sampleShell with cwd := "/home/u/src" } : Shell).writes
          ++ [(fdGet ({ sampleShell with cwd := "/home/u/src" } : Shell).fds 1,
                "~/" ++ "src" ++ "\n")] :=
  ⟨⟨by decide, by decide, by decide, by decide⟩,
    (pwd_below_home { sampleShell with cwd := "/home/u/src" } (newCommand "PWD") "/home/u" "src"
      (by decide) (by decide) (by decide) (by decide)).1⟩

/-! ## Substitution passes -/

theorem loopPasses_spec (vars : VarSet) (fuel : Nat) :
    ∀ r : String × Bool,
      (loopPasses vars fuel r).length ≤ fuel ∧
      (r :: loopPasses vars fuel r).getLast? = some (expandLoop vars fuel r) ∧
      (∀ p ∈ (r :: loopPasses vars fuel r).dropLast, p.2 = true) ∧
      ((loopPasses vars fuel r).length < fuel → (expandLoop vars fuel r).2 = false) ∧
      List.Chain (fun a b => b = preprocess vars a.1) r (loopPasses vars fuel r) := by
  induction fuel with
  | zero =>
    intro r
    refine ⟨by simp [loopPasses], by simp [loopPasses, expandLoop], ?_, ?_, ?_⟩
    · intro p hp; simp [loopPasses] at hp
    · intro h; simp [loopPasses] at h
    · simp [loopPasses]
  | succ fuel ih =>
    rintro ⟨s, changed⟩
    cases changed with
    | false =>
      refine ⟨by simp [loopPasses], by simp [loopPasses, expandLoop], ?_, ?_, ?_⟩
      · intro p hp; simp [loopPasses] at hp
      · intro _; simp [expandLoop]
      · simp [loopPasses]
    | true =>
      obtain ⟨h1, h2, h3, h4, h5⟩ := ih (preprocess vars s)
      have e1 : loopPasses vars (fuel + 1) (s, true)
          = preprocess vars s :: loopPasses vars fuel (preprocess vars s) := by
        simp [loopPasses]
      have e2 : expandLoop vars (fuel + 1) (s, true) = expandLoop vars fuel (preprocess vars s) := by
        simp [expandLoop]
      rw [e1, e2]
      refine ⟨by simp only [List.length_cons]; omega, ?_, ?_, ?_, ?_⟩
      · rw [List.getLast?_cons_cons]; exact h2
      · intro p hp
        rw [List.dropLast_cons₂] at hp
        rcases List.mem_cons.mp hp with hp | hp
        · rw [hp]
        · exact h3 p hp
      · intro h
        apply h4
        simp only [List.length_cons] at h
        omega
      · exact List.Chain.cons rfl h5

/-- C30: for every token text and every store, the expansion of a word or
double-quoted token makes at least one and at most `MAX_SUBSTITUTION_LEVEL`
= 10 passes of `preprocess`, each pass working on the result of the pass
before; every pass but the last reported a change, so the expansion stops at
the first pass that reports none; when it stops before the tenth pass the last
pass reported no change; and the expansion is the result of the last pass. A
single-quoted token is not passed through `preprocess`. -/
theorem expansion_passes_bounded (vars : VarSet) (text : String) (ty : TokenType) :
    MAX_SUBSTITUTION_LEVEL = 10 ∧
    1 ≤ (expandPasses vars text).length ∧
    (expandPasses vars text).length ≤ MAX_SUBSTITUTION_LEVEL ∧
    (expandPasses vars text).head? = some (preprocess vars text) ∧
    List.Chain' (fun a b => b = preprocess vars a.1) (expandPasses vars text) ∧
    (∀ p ∈ (expandPasses vars text).dropLast, p.2 = true) ∧
    ((expandPasses vars text).length < MAX_SUBSTITUTION_LEVEL →
      ∃ p, (expandPasses vars text).getLast? = some p ∧ p.2 = false) ∧
    (∃ p, (expandPasses vars text).getLast? = some p ∧
      expandToken vars ⟨text, ty⟩ = if ty = TokenType.SINGLE_QUOTE then text else p.1) := by
  obtain ⟨h1, h2, h3, h4, h5⟩ :=
    loopPasses_spec vars (MAX_SUBSTITUTION_LEVEL - 1) (preprocess vars text)
  have hm : MAX_SUBSTITUTION_LEVEL - 1 = 9 := rfl
  have hM : MAX_SUBSTITUTION_LEVEL = 10 := rfl
  refine ⟨rfl, ?_, ?_, rfl, h5, h3, ?_, ?_⟩
  · simp [expandPasses]
  · simp only [expandPasses, List.length_cons]; omega
  · intro h
    refine ⟨_, h2, h4 ?_⟩
    simp only [expandPasses, List.length_cons] at h
    omega
  · refine ⟨_, h2, ?_⟩
    simp only [expandToken]

/-- The self-referential store `a = $a$`: the expansion of `$a$` makes all ten
passes and stops. -/
theorem expansion_passes_self_reference :
    (expandPasses [("a", "$a$")] "$a$").length = 10 ∧
    expandToken [("a", "$a$")] ⟨"$a$", TokenType.BASIC⟩ = "$a$" := by
  decide

/-! ## One pass over a delimited name -/

theorem foldl_name (vars : VarSet) (cs : List Char) :
    ∀ (r name : List Char) (f : Bool), '$' ∉ cs →
      cs.foldl (preprocessStep vars) ⟨r, some name, f⟩ = ⟨r, some (name ++ cs), f⟩ := by
  induction cs with
  | nil => intro r name f _; simp
  | cons c cs ih =>
    intro r name f h
    have hc : c ≠ '$' := fun e => h (by rw [e]; exact List.mem_cons_self _ _)
    have hcs : '$' ∉ cs := fun e => h (List.mem_cons_of_mem _ e)
    have hstep : preprocessStep vars ⟨r, some name, f⟩ c = ⟨r, some (name ++ [c]), f⟩ := by
      unfold preprocessStep
      rw [if_neg hc]
    rw [List.foldl_cons, hstep, ih r (name ++ [c]) f hcs, List.append_assoc]
    rfl

theorem foldl_copy (vars : VarSet) (cs : List Char) :
    ∀ (r : List Char) (f : Bool), '$' ∉ cs → r.length + cs.length ≤ MAX_LINE_LENGTH →
      cs.foldl (preprocessStep vars) ⟨r, none, f⟩ = ⟨r ++ cs, none, f⟩ := by
  induction cs with
  | nil => intro r f _ _; simp
  | cons c cs ih =>
    intro r f h hlen
    have hc : c ≠ '$' := fun e => h (by rw [e]; exact List.mem_cons_self _ _)
    have hcs : '$' ∉ cs := fun e => h (List.mem_cons_of_mem _ e)
    simp only [List.length_cons] at hlen
    have hlt : r.length < MAX_LINE_LENGTH := by omega
    have hstep : preprocessStep vars ⟨r, none, f⟩ c = ⟨r ++ [c], none, f⟩ := by
      unfold preprocessStep
      rw [if_neg hc]
      simp only [if_pos hlt]
    have hlen2 : (r ++ [c]).length + cs.length ≤ MAX_LINE_LENGTH := by
      simp only [List.length_append, List.length_singleton]; omega
    rw [List.foldl_cons, hstep, ih (r ++ [c]) f hcs hlen2, List.append_assoc]
    rfl

theorem preprocess_plain (vars : VarSet) (v : String) (hv : '$' ∉ v.data)
    (hlen : v.length ≤ MAX_LINE_LENGTH) : preprocess vars v = (v, false) := by
  have h := foldl_copy vars v.data [] false hv (by simpa using hlen)
  unfold preprocess
  rw [h]
  rfl

theorem preprocess_delimited (vars : VarSet) (x : String) (hx : '$' ∉ x.data) :
    preprocess vars ("$" ++ x ++ "$")
      = (String.mk (match findInSet vars x with
                    | some m => m.2.data.take MAX_LINE_LENGTH
                    | none => []), true) := by
  have hdata : ("$" ++ x ++ "$").data = '$' :: (x.data ++ ['$']) := by
    rw [String.data_append, String.data_append]
    rfl
  have h1 : preprocessStep vars ⟨[], none, false⟩ '$' = ⟨[], some [], true⟩ := rfl
  have hx2 : String.mk x.data = x := rfl
  unfold preprocess
  rw [hdata, List.foldl_cons, h1, List.foldl_append, foldl_name vars x.data [] [] true hx]
  simp only [List.nil_append, List.foldl_cons, List.foldl_nil]
  unfold preprocessStep
  rw [if_pos rfl]
  simp only [hx2]
  cases findInSet vars x with
  | none => rfl
  | some m => simp [copyBounded]

theorem expandLoop_settled (vars : VarSet) (fuel : Nat) (v : String) (hv : '$' ∉ v.data)
    (hlen : v.length ≤ MAX_LINE_LENGTH) :
    expandLoop vars (fuel + 1) (v, true) = (v, false) := by
  have h : expandLoop vars (fuel + 1) (v, true) = expandLoop vars fuel (preprocess vars v) := by
    simp [expandLoop]
  rw [h, preprocess_plain vars v hv hlen]
  cases fuel with
  | zero => rfl
  | succ k => simp [expandLoop]

/-- C28: for every store, every name `x` without `$` and every value `v` of at
most 500 characters without `$`, after `SET x v` (the handler `processSet`
called with `x` and `v` as its first two arguments, or `addToSet` itself) the
expansion of a word or double-quoted token `$x$` is exactly `v`. -/
theorem set_then_expand (s : Shell) (cname x v : String) (t1 t2 ty : TokenType)
    (more : List (String × TokenType)) (i : InputKind) (o : OutputKind)
    (hx : '$' ∉ x.data) (hv : '$' ∉ v.data) (hlen : v.length ≤ 500)
    (hty : ty ≠ TokenType.SINGLE_QUOTE) :
    expandToken (processSet s ⟨cname, (x, t1) :: (v, t2) :: more, i, o⟩).varList
        ⟨"$" ++ x ++ "$", ty⟩ = v ∧
    expandToken (addToSet s.varList x v) ⟨"$" ++ x ++ "$", ty⟩ = v := by
  have hset : (processSet s ⟨cname, (x, t1) :: (v, t2) :: more, i, o⟩).varList
      = addToSet s.varList x v := rfl
  have hmain : expandToken (addToSet s.varList x v) ⟨"$" ++ x ++ "$", ty⟩ = v := by
    unfold expandToken
    rw [if_neg hty]
    simp only [preprocess_delimited _ x hx, findInSet_addToSet_self]
    have htake : v.data.take MAX_LINE_LENGTH = v.data :=
      List.take_of_length_le (by simpa using hlen)
    rw [htake]
    have hm : MAX_SUBSTITUTION_LEVEL - 1 = 8 + 1 := rfl
    rw [hm]
    have hv2 : String.mk v.data = v := rfl
    rw [hv2, expandLoop_settled _ 8 v hv hlen]
  exact ⟨by rw [hset]; exact hmain, hmain⟩

theorem set_then_expand_witness :
    expandToken (processSet sampleShell
        ⟨"SET", [("dir", TokenType.BASIC), ("/tmp", TokenType.BASIC)],
          InputKind.STDIN, OutputKind.STDOUT⟩).varList
        ⟨"$" ++ "dir" ++ "$", TokenType.BASIC⟩ = "/tmp" :=
  (set_then_expand sampleShell "SET" "dir" "/tmp" TokenType.BASIC TokenType.BASIC
    TokenType.BASIC [] InputKind.STDIN OutputKind.STDOUT
    (by decide) (by decide) (by decide) (by decide)).1

/-- C29 (amended): for every store and every name `x` without `$` that is not
in the store, the expansion of a word or double-quoted token `$x$` is the empty
string; the expansion is a total function, it raises no error. -/
theorem unset_name_expands_empty (st : VarSet) (x : String) (ty : TokenType)
    (hunset : findInSet st x = none) (hx : '$' ∉ x.data)
    (hty : ty ≠ TokenType.SINGLE_QUOTE) :
    expandToken st ⟨"$" ++ x ++ "$", ty⟩ = "" := by
  unfold expandToken
  rw [if_neg hty]
  simp only [preprocess_delimited st x hx, hunset]
  have hm : MAX_SUBSTITUTION_LEVEL - 1 = 8 + 1 := rfl
  rw [hm]
  have he : String.mk [] = "" := rfl
  rw [he, expandLoop_settled st 8 "" (by simp) (by decide)]

theorem unset_name_expands_empty_witness :
    findInSet [("a", "1")] "b" = none ∧
    expandToken [("a", "1")] ⟨"$" ++ "b" ++ "$", TokenType.DOUBLE_QUOTE⟩ = "" :=
  ⟨by decide, unset_name_expands_empty [("a", "1")] "b" TokenType.DOUBLE_QUOTE
    (by decide) (by decide) (by decide)⟩

end TechShell

/-! # Theorems on the tokenizer, the substitution pass, the store and reaping -/

namespace ProgramTechShell

/-! ## The tokenizer -/

theorem getNextToken_eq (st : List Char) :
    getNextToken st =
      match st.dropWhile isBlank with
      | [] => (⟨none, TokenType.EOL⟩, [])
      | c :: q =>
        if c = '#' then (⟨none, TokenType.EOL⟩, c :: q)
        else if c = '\'' then
          endToken TokenType.SINGLE_QUOTE (some (q.takeWhile (fun x => x != '\'')))
            (q.dropWhile (fun x => x != '\''))
        else if c = '"' then
          endToken TokenType.DOUBLE_QUOTE (some (q.takeWhile (fun x => x != '"')))
            (q.dropWhile (fun x => x != '"'))
        else if c = '|' then endToken TokenType.PIPE none q
        else if c = ';' then endToken TokenType.SEMICOLON none q
        else
          endToken TokenType.BASIC (some ((c :: q).takeWhile (fun x => !isBlank x)))
            ((c :: q).dropWhile (fun x => !isBlank x)) := by
  cases st with
  | nil => rfl
  | cons a l => rfl

theorem dropWhile_blank_append (ws rest : List Char) (c : Char)
    (hws : ∀ x ∈ ws, isBlank x = true) (hc : isBlank c = false) :
    (ws ++ c :: rest).dropWhile isBlank = c :: rest := by
  induction ws with
  | nil => simp [List.dropWhile_cons, hc]
  | cons w ws ih =>
    have hw : isBlank w = true := hws w (List.mem_cons_self _ _)
    rw [List.cons_append, List.dropWhile_cons, hw]
    exact ih (fun x hx => hws x (List.mem_cons_of_mem _ hx))

theorem takeWhile_until (body after : List Char) (q : Char) (hq : q ∉ body) :
    (body ++ q :: after).takeWhile (fun x => x != q) = body ∧
    (body ++ q :: after).dropWhile (fun x => x != q) = q :: after := by
  induction body with
  | nil => simp [List.takeWhile_cons, List.dropWhile_cons]
  | cons b body ih =>
    have hb : b ≠ q := fun e => hq (by rw [e]; exact List.mem_cons_self _ _)
    have hrest : q ∉ body := fun e => hq (List.mem_cons_of_mem _ e)
    obtain ⟨i1, i2⟩ := ih hrest
    have hne : (b != q) = true := by simpa using hb
    constructor
    · rw [List.cons_append, List.takeWhile_cons, hne, i1]; rfl
    · rw [List.cons_append, List.dropWhile_cons, hne, i2]; rfl

theorem dropWhile_until_nil (body : List Char) (q : Char) :
    body.dropWhile (fun x => x != q) = [] ↔ q ∉ body := by
  induction body with
  | nil => simp
  | cons b body ih =>
    by_cases hb : b = q
    · simp [List.dropWhile_cons, hb]
    · have hne : (b != q) = true := by simpa using hb
      rw [List.dropWhile_cons, hne]
      simp only [if_true, ih, List.mem_cons, not_or]
      constructor
      · intro h; exact ⟨fun e => hb e.symm, h⟩
      · intro h; exact h.2

/-- C32: from every tokenizer position that reads, after white space, a quote
character `q` (single or double), a text `body` without `q`, and `q` again,
`getNextToken` returns the token of the quote type of `q` whose text is
exactly `body`, and the next call starts right behind the closing quote. -/
theorem quoted_token_between_quotes (ws body after : List Char) (q : Char)
    (hws : ∀ c ∈ ws, isBlank c = true) (hq : q = '\'' ∨ q = '"') (hbody : q ∉ body) :
    getNextToken (ws ++ q :: (body ++ q :: after))
      = (⟨some (String.mk body),
          if q = '\'' then TokenType.SINGLE_QUOTE else TokenType.DOUBLE_QUOTE⟩, after) := by
  obtain ⟨h1, h2⟩ := takeWhile_until body after q hbody
  rcases hq with hq | hq
  · subst hq
    rw [getNextToken_eq, dropWhile_blank_append ws _ '\'' hws (by decide)]
    simp only [h1, h2, endToken]
    simp
  · subst hq
    rw [getNextToken_eq, dropWhile_blank_append ws _ '"' hws (by decide)]
    simp only [h1, h2, endToken]
    simp

/-- The theorem `quoted_token_between_quotes` at the second token of the line
`Hi "there how"are you`, and all the tokens of that line. -/
theorem quoted_token_between_quotes_witness :
    getNextToken (" ".data ++ '"' :: ("there how".data ++ '"' :: "are you".data))
      = (⟨some "there how", TokenType.DOUBLE_QUOTE⟩, "are you".data) ∧
    tokensOf "Hi \"there how\"are you"
      = [⟨some "Hi", TokenType.BASIC⟩, ⟨some "there how", TokenType.DOUBLE_QUOTE⟩,
         ⟨some "are", TokenType.BASIC⟩, ⟨some "you", TokenType.BASIC⟩,
         ⟨none, TokenType.EOL⟩] :=
  ⟨quoted_token_between_quotes " ".data "there how".data "are you".data '"'
      (by decide) (Or.inr rfl) (by decide),
    by decide⟩

theorem endToken_type (ty : TokenType) (start : Option (List Char)) (pos : List Char) :
    (endToken ty start pos).1.type
      = if pos = [] ∧ (ty = TokenType.SINGLE_QUOTE ∨ ty = TokenType.DOUBLE_QUOTE)
        then TokenType.ERROR else ty := by
  cases pos with
  | nil =>
    by_cases h : ty = TokenType.SINGLE_QUOTE ∨ ty = TokenType.DOUBLE_QUOTE
    · simp [endToken, h]
    · simp [endToken, h]
  | cons a l => simp [endToken]

/-- The type returned by `getNextToken`, by the first character after the
white space. -/
theorem getNextToken_type (st : List Char) :
    (getNextToken st).1.type =
      match st.dropWhile isBlank with
      | [] => TokenType.EOL
      | c :: q =>
        if c = '#' then TokenType.EOL
        else if c = '\'' then
          (if '\'' ∉ q then TokenType.ERROR else TokenType.SINGLE_QUOTE)
        else if c = '"' then
          (if '"' ∉ q then TokenType.ERROR else TokenType.DOUBLE_QUOTE)
        else if c = '|' then TokenType.PIPE
        else if c = ';' then TokenType.SEMICOLON
        else TokenType.BASIC := by
  rw [getNextToken_eq]
  cases st.dropWhile isBlank with
  | nil => rfl
  | cons c q =>
    simp only
    split_ifs <;> simp_all [endToken_type, dropWhile_until_nil]

/-- C33: `getNextToken` returns a token of type `ERROR` if and only if the
text at the current position is white space, then a single or double quote,
then a rest in which that quote character does not occur again. -/
theorem error_iff_unterminated_quote (st : List Char) :
    (getNextToken st).1.type = TokenType.ERROR ↔
      ∃ ws q body, st = ws ++ q :: body ∧ (∀ c ∈ ws, isBlank c = true) ∧
        (q = '\'' ∨ q = '"') ∧ q ∉ body := by
  constructor
  · intro h
    rw [getNextToken_type] at h
    have hsplit : st = st.takeWhile isBlank ++ st.dropWhile isBlank :=
      (List.takeWhile_append_dropWhile isBlank st).symm
    have hws : ∀ c ∈ st.takeWhile isBlank, isBlank c = true :=
      fun c hc => List.mem_takeWhile_imp hc
    cases hd : st.dropWhile isBlank with
    | nil => rw [hd] at h; cases h
    | cons c q =>
      rw [hd] at h hsplit
      simp only at h
      by_cases h1 : c = '#'
      · rw [if_pos h1] at h; cases h
      · rw [if_neg h1] at h
        by_cases h2 : c = '\''
        · rw [if_pos h2] at h
          by_cases h3 : '\'' ∉ q
          · exact ⟨_, c, q, hsplit, hws, Or.inl h2, by rw [h2]; exact h3⟩
          · rw [if_neg h3] at h; cases h
        · rw [if_neg h2] at h
          by_cases h4 : c = '"'
          · rw [if_pos h4] at h
            by_cases h5 : '"' ∉ q
            · exact ⟨_, c, q, hsplit, hws, Or.inr h4, by rw [h4]; exact h5⟩
            · rw [if_neg h5] at h; cases h
          · rw [if_neg h4] at h
            split_ifs at h
  · rintro ⟨ws, q, body, hst, hws, hq, hbody⟩
    rw [getNextToken_type, hst]
    rcases hq with hq | hq
    · subst hq
      rw [dropWhile_blank_append ws body '\'' hws (by decide)]
      simp [hbody]
    · subst hq
      rw [dropWhile_blank_append ws body '"' hws (by decide)]
      simp [hbody]

/-- C36 (evaluated at the failing input): the line `a |b` yields the word `a`,
a pipe and the end of the line; the `b` right behind the pipe is overwritten
by the terminator and belongs to no token. So do `x` in `a ;x` and the opening
quote in `a |"b c"`. With a blank behind the pipe, `a | b` yields `a`, pipe,
`b`. -/
theorem char_after_pipe_is_dropped :
    tokensOf "a |b"
      = [⟨some "a", TokenType.BASIC⟩, ⟨none, TokenType.PIPE⟩, ⟨none, TokenType.EOL⟩] ∧
    tokensOf "a ;x"
      = [⟨some "a", TokenType.BASIC⟩, ⟨none, TokenType.SEMICOLON⟩, ⟨none, TokenType.EOL⟩] ∧
    tokensOf "a |\"b c\""
      = [⟨some "a", TokenType.BASIC⟩, ⟨none, TokenType.PIPE⟩, ⟨some "b", TokenType.BASIC⟩,
         ⟨some "c\"", TokenType.BASIC⟩, ⟨none, TokenType.EOL⟩] ∧
    tokensOf "a | b"
      = [⟨some "a", TokenType.BASIC⟩, ⟨none, TokenType.PIPE⟩, ⟨some "b", TokenType.BASIC⟩,
         ⟨none, TokenType.EOL⟩] := by
  decide

theorem endToken_length (ty : TokenType) (start : Option (List Char)) (pos : List Char) :
    (endToken ty start pos).2.length ≤ pos.length := by
  cases pos with
  | nil => unfold endToken; split_ifs <;> simp
  | cons a l => simp [endToken]

theorem dropWhile_length_le (p : Char → Bool) (l : List Char) :
    (l.dropWhile p).length ≤ l.length := by
  induction l with
  | nil => simp
  | cons a l ih =>
    rw [List.dropWhile_cons]
    split_ifs
    · exact Nat.le_succ_of_le ih
    · exact Nat.le_refl _

/-- Every token other than `EOL` and `ERROR` consumes at least one character. -/
theorem getNextToken_consumes (st : List Char)
    (h1 : (getNextToken st).1.type ≠ TokenType.EOL) :
    (getNextToken st).2.length < st.length := by
  have hle := dropWhile_length_le isBlank st
  rw [getNextToken_eq] at h1 ⊢
  cases hd : st.dropWhile isBlank with
  | nil => rw [hd] at h1; exact absurd rfl h1
  | cons c q =>
    rw [hd] at h1 hle
    simp only [List.length_cons] at hle
    simp only at h1 ⊢
    by_cases c1 : c = '#'
    · rw [if_pos c1] at h1; exact absurd rfl h1
    · rw [if_neg c1]
      have hq1 := dropWhile_length_le (fun x => x != '\'') q
      have hq2 := dropWhile_length_le (fun x => x != '"') q
      have hq3 : ((c :: q).dropWhile (fun x => !isBlank x)).length ≤ q.length := by
        have hb : isBlank c = false := by
          cases hb : isBlank c with
          | false => rfl
          | true =>
            have := List.head_dropWhile_not isBlank st (by rw [hd]; simp)
            simp [hd, hb] at this
        rw [List.dropWhile_cons]
        simp only [hb, Bool.not_false, if_true]
        exact dropWhile_length_le _ q
      split_ifs
      · exact lt_of_le_of_lt (endToken_length _ _ _) (by omega)
      · exact lt_of_le_of_lt (endToken_length _ _ _) (by omega)
      · exact lt_of_le_of_lt (endToken_length _ _ _) (by omega)
      · exact lt_of_le_of_lt (endToken_length _ _ _) (by omega)
      · exact lt_of_le_of_lt (endToken_length _ _ _) (by omega)

/-- A call that returns `EOL` leaves a position from which every call returns
`EOL` and stays there. -/
theorem getNextToken_eol_state (st : List Char)
    (h : (getNextToken st).1.type = TokenType.EOL) :
    getNextToken st = (⟨none, TokenType.EOL⟩, []) ∨
    ∃ q, getNextToken st = (⟨none, TokenType.EOL⟩, '#' :: q) := by
  have ht := getNextToken_type st
  rw [h] at ht
  rw [getNextToken_eq]
  cases hd : st.dropWhile isBlank with
  | nil => exact Or.inl rfl
  | cons c q =>
    rw [hd] at ht
    simp only at ht ⊢
    by_cases c1 : c = '#'
    · rw [if_pos c1, c1]; exact Or.inr ⟨q, rfl⟩
    · rw [if_neg c1] at ht
      exfalso
      split_ifs at ht

theorem getNextToken_eol_fixed (st : List Char)
    (h : (getNextToken st).1.type = TokenType.EOL) :
    getNextToken (getNextToken st).2 = (⟨none, TokenType.EOL⟩, (getNextToken st).2) := by
  rcases getNextToken_eol_state st h with h1 | ⟨q, h1⟩
  · rw [h1]; rfl
  · rw [h1]; rfl

theorem takeWhile_length_le (p : Char → Bool) (l : List Char) :
    (l.takeWhile p).length ≤ l.length := by
  induction l with
  | nil => simp
  | cons a l ih =>
    rw [List.takeWhile_cons]
    split_ifs
    · simp only [List.length_cons]; omega
    · simp

theorem stateAfter_eol (st : List Char)
    (h : getNextToken st = (⟨none, TokenType.EOL⟩, st)) :
    ∀ m, stateAfter m st = st := by
  intro m
  induction m with
  | zero => rfl
  | succ m ih => rw [stateAfter, h]; exact ih

theorem stateAfter_add (k m : Nat) : ∀ st, stateAfter (k + m) st = stateAfter m (stateAfter k st) := by
  induction k with
  | zero => intro st; rw [Nat.zero_add]; rfl
  | succ k ih =>
    intro st
    rw [Nat.succ_add, stateAfter, ih]
    rfl

theorem reaches_end (n : Nat) :
    ∀ st : List Char, st.length ≤ n →
      ∃ k, k ≤ st.length ∧ ((nthResult k st).type = TokenType.EOL ∨
        (nthResult k st).type = TokenType.ERROR) := by
  induction n with
  | zero =>
    intro st h
    have : st = [] := List.length_eq_zero.mp (Nat.le_zero.mp h)
    subst this
    exact ⟨0, Nat.le_refl _, Or.inl rfl⟩
  | succ n ih =>
    intro st h
    by_cases h1 : (getNextToken st).1.type = TokenType.EOL
    · exact ⟨0, Nat.zero_le _, Or.inl h1⟩
    · have hlt := getNextToken_consumes st h1
      obtain ⟨k, hk, hres⟩ := ih (getNextToken st).2 (by omega)
      exact ⟨k + 1, by omega, hres⟩

/-- C37: for every line of `n` characters, one of the first `n + 1` calls of
`getNextToken` after `startToken` returns `EOL` or `ERROR`; every call that
returns another token leaves strictly fewer characters to read; and once a
call has returned `EOL` every later call returns `EOL`. A line ending in a
comment is an instance: the calls after `ls # x` return `ls`, `EOL`, `EOL`. -/
theorem tokenizing_terminates (line : String) :
    (∃ k, k < line.length + 1 ∧
      ((nthResult k (startToken line)).type = TokenType.EOL ∨
       (nthResult k (startToken line)).type = TokenType.ERROR)) ∧
    (∀ st, (getNextToken st).1.type ≠ TokenType.EOL →
      (getNextToken st).2.length < st.length) ∧
    (∀ st k, (nthResult k st).type = TokenType.EOL →
      ∀ m, k ≤ m → (nthResult m st).type = TokenType.EOL) ∧
    [nthResult 0 (startToken "ls # x"), nthResult 1 (startToken "ls # x"),
      nthResult 2 (startToken "ls # x")]
      = [⟨some "ls", TokenType.BASIC⟩, ⟨none, TokenType.EOL⟩, ⟨none, TokenType.EOL⟩] := by
  refine ⟨?_, getNextToken_consumes, ?_, by decide⟩
  · have hlen : (startToken line).length ≤ line.length := by
      unfold startToken
      exact takeWhile_length_le _ _
    obtain ⟨k, hk, hres⟩ := reaches_end _ (startToken line) (Nat.le_refl _)
    exact ⟨k, by omega, hres⟩
  · intro st k h m hkm
    obtain ⟨d, rfl⟩ := Nat.exists_eq_add_of_le hkm
    have hfix := getNextToken_eol_fixed (stateAfter k st) h
    cases d with
    | zero => exact h
    | succ d =>
      unfold nthResult
      rw [stateAfter_add k (d + 1), stateAfter, stateAfter_eol _ hfix d, hfix]

end ProgramTechShell

namespace TechShell

/-! ## Single-quoted tokens -/

/-- C31: for every store and every text, the expansion of a single-quoted
token is the raw token text. With `a` set to `1`, the single-quoted `$a$`
stays `$a$` while the word `$a$` becomes `1`, and the line
`echo '$a$' "$a$"` hands the arguments `$a$` and `1`. -/
theorem single_quoted_token_is_raw (vars : VarSet) (text : String) :
    expandToken vars ⟨text, TokenType.SINGLE_QUOTE⟩ = text ∧
    expandToken [("a", "1")] ⟨"$a$", TokenType.SINGLE_QUOTE⟩ = "$a$" ∧
    expandToken [("a", "1")] ⟨"$a$", TokenType.BASIC⟩ = "1" ∧
    (processLine { sampleShell with varList := [("a", "1")] }
        [word "echo", ⟨"$a$", TokenType.SINGLE_QUOTE⟩, ⟨"$a$", TokenType.DOUBLE_QUOTE⟩,
          op TokenType.EOL]).handed.map (fun h => h.1.args)
      = [[("$a$", TokenType.SINGLE_QUOTE), ("1", TokenType.DOUBLE_QUOTE)]] := by
  refine ⟨?_, by decide, by decide, by decide⟩
  unfold expandToken
  rw [if_pos rfl]

/-! ## One substitution pass against its description -/

theorem take_take_append (n : Nat) (x y : List Char) :
    ((x.take n) ++ y).take n = (x ++ y).take n := by
  by_cases h : x.length ≤ n
  · rw [List.take_of_length_le h]
  · have h2 : n ≤ x.length := by omega
    have h3 : (x.take n).length = n := by rw [List.length_take]; omega
    rw [List.take_append_of_le_length (by omega), List.take_append_of_le_length h2,
      List.take_take, min_self]

theorem copyBounded_eq (r v : List Char) (h : r.length ≤ MAX_LINE_LENGTH) :
    copyBounded r v = (r ++ v).take MAX_LINE_LENGTH := by
  unfold copyBounded
  rw [List.take_append_eq_append_take, List.take_of_length_le h]

theorem renderSegments_open (vars : VarSet) (s : List Char) (rest : List (List Char)) :
    renderSegments vars ([] :: s :: rest) = renderOpen vars [] (s :: rest) := by
  cases rest with
  | nil => rfl
  | cons x xs => simp [renderSegments, renderOpen]

theorem renderSegments_char (vars : VarSet) (c : Char) (s : List Char)
    (rest : List (List Char)) :
    renderSegments vars ((c :: s) :: rest) = c :: renderSegments vars (s :: rest) := by
  cases rest with
  | nil => rfl
  | cons x xs =>
    cases xs with
    | nil => rfl
    | cons y ys => simp [renderSegments]

theorem renderOpen_close (vars : VarSet) (name s : List Char) (rest : List (List Char)) :
    renderOpen vars name ([] :: s :: rest)
      = valueOf vars name ++ renderSegments vars (s :: rest) := by
  simp [renderOpen]

theorem renderOpen_char (vars : VarSet) (name : List Char) (c : Char) (s : List Char)
    (rest : List (List Char)) :
    renderOpen vars name ((c :: s) :: rest) = renderOpen vars (name ++ [c]) (s :: rest) := by
  cases rest with
  | nil => rfl
  | cons x xs => simp [renderOpen]

theorem length_take_cap (x : List Char) : (x.take MAX_LINE_LENGTH).length ≤ MAX_LINE_LENGTH := by
  rw [List.length_take]; exact Nat.min_le_left _ _

/-- The character loop of `preprocess` against the segments of the text still
to read: from outside a name, and from inside a name. -/
theorem fold_render (vars : VarSet) (cs : List Char) :
    (∀ (r : List Char) (f : Bool), r.length ≤ MAX_LINE_LENGTH →
      (cs.foldl (preprocessStep vars) ⟨r, none, f⟩).response
        = (r ++ renderSegments vars (cs.splitOnP (fun x => x == '$'))).take MAX_LINE_LENGTH ∧
      (cs.foldl (preprocessStep vars) ⟨r, none, f⟩).changeFlag
        = (f || decide ('$' ∈ cs))) ∧
    (∀ (r name : List Char), r.length ≤ MAX_LINE_LENGTH →
      (cs.foldl (preprocessStep vars) ⟨r, some name, true⟩).response
        = (r ++ renderOpen vars name (cs.splitOnP (fun x => x == '$'))).take MAX_LINE_LENGTH ∧
      (cs.foldl (preprocessStep vars) ⟨r, some name, true⟩).changeFlag = true) := by
  induction cs with
  | nil =>
    constructor
    · intro r f h
      simp [List.splitOnP_nil, renderSegments, List.take_of_length_le h]
    · intro r name h
      simp [List.splitOnP_nil, renderOpen, List.take_of_length_le h]
  | cons c cs ih =>
    obtain ⟨ihA, ihB⟩ := ih
    obtain ⟨s, rest, hS⟩ := List.exists_cons_of_ne_nil (List.splitOnP_ne_nil (fun x => x == '$') cs)
    by_cases hc : c = '$'
    · have hsplit : (c :: cs).splitOnP (fun x => x == '$') = [] :: s :: rest := by
        rw [List.splitOnP_cons, ← hS]; simp [hc]
      constructor
      · intro r f h
        have hstep : preprocessStep vars ⟨r, none, f⟩ c = ⟨r, some [], true⟩ := by
          unfold preprocessStep; rw [if_pos hc]
        rw [List.foldl_cons, hstep, hsplit, renderSegments_open, ← hS]
        obtain ⟨b1, b2⟩ := ihB r [] h
        exact ⟨b1, by rw [b2]; simp [hc]⟩
      · intro r name h
        have hstep : preprocessStep vars ⟨r, some name, true⟩ c
            = ⟨(r ++ valueOf vars name).take MAX_LINE_LENGTH, none, true⟩ := by
          unfold preprocessStep valueOf
          rw [if_pos hc]
          simp only
          cases findInSet vars (String.mk name) with
          | none =>
            simp only
            rw [List.append_nil, List.take_of_length_le h]
          | some m =>
            simp only
            rw [copyBounded_eq r _ h]
        rw [List.foldl_cons, hstep, hsplit, renderOpen_close, ← hS]
        obtain ⟨a1, a2⟩ := ihA ((r ++ valueOf vars name).take MAX_LINE_LENGTH) true
          (length_take_cap _)
        refine ⟨?_, by rw [a2]; rfl⟩
        rw [a1, take_take_append, List.append_assoc]
    · have hsplit : (c :: cs).splitOnP (fun x => x == '$') = (c :: s) :: rest := by
        rw [List.splitOnP_cons, hS]; simp [hc, List.modifyHead]
      have hmem : decide ('$' ∈ c :: cs) = decide ('$' ∈ cs) := by
        have : ('$' ∈ c :: cs) ↔ ('$' ∈ cs) := by
          simp [List.mem_cons, Ne.symm hc]
        exact decide_eq_decide.mpr this
      constructor
      · intro r f h
        rw [List.foldl_cons, hsplit, renderSegments_char, ← hS, hmem]
        by_cases hlt : r.length < MAX_LINE_LENGTH
        · have hstep : preprocessStep vars ⟨r, none, f⟩ c = ⟨r ++ [c], none, f⟩ := by
            unfold preprocessStep; rw [if_neg hc]; simp only [if_pos hlt]
          rw [hstep]
          obtain ⟨a1, a2⟩ := ihA (r ++ [c]) f (by
            rw [List.length_append, List.length_singleton]; omega)
          refine ⟨?_, a2⟩
          rw [a1, List.append_assoc, List.singleton_append]
        · have hstep : preprocessStep vars ⟨r, none, f⟩ c = ⟨r, none, f⟩ := by
            unfold preprocessStep; rw [if_neg hc]; simp only [if_neg hlt]
          rw [hstep]
          obtain ⟨a1, a2⟩ := ihA r f h
          refine ⟨?_, a2⟩
          have hfull : r.length = MAX_LINE_LENGTH := by omega
          rw [a1, List.take_append_of_le_length (by omega),
            List.take_append_of_le_length (by omega)]
      · intro r name h
        have hstep : preprocessStep vars ⟨r, some name, true⟩ c
            = ⟨r, some (name ++ [c]), true⟩ := by
          unfold preprocessStep; rw [if_neg hc]
        rw [List.foldl_cons, hstep, hsplit, renderOpen_char, ← hS]
        exact ihB r (name ++ [c]) h

/-- One pass of `preprocess` is the pass of the description cut to 500
characters. -/
theorem preprocess_eq_reference_take (vars : VarSet) (t : String) :
    preprocess vars t
      = (String.mk ((preprocessReference vars t).1.data.take MAX_LINE_LENGTH),
          (preprocessReference vars t).2) := by
  obtain ⟨h1, h2⟩ := (fold_render vars t.data).1 [] false (Nat.zero_le _)
  unfold preprocess preprocessReference
  simp only [h1, h2, List.nil_append, Bool.false_or]
  rfl

/-- C34: for every store and every token whose pass, as the description words
it, gives at most 500 characters, `preprocess` (the same text in both
variants) returns exactly that: the token is cut at its `$` characters, the
1st, 3rd, ... segments are copied, each 2nd, 4th, ... segment closed by a `$`
is replaced by the value stored for it (nothing when absent), a last segment
left open is dropped; the change flag is set exactly when the token holds a
`$`; and a pass that reports no change returns the token itself. -/
theorem preprocess_refines_reference (vars : VarSet) (t : String)
    (hfit : (preprocessReference vars t).1.length ≤ MAX_LINE_LENGTH) :
    preprocess vars t = preprocessReference vars t ∧
    ((preprocess vars t).2 = true ↔ '$' ∈ t.data) ∧
    ((preprocess vars t).2 = false → (preprocess vars t).1 = t) := by
  have hfit2 : (preprocessReference vars t).1.data.length ≤ MAX_LINE_LENGTH := hfit
  have hmain : preprocess vars t = preprocessReference vars t := by
    rw [preprocess_eq_reference_take, List.take_of_length_le hfit2]
  refine ⟨hmain, ?_, ?_⟩
  · rw [hmain]; simp [preprocessReference]
  · intro hno
    rw [hmain] at hno ⊢
    have hnot : '$' ∉ t.data := by simpa [preprocessReference] using hno
    have hsingle : t.data.splitOn '$' = [t.data] :=
      List.splitOnP_eq_single _ _ (fun x hx => by
        simp only [beq_iff_eq]
        intro e; exact hnot (e ▸ hx))
    simp only [preprocessReference, hsingle, renderSegments]

/-- The theorem `preprocess_refines_reference` at the token `x$a$y$b` with `a`
set to `1`: the pass gives `x1y` and reports a change. -/
theorem preprocess_refines_reference_witness :
    (preprocessReference [("a", "1")] "x$a$y$b").1.length ≤ MAX_LINE_LENGTH ∧
    preprocessReference [("a", "1")] "x$a$y$b" = ("x1y", true) ∧
    preprocess [("a", "1")] "x$a$y$b" = preprocessReference [("a", "1")] "x$a$y$b" :=
  ⟨by decide, by decide,
    (preprocess_refines_reference [("a", "1")] "x$a$y$b" (by decide)).1⟩

/-! ## The bound on the result of a pass -/

theorem preprocessStep_bound (vars : VarSet) (st : PreState) (c : Char)
    (h : st.response.length ≤ MAX_LINE_LENGTH) :
    (preprocessStep vars st c).response.length ≤ MAX_LINE_LENGTH := by
  unfold preprocessStep
  by_cases h1 : c = '$'
  · rw [if_pos h1]
    cases st.start with
    | none => exact h
    | some name =>
      simp only
      cases findInSet vars (String.mk name) with
      | none => exact h
      | some m =>
        show (copyBounded st.response m.2.data).length ≤ MAX_LINE_LENGTH
        rw [copyBounded_eq _ _ h]
        exact length_take_cap _
  · rw [if_neg h1]
    cases st.start with
    | none =>
      simp only
      by_cases h2 : st.response.length < MAX_LINE_LENGTH
      · rw [if_pos h2]
        simp only [List.length_append, List.length_singleton]
        omega
      · rw [if_neg h2]; exact h
    | some name => exact h

theorem foldl_bound (vars : VarSet) (cs : List Char) :
    ∀ st : PreState, st.response.length ≤ MAX_LINE_LENGTH →
      (cs.foldl (preprocessStep vars) st).response.length ≤ MAX_LINE_LENGTH := by
  induction cs with
  | nil => intro st h; exact h
  | cons c cs ih =>
    intro st h
    exact ih _ (preprocessStep_bound vars st c h)

/-- C35: for every store and every token, whatever their lengths, the text
returned by `preprocess` has at most `MAX_LINE_LENGTH` = 500 characters, and
so has the text written so far after every character of the token: each
character is written at an index below 500 and the terminator at an index of
at most 500, inside the buffer of 501 places. -/
theorem preprocess_result_bounded (vars : VarSet) (t : String) :
    MAX_LINE_LENGTH = 500 ∧
    (preprocess vars t).1.length ≤ MAX_LINE_LENGTH ∧
    (∀ k, ((t.data.take k).foldl (preprocessStep vars) ⟨[], none, false⟩).response.length
      ≤ MAX_LINE_LENGTH) ∧
    (∀ (st : PreState) (c : Char), st.response.length ≤ MAX_LINE_LENGTH →
      (preprocessStep vars st c).response.length ≤ MAX_LINE_LENGTH) := by
  refine ⟨rfl, ?_, ?_, preprocessStep_bound vars⟩
  · exact foldl_bound vars t.data _ (Nat.zero_le _)
  · intro k
    exact foldl_bound vars _ _ (Nat.zero_le _)

/-! ## Uniqueness of names and the frame of `addToSet` -/

theorem addToSet_nodup (st : VarSet) (n v : String) (h : (st.map (fun e => e.1)).Nodup) :
    ((addToSet st n v).map (fun e => e.1)).Nodup := by
  rw [addToSet_names]
  by_cases hm : n ∈ st.map (fun e => e.1)
  · rw [if_pos hm]; exact h
  · rw [if_neg hm]; exact List.nodup_cons.mpr ⟨hm, h⟩

theorem setAll_fold_nodup (ops : List (String × String)) :
    ∀ st : VarSet, (st.map (fun e => e.1)).Nodup →
      ((ops.foldl (fun st p => addToSet st p.1 p.2) st).map (fun e => e.1)).Nodup := by
  induction ops with
  | nil => intro st h; exact h
  | cons p ops ih =>
    intro st h
    rw [List.foldl_cons]
    exact ih _ (addToSet_nodup st p.1 p.2 h)

/-- C38: every store built from `createVarSet` by a sequence of `addToSet`
calls holds each name once (`addToSet` keeps names unique in any store that
has them unique), and `addToSet` of a name that is present leaves the list of
names, hence the number of entries and their order, as it was. The calls
`a = 1`, `b = 2`, `a = 3` give the store `b = 2`, `a = 3`. -/
theorem store_names_unique (ops : List (String × String)) :
    ((setAll ops).map (fun e => e.1)).Nodup ∧
    (∀ (st : VarSet) (n v : String), (st.map (fun e => e.1)).Nodup →
      ((addToSet st n v).map (fun e => e.1)).Nodup) ∧
    (∀ (st : VarSet) (n v : String), findInSet st n ≠ none →
      (addToSet st n v).map (fun e => e.1) = st.map (fun e => e.1) ∧
      (addToSet st n v).length = st.length) ∧
    setAll [("a", "1"), ("b", "2"), ("a", "3")] = [("b", "2"), ("a", "3")] := by
  refine ⟨setAll_fold_nodup ops createVarSet List.nodup_nil, addToSet_nodup, ?_, by decide⟩
  intro st n v hpresent
  have hm : n ∈ st.map (fun e => e.1) := by
    by_contra hcon
    exact hpresent ((findInSet_eq_none_iff st n).mpr hcon)
  have hnames : (addToSet st n v).map (fun e => e.1) = st.map (fun e => e.1) := by
    rw [addToSet_names, if_pos hm]
  refine ⟨hnames, ?_⟩
  have hl := congrArg List.length hnames
  simpa using hl

theorem findInSet_replaceLocated_other (st : VarSet) (n m v : String) (hne : m ≠ n) :
    findInSet (replaceLocated st n v) m = findInSet st m := by
  induction st with
  | nil => rfl
  | cons e st ih =>
    simp only [findInSet] at ih
    by_cases he : e.1 = n
    · have hem : ¬ e.1 = m := fun h => hne (h.symm.trans he)
      simp [replaceLocated, findInSet, List.find?_cons, he, hem, Ne.symm hne]
    · by_cases hem : e.1 = m
      · have he2 : ¬ m = n := hne
        simp [replaceLocated, findInSet, List.find?_cons, hem, he2]
      · simp [replaceLocated, findInSet, List.find?_cons, he, hem, ih]

/-- C39: for every store, every value `v` and all names `n` and `m` that
differ (as `strcmp` compares them, so also when they differ in letter case
only), looking up `m` gives the same entry before and after
`addToSet(n, v)`. -/
theorem addToSet_changes_one_name (st : VarSet) (n m v : String) (hne : m ≠ n) :
    findInSet (addToSet st n v) m = findInSet st m := by
  unfold addToSet
  cases findInSet st n with
  | none =>
    simp only
    have : ¬ n = m := fun h => hne h.symm
    simp [findInSet, List.find?_cons, this]
  | some e => exact findInSet_replaceLocated_other st n m v hne

/-- The theorem `addToSet_changes_one_name` at the store `A = 1`, `a = 2` and
the call `addToSet(a, 3)`: the lookup of `A` still finds `1`. -/
theorem addToSet_changes_one_name_witness :
    "A" ≠ "a" ∧
    findInSet (addToSet [("A", "1"), ("a", "2")] "a" "3") "A" = some ("A", "1") :=
  ⟨by decide,
    (addToSet_changes_one_name [("A", "1"), ("a", "2")] "a" "A" "3" (by decide)).trans
      (by decide)⟩

end TechShell

namespace ProgramTechShell

open TechShell (Outcome WEXITSTATUS)

/-! ## The reaping loop -/

theorem getD_set_int (l : List Int) (i j : Nat) (a d : Int) :
    (l.set i a).getD j d = if i = j ∧ i < l.length then a else l.getD j d := by
  simp only [List.getD_eq_getElem?_getD, List.getElem?_set]
  by_cases hij : i = j
  · subst hij
    by_cases hl : i < l.length
    · simp [hl]
    · have hnone : l[i]? = none := List.getElem?_eq_none (by omega)
      simp [hl, hnone]
  · simp [hij]

theorem findPid_spec (L : List Int) (k : Nat) (pid : Int)
    (h : ∃ i, i < k ∧ L.getD i 0 = pid) :
    findPid L k pid < k ∧ L.getD (findPid L k pid) 0 = pid := by
  unfold findPid
  cases hf : (List.range k).find? (fun i => L.getD i 0 == pid) with
  | none =>
    obtain ⟨i, hi, hp⟩ := h
    have := List.find?_eq_none.mp hf i (List.mem_range.mpr hi)
    exact absurd (by simpa using hp) (by simpa using this)
  | some i0 =>
    have h1 := List.find?_some hf
    have h2 := List.mem_range.mp (List.mem_of_find?_eq_some hf)
    simp only [Option.getD_some]
    exact ⟨h2, by simpa using h1⟩

theorem reapLoop_succ (n : Nat) (s : Shell) (w : Int × Int) (rest : List (Int × Int))
    (hw : s.waits = w :: rest)
    (hi : findPid s.pidList s.procCount w.1 < s.procCount) :
    reapLoop (n + 1) s
      = reapLoop n { s with
          waits := rest, status := some w.2, waited := s.waited ++ [w.1]
          pidList := s.pidList.set (findPid s.pidList s.procCount w.1) (-1)
          exitStatus := if findPid s.pidList s.procCount w.1 + 1 = s.procCount
                        then some w.2 else s.exitStatus } := by
  rw [reapLoop]
  simp only [hw, List.tail_cons]
  rw [if_pos hi]

theorem reapLoop_marks (ws : List (Int × Int)) :
    ∀ (s : Shell) (more : List (Int × Int)),
      s.waits = ws ++ more →
      s.procCount ≤ s.pidList.length →
      (ws.map Prod.fst).Nodup →
      (∀ p ∈ ws.map Prod.fst, p ≠ -1 ∧ ∃ i, i < s.procCount ∧ s.pidList.getD i 0 = p) →
      (∀ i j, i < s.procCount → j < s.procCount →
        s.pidList.getD i 0 = s.pidList.getD j 0 → s.pidList.getD i 0 ≠ -1 → i = j) →
      (reapLoop ws.length s).outcome = s.outcome ∧
      (reapLoop ws.length s).waited = s.waited ++ ws.map Prod.fst ∧
      (reapLoop ws.length s).waits = more ∧
      (∀ i, i < s.procCount →
        (s.pidList.getD i 0 = -1 ∨ s.pidList.getD i 0 ∈ ws.map Prod.fst) →
        (reapLoop ws.length s).pidList.getD i 0 = -1) ∧
      (∀ i, s.procCount ≤ i →
        (reapLoop ws.length s).pidList.getD i 0 = s.pidList.getD i 0) ∧
      (∀ st, (s.pidList.getD (s.procCount - 1) 0, st) ∈ ws →
        (reapLoop ws.length s).exitStatus = some st) ∧
      (s.pidList.getD (s.procCount - 1) 0 ∉ ws.map Prod.fst →
        (reapLoop ws.length s).exitStatus = s.exitStatus) := by
  induction ws with
  | nil =>
    intro s more hw _ _ _ _
    refine ⟨rfl, by simp [reapLoop], by simpa [reapLoop] using hw, ?_, fun _ _ => rfl, ?_,
      fun _ => rfl⟩
    · intro i _ h
      rcases h with h | h
      · exact h
      · simp at h
    · intro st h; simp at h
  | cons w ws ih =>
    intro s more hw hlen hnd hrec hdist
    have hw2 : s.waits = w :: (ws ++ more) := hw
    obtain ⟨hwne, hwex⟩ := hrec w.1 (by simp)
    obtain ⟨hi0, hp0⟩ := findPid_spec s.pidList s.procCount w.1 hwex
    have hnd2 : w.1 ∉ ws.map Prod.fst ∧ (ws.map Prod.fst).Nodup := by
      simpa [List.nodup_cons] using hnd
    have hL : ∀ j, (s.pidList.set (findPid s.pidList s.procCount w.1) (-1)).getD j 0
        = if findPid s.pidList s.procCount w.1 = j then -1 else s.pidList.getD j 0 := by
      intro j
      rw [getD_set_int]
      by_cases hj : findPid s.pidList s.procCount w.1 = j
      · rw [if_pos ⟨hj, by omega⟩, if_pos hj]
      · rw [if_neg (fun h => hj h.1), if_neg hj]
    have huniq : ∀ j, j < s.procCount → s.pidList.getD j 0 = w.1 →
        findPid s.pidList s.procCount w.1 = j := by
      intro j hj hjp
      exact hdist _ _ hi0 hj (by rw [hp0, hjp]) (by rw [hp0]; exact hwne)
    rw [List.length_cons, reapLoop_succ ws.length s w (ws ++ more) hw2 hi0]
    obtain ⟨r1, r2, r3, r4, r5, r6, r7⟩ := ih
      { s with
        waits := ws ++ more, status := some w.2, waited := s.waited ++ [w.1]
        pidList := s.pidList.set (findPid s.pidList s.procCount w.1) (-1)
        exitStatus := if findPid s.pidList s.procCount w.1 + 1 = s.procCount
                      then some w.2 else s.exitStatus }
      more rfl (by simpa using hlen) hnd2.2
      (by
        intro p hp
        obtain ⟨hpne, i, hi, hip⟩ := hrec p (by simp [List.mem_cons]; right; simpa using hp)
        refine ⟨hpne, i, hi, ?_⟩
        show (s.pidList.set (findPid s.pidList s.procCount w.1) (-1)).getD i 0 = p
        rw [hL]
        have hne : findPid s.pidList s.procCount w.1 ≠ i := by
          intro h
          rw [← h, hp0] at hip
          exact hnd2.1 (hip ▸ hp)
        rw [if_neg hne, hip])
      (by
        intro i j hi hj hij hne1
        have hij2 : (s.pidList.set (findPid s.pidList s.procCount w.1) (-1)).getD i 0
            = (s.pidList.set (findPid s.pidList s.procCount w.1) (-1)).getD j 0 := hij
        have hne2 : (s.pidList.set (findPid s.pidList s.procCount w.1) (-1)).getD i 0 ≠ -1 :=
          hne1
        rw [hL] at hne2
        rw [hL, hL] at hij2
        by_cases h1 : findPid s.pidList s.procCount w.1 = i
        · rw [if_pos h1] at hne2; exact absurd rfl hne2
        · rw [if_neg h1] at hne2 hij2
          by_cases h2 : findPid s.pidList s.procCount w.1 = j
          · rw [if_pos h2] at hij2; exact absurd hij2 hne2
          · rw [if_neg h2] at hij2
            exact hdist i j hi hj hij2 hne2)
    refine ⟨r1, ?_, r3, ?_, ?_, ?_, ?_⟩
    · rw [r2]; simp
    · intro i hi h
      apply r4 i hi
      show (s.pidList.set (findPid s.pidList s.procCount w.1) (-1)).getD i 0 = -1 ∨
        (s.pidList.set (findPid s.pidList s.procCount w.1) (-1)).getD i 0 ∈ ws.map Prod.fst
      rw [hL]
      by_cases h1 : findPid s.pidList s.procCount w.1 = i
      · rw [if_pos h1]; exact Or.inl rfl
      · rw [if_neg h1]
        rcases h with h | h
        · exact Or.inl h
        · rcases List.mem_cons.mp h with h | h
          · exact absurd (huniq i hi h) h1
          · exact Or.inr h
    · intro i hi
      rw [r5 i hi]
      show (s.pidList.set (findPid s.pidList s.procCount w.1) (-1)).getD i 0 = _
      rw [hL, if_neg (by omega)]
    · intro st hst
      rcases List.mem_cons.mp hst with h | h
      · have hlast : s.pidList.getD (s.procCount - 1) 0 = w.1 := by rw [← h]
        have hidx := huniq (s.procCount - 1) (by omega) hlast
        have hst2 : st = w.2 := by rw [← h]
        rw [r7 (by
          show (s.pidList.set (findPid s.pidList s.procCount w.1) (-1)).getD
            (s.procCount - 1) 0 ∉ ws.map Prod.fst
          rw [hL, if_pos hidx]
          intro hmem
          exact (hrec (-1) (List.mem_cons_of_mem _ hmem)).1 rfl)]
        show (if findPid s.pidList s.procCount w.1 + 1 = s.procCount
          then some w.2 else s.exitStatus) = some st
        rw [if_pos (by omega), hst2]
      · have hmem : s.pidList.getD (s.procCount - 1) 0 ∈ ws.map Prod.fst :=
          List.mem_map.mpr ⟨_, h, rfl⟩
        have hne : findPid s.pidList s.procCount w.1 ≠ s.procCount - 1 := by
          intro hcon
          rw [← hcon, hp0] at hmem
          exact hnd2.1 hmem
        apply r6 st
        show ((s.pidList.set (findPid s.pidList s.procCount w.1) (-1)).getD
          (s.procCount - 1) 0, st) ∈ ws
        rw [hL, if_neg hne]
        exact h
    · intro hnot
      have hne : findPid s.pidList s.procCount w.1 ≠ s.procCount - 1 := by
        intro hcon
        apply hnot
        rw [← hcon, hp0]
        simp
      rw [r7 (by
        show (s.pidList.set (findPid s.pidList s.procCount w.1) (-1)).getD
          (s.procCount - 1) 0 ∉ ws.map Prod.fst
        rw [hL, if_neg hne]
        intro hmem
        exact hnot (List.mem_cons_of_mem _ hmem))]
      show (if findPid s.pidList s.procCount w.1 + 1 = s.procCount
        then some w.2 else s.exitStatus) = s.exitStatus
      rw [if_neg (by omega)]

theorem getD_take_int (L : List Int) (k i : Nat) (hi : i < k) (hk : k ≤ L.length) :
    ∃ h : i < (L.take k).length, (L.take k)[i] = L.getD i 0 := by
  have hlen : (L.take k).length = k := by rw [List.length_take]; omega
  refine ⟨by omega, ?_⟩
  have hiL : i < L.length := by omega
  rw [List.getElem_take, List.getD_eq_getElem?_getD, List.getElem?_eq_getElem hiL]
  rfl

/-- C40: in `processStatement`, when the launching left `k` recorded process
ids in a `pidList` of at least `k` places, every one of them the positive
result of a successful `fork`, all distinct, and `wait` returns these `k` ids
in any order `ws` (each with its status word), the reaping loop makes exactly
`k` waits, ends with every recorded id marked off, never fails its assertion,
and records as `exitStatus` the status word that `wait` returned for the last
forked child, wherever in `ws` that child comes; `processStatement` then
returns. -/
theorem reaping_loop_waits_for_all (s s1 : Shell) (stmt : List Command)
    (ws more : List (Int × Int))
    (hs1 : launchAll { s with procCount := 0, status := none, exitStatus := none,
                              outcome := Outcome.running } stmt = s1)
    (hrun : s1.outcome = Outcome.running)
    (hwaits : s1.waits = ws ++ more)
    (hsize : s1.procCount ≤ s1.pidList.length)
    (hforked : ∀ i, i < s1.procCount → 0 < s1.pidList.getD i 0)
    (hdistinct : (s1.pidList.take s1.procCount).Nodup)
    (horder : (ws.map Prod.fst).Perm (s1.pidList.take s1.procCount)) :
    ws.length = s1.procCount ∧
    (reapLoop s1.procCount s1).outcome = Outcome.running ∧
    (reapLoop s1.procCount s1).waited = s1.waited ++ ws.map Prod.fst ∧
    (reapLoop s1.procCount s1).waits = more ∧
    (∀ i, i < s1.procCount → (reapLoop s1.procCount s1).pidList.getD i 0 = -1) ∧
    (∀ st, (s1.pidList.getD (s1.procCount - 1) 0, st) ∈ ws →
      (reapLoop s1.procCount s1).exitStatus = some st) ∧
    (processStatement s stmt).outcome = Outcome.returned ∧
    (processStatement s stmt).waited = s1.waited ++ ws.map Prod.fst ∧
    (∀ st, (s1.pidList.getD (s1.procCount - 1) 0, st) ∈ ws →
      (processStatement s stmt).exitStatus = some st) := by
  have htl : (s1.pidList.take s1.procCount).length = s1.procCount := by
    rw [List.length_take]; omega
  have hlen : ws.length = s1.procCount := by
    have := horder.length_eq
    rw [List.length_map, htl] at this
    exact this
  have hnd : (ws.map Prod.fst).Nodup := horder.nodup_iff.mpr hdistinct
  have hrec : ∀ p ∈ ws.map Prod.fst,
      p ≠ -1 ∧ ∃ i, i < s1.procCount ∧ s1.pidList.getD i 0 = p := by
    intro p hp
    have hp2 : p ∈ s1.pidList.take s1.procCount := horder.mem_iff.mp hp
    obtain ⟨i, hi, hip⟩ := List.mem_iff_getElem.mp hp2
    have hik : i < s1.procCount := by omega
    obtain ⟨_, hget⟩ := getD_take_int s1.pidList s1.procCount i hik hsize
    have hval : s1.pidList.getD i 0 = p := by rw [← hget]; exact hip
    refine ⟨?_, i, hik, hval⟩
    have := hforked i hik
    rw [hval] at this
    omega
  have hdist : ∀ i j, i < s1.procCount → j < s1.procCount →
      s1.pidList.getD i 0 = s1.pidList.getD j 0 → s1.pidList.getD i 0 ≠ -1 → i = j := by
    intro i j hi hj hij _
    obtain ⟨h1, g1⟩ := getD_take_int s1.pidList s1.procCount i hi hsize
    obtain ⟨h2, g2⟩ := getD_take_int s1.pidList s1.procCount j hj hsize
    exact (List.Nodup.getElem_inj_iff hdistinct).mp (by rw [g1, g2]; exact hij)
  obtain ⟨r1, r2, r3, r4, _, r6, _⟩ :=
    reapLoop_marks ws s1 more hwaits hsize hnd hrec hdist
  rw [hlen] at r1 r2 r3 r4 r6
  have hmark : ∀ i, i < s1.procCount → (reapLoop s1.procCount s1).pidList.getD i 0 = -1 := by
    intro i hi
    apply r4 i hi
    right
    obtain ⟨h1, g1⟩ := getD_take_int s1.pidList s1.procCount i hi hsize
    rw [← g1]
    exact horder.mem_iff.mpr (List.getElem_mem _)
  have hout : (reapLoop s1.procCount s1).outcome = Outcome.running := by rw [r1, hrun]
  have hps : processStatement s stmt
      = { (if (reapLoop s1.procCount s1).exitStatusFlag ≠ 0 then
            { reapLoop s1.procCount s1 with
              diag := (reapLoop s1.procCount s1).diag
                ++ [Diag.doneExit ((reapLoop s1.procCount s1).exitStatus.map WEXITSTATUS)] }
          else reapLoop s1.procCount s1) with outcome := Outcome.returned } := by
    unfold processStatement
    simp only [hs1, hrun, hout, if_true]
  refine ⟨hlen, hout, r2, r3, hmark, r6, ?_, ?_, ?_⟩
  · rw [hps]
  · rw [hps]
    simp only
    split_ifs
    · exact r2
    · exact r2
  · intro st hst
    rw [hps]
    simp only
    split_ifs
    · exact r6 st hst
    · exact r6 st hst

/-- The theorem `reaping_loop_waits_for_all` at the statement `ls | wc` with
children 100 and 101, where the last forked child 101 (status word 256)
terminates first. -/
theorem reaping_loop_waits_for_all_witness :
    (processStatement (sampleShell 1 [(101, 256), (100, 0)])
        [{ newCommand "ls" with output := OutputKind.PIPE_OUT },
         { newCommand "wc" with input := InputKind.PIPE_IN }]).outcome = Outcome.returned ∧
    (processStatement (sampleShell 1 [(101, 256), (100, 0)])
        [{ newCommand "ls" with output := OutputKind.PIPE_OUT },
         { newCommand "wc" with input := InputKind.PIPE_IN }]).waited = [101, 100] ∧
    (processStatement (sampleShell 1 [(101, 256), (100, 0)])
        [{ newCommand "ls" with output := OutputKind.PIPE_OUT },
         { newCommand "wc" with input := InputKind.PIPE_IN }]).exitStatus = some 256 :=
  have h := reaping_loop_waits_for_all (sampleShell 1 [(101, 256), (100, 0)])
    (launchAll { sampleShell 1 [(101, 256), (100, 0)] with
        procCount := 0, status := none, exitStatus := none, outcome := Outcome.running }
      [{ newCommand "ls" with output := OutputKind.PIPE_OUT },
       { newCommand "wc" with input := InputKind.PIPE_IN }])
    [{ newCommand "ls" with output := OutputKind.PIPE_OUT },
     { newCommand "wc" with input := InputKind.PIPE_IN }]
    [(101, 256), (100, 0)] [] rfl (by decide) (by decide) (by decide) (by decide) (by decide)
    (by decide)
  ⟨h.2.2.2.2.2.2.1, h.2.2.2.2.2.2.2.1, h.2.2.2.2.2.2.2.2 256 (by decide)⟩

end ProgramTechShell

/-! # Theorems on the Commands of a pipeline, the argument vector, builtin dispatch and start-up -/

namespace TechShell

open ProgramTechShell (Slot argListToArray copyArgs_replicate countArgs_eq)

/-! ## The store and the directories along a pipeline -/

theorem findDir_vars (s : Shell) : (findDir s).varList = s.varList := by
  unfold findDir; (repeat' split) <;> rfl

theorem processCD_vars (s : Shell) (cmd : Command) : (processCD s cmd).varList = s.varList := by
  unfold processCD
  cases cmd.args with
  | nil =>
    simp only
    cases s.chdirTo s.cwd _ with
    | none => rw [findDir_vars]; rfl
    | some d => rw [findDir_vars]
  | cons a l =>
    simp only
    cases s.chdirTo s.cwd _ with
    | none => rw [findDir_vars]; rfl
    | some d => rw [findDir_vars]

theorem builtinRedirect_vars (s : Shell) (cmd : Command) :
    (builtinRedirect s cmd).1.varList = s.varList := by
  unfold builtinRedirect shClose shPipe
  split_ifs <;> rfl

theorem builtinRestore_vars (s : Shell) (cmd : Command) (si so : Option Nat) :
    (builtinRestore s cmd si so).varList = s.varList := by
  unfold builtinRestore shClose
  split_ifs <;> rfl

theorem builtinFn_vars (i : Nat) (s : Shell) (cmd : Command) :
    (builtinFn i s cmd).varList
      = if i = 0 then
          (match cmd.args with
            | [] => s.varList
            | [a] => addToSet s.varList a.1 ""
            | a :: b :: _ => addToSet s.varList a.1 b.1)
        else s.varList := by
  unfold builtinFn
  split
  · rw [if_pos rfl]; unfold processSet; (repeat' split) <;> simp_all
  · rfl
  · rfl
  · rw [if_neg (by decide)]; unfold processStatus; (repeat' split) <;> rfl
  · rw [if_neg (by decide)]; exact processCD_vars s cmd
  · rename_i h0 h1 h2 h3 h4
    rw [if_neg (fun h => h0 h)]
    unfold processPWD; (repeat' split) <;> rfl

theorem processBuiltin_vars (s : Shell) (cmd : Command) :
    (processBuiltin s cmd).1.varList = storeAfter s.varList cmd := by
  unfold processBuiltin storeAfter
  cases hb : builtinIndex cmd.command with
  | none => simp
  | some i =>
    have hv := builtinFn_vars i (builtinRedirect s cmd).1 cmd
    rw [builtinRedirect_vars] at hv
    have hcond : (some i = some 0) ↔ i = 0 := by
      constructor
      · intro h; exact Option.some.inj h
      · intro h; rw [h]
    simp only
    split_ifs with h1 h2 h2
    · rw [builtinRestore_vars, hv, if_pos (hcond.mp h2)]
    · rw [builtinRestore_vars, hv, if_neg (fun h => h2 (hcond.mpr h))]
    · rw [hv, if_pos (hcond.mp h2)]
    · rw [hv, if_neg (fun h => h2 (hcond.mpr h))]

/-- The store after `processCommand` is the one `storeAfter` describes. -/
theorem processCommand_store (s : Shell) (cmd : Command) :
    (processCommand s cmd).1.varList = storeAfter s.varList cmd := by
  have hb := processBuiltin_vars { s with handed := s.handed ++ [(cmd, s.varList)] } cmd
  unfold processCommand
  simp only
  by_cases h1 : (processBuiltin { s with handed := s.handed ++ [(cmd, s.varList)] } cmd).2 ≠ 0
  · rw [if_pos h1]
    split_ifs
    · rw [findDir_vars]; exact hb
    · exact hb
  · rw [if_neg h1]
    have hnone : builtinIndex cmd.command = none := by
      cases hi : builtinIndex cmd.command with
      | none => rfl
      | some i =>
        exfalso
        apply h1
        simp only [processBuiltin, hi]
        split_ifs <;> simp
    have hst : storeAfter s.varList cmd = s.varList := by
      unfold storeAfter
      rw [hnone]
      simp
    rw [hst]
    cases buildArgs cmd with
    | none => rfl
    | some args =>
      simp only
      rw [findDir_vars]
      split_ifs <;> rfl

theorem processCD_dirs (s : Shell) (cmd : Command) :
    (processCD s cmd).chdirTo = s.chdirTo ∧
    ((processCD s cmd).cwd = s.cwd ∨ ∃ d a, s.chdirTo d a = some (processCD s cmd).cwd) := by
  unfold processCD
  cases cmd.args with
  | nil =>
    simp only
    cases hd : s.chdirTo s.cwd _ with
    | none =>
      simp only
      rw [(findDir_dirs _).1, (findDir_dirs _).2]
      exact ⟨rfl, Or.inl rfl⟩
    | some d =>
      simp only
      rw [(findDir_dirs _).1, (findDir_dirs _).2]
      exact ⟨rfl, Or.inr ⟨_, _, hd⟩⟩
  | cons a l =>
    simp only
    cases hd : s.chdirTo s.cwd _ with
    | none =>
      simp only
      rw [(findDir_dirs _).1, (findDir_dirs _).2]
      exact ⟨rfl, Or.inl rfl⟩
    | some d =>
      simp only
      rw [(findDir_dirs _).1, (findDir_dirs _).2]
      exact ⟨rfl, Or.inr ⟨_, _, hd⟩⟩

theorem builtinFn_dirs (i : Nat) (s : Shell) (cmd : Command) :
    (builtinFn i s cmd).chdirTo = s.chdirTo ∧
    ((builtinFn i s cmd).cwd = s.cwd ∨ ∃ d a, s.chdirTo d a = some (builtinFn i s cmd).cwd) := by
  unfold builtinFn
  split
  · unfold processSet; (repeat' split) <;> exact ⟨rfl, Or.inl rfl⟩
  · exact ⟨rfl, Or.inl rfl⟩
  · exact ⟨rfl, Or.inl rfl⟩
  · unfold processStatus; (repeat' split) <;> exact ⟨rfl, Or.inl rfl⟩
  · exact processCD_dirs s cmd
  · unfold processPWD; (repeat' split) <;> exact ⟨rfl, Or.inl rfl⟩

theorem DirsWithin_of_dirs (n : Nat) (s t : Shell) (h : DirsWithin n s)
    (hc : t.chdirTo = s.chdirTo)
    (hw : t.cwd = s.cwd ∨ ∃ d a, s.chdirTo d a = some t.cwd) : DirsWithin n t := by
  unfold DirsWithin
  rw [hc]
  refine ⟨?_, h.2⟩
  rcases hw with hw | ⟨d, a, hw⟩
  · rw [hw]; exact h.1
  · exact h.2 d a _ hw

theorem processBuiltin_within (n : Nat) (s : Shell) (cmd : Command) (h : DirsWithin n s) :
    DirsWithin n (processBuiltin s cmd).1 := by
  unfold processBuiltin
  cases builtinIndex cmd.command with
  | none => exact h
  | some i =>
    have h1 : DirsWithin n (builtinRedirect s cmd).1 :=
      DirsWithin_of_dirs n s _ h (builtinRedirect_dirs s cmd).2
        (Or.inl (builtinRedirect_dirs s cmd).1)
    have h2 : DirsWithin n (builtinFn i (builtinRedirect s cmd).1 cmd) :=
      DirsWithin_of_dirs n _ _ h1 (builtinFn_dirs i _ cmd).1 (builtinFn_dirs i _ cmd).2
    simp only
    split_ifs
    · exact DirsWithin_of_dirs n _ _ h2 (builtinRestore_dirs _ cmd _ _).2
        (Or.inl (builtinRestore_dirs _ cmd _ _).1)
    · exact h2

theorem processCommand_within (n : Nat) (s : Shell) (cmd : Command) (h : DirsWithin n s) :
    DirsWithin n (processCommand s cmd).1 := by
  have hb := processBuiltin_within n { s with handed := s.handed ++ [(cmd, s.varList)] } cmd h
  unfold processCommand
  simp only
  by_cases h1 : (processBuiltin { s with handed := s.handed ++ [(cmd, s.varList)] } cmd).2 ≠ 0
  · rw [if_pos h1]
    split_ifs
    · exact DirsWithin_of_dirs n _ _ hb (findDir_dirs _).2 (Or.inl (findDir_dirs _).1)
    · exact hb
  · rw [if_neg h1]
    cases buildArgs cmd with
    | none => exact h
    | some args =>
      simp only
      have keep : ∀ t : Shell, t.cwd = s.cwd → t.chdirTo = s.chdirTo →
          DirsWithin n (findDir t) := fun t hc hd =>
        DirsWithin_of_dirs n s _ h (by rw [(findDir_dirs t).2, hd])
          (Or.inl (by rw [(findDir_dirs t).1, hc]))
      apply keep <;> split_ifs <;> rfl

theorem stringCopy_fits (s : Shell) (home : String) (hh : s.home = some home)
    (hfit : s.cwd.length ≤ dirBound s) :
    (stringCopy s.cwd.data home.length).length < 998 := by
  have hl : s.cwd.length = s.cwd.data.length := rfl
  unfold stringCopy
  rw [List.length_take, List.length_drop]
  unfold dirBound at hfit
  by_cases he : home = ""
  · rw [hh, he, if_pos rfl] at hfit
    omega
  · have hne : ¬ s.home = some "" := by
      rw [hh]; intro h; exact he (Option.some.inj h)
    rw [if_neg hne] at hfit
    have hpos : 0 < home.length := by
      rcases Nat.eq_zero_or_pos home.length with hz | hp
      · exact absurd (String.ext (List.length_eq_zero.mp hz)) he
      · exact hp
    omega

theorem processPWD_outcome_fit (s : Shell) (cmd : Command) (hh : s.home ≠ none)
    (hfit : s.cwd.length ≤ dirBound s) : (processPWD s cmd).outcome = s.outcome := by
  obtain ⟨home, hhome⟩ := Option.ne_none_iff_exists'.mp hh
  have hcopy := stringCopy_fits s home hhome hfit
  unfold processPWD
  simp only [hhome, hcopy, if_true]
  (repeat' split) <;> rfl

theorem builtinFn_outcome_fit (i : Nat) (s : Shell) (cmd : Command) (hi : i ≠ 2)
    (hh : s.home ≠ none) (hfit : s.cwd.length ≤ dirBound s) :
    (builtinFn i s cmd).outcome = s.outcome := by
  unfold builtinFn
  split
  · unfold processSet; (repeat' split) <;> rfl
  · rfl
  · exact absurd rfl hi
  · unfold processStatus; (repeat' split) <;> rfl
  · exact processCD_outcome s cmd hh
  · exact processPWD_outcome_fit s cmd hh hfit

theorem processBuiltin_running_fit (s : Shell) (cmd : Command)
    (hx : strcasecmpEq cmd.command "EXIT" = false)
    (hrun : s.outcome = Outcome.running) (hhome : s.home ≠ none)
    (hfit : s.cwd.length ≤ dirBound s) :
    (processBuiltin s cmd).1.outcome = Outcome.running := by
  cases hi : builtinIndex cmd.command with
  | none => simp only [processBuiltin, hi]; exact hrun
  | some i =>
    have hi2 := builtinIndex_ne_exit _ _ hi hx
    obtain ⟨rh, ro⟩ := builtinRedirect_home s cmd
    have hb : dirBound (builtinRedirect s cmd).1 = dirBound s := by
      unfold dirBound; rw [rh]
    have hout : (builtinFn i (builtinRedirect s cmd).1 cmd).outcome = Outcome.running := by
      rw [builtinFn_outcome_fit i _ cmd hi2 (by rw [rh]; exact hhome)
        (by rw [(builtinRedirect_dirs s cmd).1, hb]; exact hfit), ro, hrun]
    simp only [processBuiltin, hi, hout, if_true, builtinRestore_outcome]

theorem processCommand_running_fit (s : Shell) (cmd : Command)
    (hx : strcasecmpEq cmd.command "EXIT" = false) (hargs : cmd.args.length < 999)
    (hrun : s.outcome = Outcome.running) (hhome : s.home ≠ none)
    (hfit : s.cwd.length ≤ dirBound s) :
    (processCommand s cmd).1.outcome = Outcome.running := by
  have hb := processBuiltin_running_fit { s with handed := s.handed ++ [(cmd, s.varList)] } cmd
    hx hrun hhome hfit
  obtain ⟨_, _, b3⟩ := processBuiltin_keep
    { s with handed := s.handed ++ [(cmd, s.varList)] } cmd
  unfold processCommand
  simp only
  by_cases h1 : (processBuiltin { s with handed := s.handed ++ [(cmd, s.varList)] } cmd).2 ≠ 0
  · rw [if_pos h1, if_pos hb, findDir_outcome _ (by rw [b3]; exact hhome)]; exact hb
  · rw [if_neg h1, buildArgs_eq cmd hargs]
    simp only
    have keep : ∀ t : Shell, t.home = s.home → t.outcome = s.outcome →
        (findDir t).outcome = Outcome.running := fun t ht ho => by
      rw [findDir_outcome t (by rw [ht]; exact hhome), ho, hrun]
    apply keep <;> split_ifs <;> rfl

theorem run_pipeline (term : aToken)
    (hterm : term.type = TokenType.EOL ∨ term.type = TokenType.SEMICOLON) :
    ∀ (cs : List (List aToken)), cs ≠ [] →
    ∀ (sh : Shell) (m : Mode) (ptr : CmdPtr) (first : Bool),
      ((first = true ∧ m = Mode.CMD ∧ ptr = CmdPtr.null) ∨
        (first = false ∧ m = Mode.PIPED_CMD)) →
      sh.ioFlag = 0 → sh.home ≠ none → DirsFit sh → sh.outcome = Outcome.running →
      (∀ c ∈ cs, c ≠ [] ∧ (∀ t ∈ c, isWord t = true) ∧ c.length ≤ 999) →
      (∀ i, i < cs.length - 1 →
        strcasecmpEq (expandToken ((storesAlong sh.varList cs first).getD i [])
          (firstWord (cs.getD i []))) "EXIT" = false) →
      (runTokens ⟨sh, m, ptr, false⟩ (pipelineTokens cs ++ [term])).sh.handed
        = sh.handed ++ expectedHanded (storesAlong sh.varList cs first) cs first := by
  intro cs
  induction cs with
  | nil => intro h; exact absurd rfl h
  | cons c cs ih =>
    intro _ sh m ptr first hstart hio hhome hfit hrun hcs hexit
    obtain ⟨hc1, hc2, hc3⟩ := hcs c (List.mem_cons_self _ _)
    cases cs with
    | nil =>
      show (runTokens ⟨sh, m, ptr, false⟩ (c ++ [term])).sh.handed = _
      rw [run_command sh hio hrun m ptr first hstart c hc1 hc2, run_terminator sh _ term hterm]
      rfl
    | cons c2 cs2 =>
      have hx : strcasecmpEq (expandToken sh.varList (firstWord c)) "EXIT" = false :=
        hexit 0 (by simp)
      have hcmd : ({ expectedCommand sh.varList c first true with
            output := OutputKind.PIPE_OUT } : Command)
          = expectedCommand sh.varList c first false := rfl
      have hargs : (expectedCommand sh.varList c first false).args.length < 999 := by
        cases c with
        | nil => exact absurd rfl hc1
        | cons w ws => simp [expectedCommand] at hc3 ⊢; omega
      have hrun1 := processCommand_running_fit sh (expectedCommand sh.varList c first false)
        hx hargs hrun hhome hfit.1
      obtain ⟨k1, k2, k3⟩ := processCommand_keep sh (expectedCommand sh.varList c first false)
      have hstore := processCommand_store sh (expectedCommand sh.varList c first false)
      have hbound : dirBound (processCommand sh (expectedCommand sh.varList c first false)).1
          = dirBound sh := by
        unfold dirBound; rw [k3]
      have hfit1 : DirsFit (processCommand sh (expectedCommand sh.varList c first false)).1 := by
        unfold DirsFit
        rw [hbound]
        exact processCommand_within _ sh _ hfit
      have hstores : storesAlong sh.varList (c :: c2 :: cs2) first
          = sh.varList :: storesAlong
              (processCommand sh (expectedCommand sh.varList c first false)).1.varList
              (c2 :: cs2) false := by
        rw [hstore]; rfl
      have h3 := ih (by simp)
        (processCommand sh (expectedCommand sh.varList c first false)).1
        Mode.PIPED_CMD CmdPtr.freed false (Or.inr ⟨rfl, rfl⟩)
        (by rw [k2]; exact hio) (by rw [k3]; exact hhome) hfit1 hrun1
        (fun c' hc' => hcs c' (List.mem_cons_of_mem _ hc'))
        (fun i hi => by
          have := hexit (i + 1) (by simp only [List.length_cons] at hi ⊢; omega)
          rw [hstores] at this
          exact this)
      show (runTokens ⟨sh, m, ptr, false⟩
        ((c ++ op TokenType.PIPE :: pipelineTokens (c2 :: cs2)) ++ [term])).sh.handed = _
      rw [List.append_assoc, List.cons_append,
        run_command sh hio hrun m ptr first hstart c hc1 hc2,
        run_pipe sh _ _ (by rw [hcmd]; exact hrun1), hcmd, h3, k1, hstores]
      simp [expectedHanded]

theorem storesAlong_length (cs : List (List aToken)) :
    ∀ (vars : VarSet) (first : Bool), (storesAlong vars cs first).length = cs.length := by
  induction cs with
  | nil => intro vars first; rfl
  | cons c cs ih => intro vars first; simp [storesAlong, ih]

/-- C1 (as amended): for a statement `c1 | ... | cn` (n ≥ 1, each `ci` a
non-empty list of at most 999 word tokens) ended by end-of-line or `;`, run
with no redirect pending (`ioFlag = 0`), `HOME` set, the working directory
and every directory `chdir` can lead to named in at most 999 characters (at
most 998 when `HOME` is empty), and none of `c1 .. c(n-1)` having a first word
that expands to the name EXIT under the store in effect when that Command is
handed over, `processLine` hands exactly the `n` Commands the specification
describes, in order: name and arguments are the expansions of the words under
the store in effect when the Command is handed over (the store the line
started with for `c1`, and after each Command the store as `SET` left it),
input is `STDIN` for the first and `PIPE_IN` for the others, output is `STDOUT`
for the last and `PIPE_OUT` for the others. -/
theorem pipeline_hands_commands (s : Shell) (cs : List (List aToken)) (term : aToken)
    (hio : s.ioFlag = 0) (hhome : s.home ≠ none) (hfit : DirsFit s) (hne : cs ≠ [])
    (hcs : ∀ c ∈ cs, c ≠ [] ∧ (∀ t ∈ c, isWord t = true) ∧ c.length ≤ 999)
    (hexit : ∀ i, i < cs.length - 1 →
      strcasecmpEq (expandToken ((storesAlong s.varList cs true).getD i [])
        (firstWord (cs.getD i []))) "EXIT" = false)
    (hterm : term.type = TokenType.EOL ∨ term.type = TokenType.SEMICOLON) :
    (processLine s (pipelineTokens cs ++ [term])).handed
      = s.handed ++ expectedHanded (storesAlong s.varList cs true) cs true ∧
    (storesAlong s.varList cs true).length = cs.length ∧
    (storesAlong s.varList cs true).head? = some s.varList ∧
    (processLine s (pipelineTokens cs ++ [term])).handed.length = s.handed.length + cs.length := by
  have hmain : (processLine s (pipelineTokens cs ++ [term])).handed
      = s.handed ++ expectedHanded (storesAlong s.varList cs true) cs true := by
    rw [processLine_handed]
    exact run_pipeline term hterm cs hne { s with outcome := Outcome.running } Mode.CMD
      CmdPtr.null true (Or.inl ⟨rfl, rfl, rfl⟩) hio hhome hfit rfl hcs hexit
  have hlen : ∀ (cs : List (List aToken)) (vs : List VarSet) (first : Bool),
      vs.length = cs.length → (expectedHanded vs cs first).length = cs.length := by
    intro cs
    induction cs with
    | nil => intro vs first h; cases vs <;> rfl
    | cons c cs ih =>
      intro vs first h
      cases vs with
      | nil => simp at h
      | cons v vs =>
        simp only [expectedHanded, List.length_cons]
        rw [ih vs false (by simpa using h)]
  refine ⟨hmain, storesAlong_length cs _ _, ?_, ?_⟩
  · cases cs with
    | nil => exact absurd rfl hne
    | cons c cs => rfl
  · rw [hmain, List.length_append, hlen cs _ true (storesAlong_length cs _ _)]

theorem sampleStoreShell_fits : DirsFit sampleStoreShell := by
  refine ⟨by decide, ?_⟩
  intro d a r h
  have h2 : (if a.length < 999 then some a else none) = some r := h
  have hb : dirBound sampleStoreShell = 999 := by decide
  rw [hb]
  by_cases hl : a.length < 999
  · rw [if_pos hl] at h2
    rw [← Option.some.inj h2]
    omega
  · rw [if_neg hl] at h2
    cases h2

/-- The theorem `pipeline_hands_commands` at the line `$c$ | wc` with `c` set
to `ls`: the Commands `ls` and `wc` are handed over. -/
theorem pipeline_hands_commands_witness :
    (sampleStoreShell.ioFlag = 0 ∧ sampleStoreShell.home ≠ none ∧ DirsFit sampleStoreShell ∧
      sampleVarPipeline ≠ [] ∧
      (∀ c ∈ sampleVarPipeline, c ≠ [] ∧ (∀ t ∈ c, isWord t = true) ∧ c.length ≤ 999) ∧
      (∀ i, i < sampleVarPipeline.length - 1 →
        strcasecmpEq (expandToken ((storesAlong sampleStoreShell.varList
            sampleVarPipeline true).getD i [])
          (firstWord (sampleVarPipeline.getD i []))) "EXIT" = false)) ∧
    (processLine sampleStoreShell (pipelineTokens sampleVarPipeline ++ [op TokenType.EOL])).handed
      = sampleStoreShell.handed
          ++ expectedHanded (storesAlong sampleStoreShell.varList sampleVarPipeline true)
              sampleVarPipeline true ∧
    (expectedHanded (storesAlong sampleStoreShell.varList sampleVarPipeline true)
        sampleVarPipeline true).map (fun e => e.1.command) = ["ls", "wc"] :=
  ⟨⟨by decide, by decide, sampleStoreShell_fits, by decide, by decide, by decide⟩,
    (pipeline_hands_commands sampleStoreShell sampleVarPipeline (op TokenType.EOL)
      (by decide) (by decide) sampleStoreShell_fits (by decide) (by decide) (by decide)
      (Or.inl rfl)).1,
    by decide⟩

/-- C1 (counterexamples to the claim as stated): in `exit | ls` the shell ends
inside the first Command and hands one Command, not two; after the line
`ls > "abc` (an unterminated quote), which leaves a redirect pending, the line
`echo hi` hands the single Command `hi`; and with `HOME` empty in a working
directory of 999 characters `PWD | ls` hands one Command, `PWD` reading past
its buffer, also when the shell is started by `main` on that line. -/
theorem pipeline_not_always_handed :
    (processLine sampleShell
        (pipelineTokens [[word "exit"], [word "ls"]] ++ [op TokenType.EOL])).handed.length = 1 ∧
    (processLine sampleShell
        (pipelineTokens [[word "exit"], [word "ls"]] ++ [op TokenType.EOL])).outcome
      = Outcome.exited 0 ∧
    (processLine sampleShell
        [word "ls", op TokenType.OUTPUT, ⟨"abc", TokenType.ERROR⟩]).ioFlag = 1 ∧
    (processLine (processLine sampleShell
        [word "ls", op TokenType.OUTPUT, ⟨"abc", TokenType.ERROR⟩])
        (pipelineTokens [[word "echo", word "hi"]] ++ [op TokenType.EOL])).handed.map
          (fun e => (e.1.command, e.1.args))
      = [("hi", [])] ∧
    sampleLongShell.cwd.length = 999 ∧ dirBound sampleLongShell = 998 ∧
    (processLine sampleLongShell
        (pipelineTokens [[word "PWD"], [word "ls"]] ++ [op TokenType.EOL])).handed.length = 1 ∧
    (processLine sampleLongShell
        (pipelineTokens [[word "PWD"], [word "ls"]] ++ [op TokenType.EOL])).outcome
      = Outcome.memoryFault ∧
    (main sampleLongShell
        [pipelineTokens [[word "PWD"], [word "ls"]] ++ [op TokenType.EOL]]).handed.length = 1 := by
  decide

/-! ## The argument vector that reaches `execvp` -/

theorem argListToArray_eq (name : String) (l : List String) :
    argListToArray name l = some (Slot.str name :: l.map Slot.str ++ [Slot.null]) := by
  have h0 : writeAt (List.replicate (l.length + 2) Slot.uninit) 0 (Slot.str name)
      = some ([Slot.str name] ++ List.replicate (l.length + 1) Slot.uninit) := by
    have := writeAt_mid ([] : List Slot) (List.replicate (l.length + 1) Slot.uninit)
      Slot.uninit (Slot.str name)
    simpa [List.replicate_succ] using this
  have h1 := copyArgs_replicate l [Slot.str name] (l.length + 1) (by omega)
  have h3 := writeAt_mid ([Slot.str name] ++ l.map Slot.str) [] Slot.uninit Slot.null
  simp only [List.length_append, List.length_singleton, List.length_map] at h1 h3
  simp only [argListToArray, countArgs_eq]
  rw [show 1 + l.length + 1 = l.length + 2 by omega, h0]
  simp only [h1]
  rw [show l.length + 1 - l.length = 1 by omega]
  simpa using h3

theorem findDir_children (t : Shell) : (findDir t).children = t.children := by
  unfold findDir; (repeat' split) <;> rfl

theorem childSetup_reaches (s : Shell) (cmd : Command) (ip : Nat)
    (h1 : cmd.input ≠ InputKind.IFILE) (h2 : s.inputFlag ≠ 1) :
    (childSetup s cmd ip).2 = true := by
  unfold childSetup
  simp [h1, h2]

/-- What the child forked for an external Command passes to `execvp`. -/
theorem forkChild_exec (S : Shell) (cmd : Command) (ip : Nat) (A : List (Option String)) :
    ∃ child, (forkChild S cmd ip A).1.children = S.children ++ [child] ∧
      child.cmd = cmd ∧
      child.execArgs = (if (childSetup S cmd ip).2 then some A else none) ∧
      (child.execArgs ≠ none →
        child.exitCode = (S.run cmd.command (argvOf A)).getD 1) := by
  refine ⟨_, rfl, rfl, rfl, ?_⟩
  intro hne
  by_cases hc : (childSetup S cmd ip).2 = true
  · simp only [hc, if_true]
    cases S.run cmd.command (argvOf A) <;> rfl
  · simp [hc] at hne

theorem processCommand_exec (s : Shell) (cmd : Command) (h : cmd.args.length < 999)
    (hb : builtinIndex cmd.command = none) :
    ∃ child, (processCommand s cmd).1.children = s.children ++ [child] ∧
      child.cmd = cmd ∧
      (child.execArgs = none ∨
        child.execArgs = some (some cmd.command :: cmd.args.map (fun a => some a.1)
          ++ none :: List.replicate (998 - cmd.args.length) none)) ∧
      (cmd.input ≠ InputKind.IFILE → s.inputFlag ≠ 1 → child.execArgs ≠ none) ∧
      (child.execArgs ≠ none →
        child.exitCode
          = (s.run cmd.command (cmd.command :: cmd.args.map (fun a => a.1))).getD 1) := by
  have hargv : argvOf (some cmd.command :: cmd.args.map (fun a => some a.1)
      ++ none :: List.replicate (998 - cmd.args.length) none)
      = cmd.command :: cmd.args.map (fun a => a.1) := by
    have := argvOf_prefix (cmd.command :: cmd.args.map (fun a => a.1))
      (List.replicate (998 - cmd.args.length) none)
    simpa [List.map_map, Function.comp] using this
  have key : ∀ S : Shell, S.children = s.children → S.run = s.run →
      S.inputFlag = s.inputFlag → ∀ ip,
      ∃ child, (forkChild S cmd ip (some cmd.command :: cmd.args.map (fun a => some a.1)
          ++ none :: List.replicate (998 - cmd.args.length) none)).1.children
          = s.children ++ [child] ∧
        child.cmd = cmd ∧
        (child.execArgs = none ∨
          child.execArgs = some (some cmd.command :: cmd.args.map (fun a => some a.1)
            ++ none :: List.replicate (998 - cmd.args.length) none)) ∧
        (cmd.input ≠ InputKind.IFILE → s.inputFlag ≠ 1 → child.execArgs ≠ none) ∧
        (child.execArgs ≠ none →
          child.exitCode
            = (s.run cmd.command (cmd.command :: cmd.args.map (fun a => a.1))).getD 1) := by
    intro S hch hr hi ip
    obtain ⟨child, c1, c2, c3, c4⟩ := forkChild_exec S cmd ip
      (some cmd.command :: cmd.args.map (fun a => some a.1)
        ++ none :: List.replicate (998 - cmd.args.length) none)
    refine ⟨child, by rw [c1, hch], c2, ?_, ?_, ?_⟩
    · rw [c3]; split_ifs
      · exact Or.inr rfl
      · exact Or.inl rfl
    · intro h1 h2
      rw [c3, childSetup_reaches S cmd ip h1 (by rw [hi]; exact h2)]
      simp
    · intro hne
      rw [c4 hne, hr, hargv]
  have hpb : processBuiltin { s with handed := s.handed ++ [(cmd, s.varList)] } cmd
      = ({ s with handed := s.handed ++ [(cmd, s.varList)] }, 0) := by
    have hb2 : builtinIndex cmd.command = none := hb
    simp only [processBuiltin, hb2]
  unfold processCommand
  simp only [hpb, buildArgs_eq cmd h, ne_eq, not_true_eq_false, if_false, findDir_children]
  by_cases hp : cmd.output = OutputKind.PIPE_OUT ∨ cmd.output = OutputKind.OFILE
  · obtain ⟨child, k1, k2⟩ := key (shPipe { s with handed := s.handed ++ [(cmd, s.varList)] })
      rfl rfl rfl s.comm0
    refine ⟨child, ?_, k2⟩
    rw [← k1, if_pos hp]
    split_ifs <;> rfl
  · obtain ⟨child, k1, k2⟩ := key { s with handed := s.handed ++ [(cmd, s.varList)] }
      rfl rfl rfl s.comm0
    refine ⟨child, ?_, k2⟩
    rw [← k1, if_neg hp]
    split_ifs <;> rfl

/-- C2: for a Command with name `c` and fewer than 999 arguments, the array
built by the top-level `processCommand` is `c`, the arguments in order, then
`NULL` (the rest of the 1000 zeroed slots), so `execvp` reads exactly
`c, a1, ..., an` from it, and `argListToArray` returns exactly `c`, the
arguments in order and the final `NULL`. These arrays are what reaches
`execvp`: the child that `processCommand` forks for a Command that is no
builtin either exits before `execvp` (its input file cannot be opened) or
passes that array, the program being run on `c, a1, ..., an`; without a
redirect of input it always reaches `execvp`. In the statement-based variant
the child forked by `processCommand` for a Command that is no builtin calls
`execvp` with the name and the array of `argListToArray`. -/
theorem argv_is_name_then_args (cmd : Command) (h : cmd.args.length < 999) :
    buildArgs cmd
      = some (some cmd.command :: cmd.args.map (fun a => some a.1)
          ++ none :: List.replicate (998 - cmd.args.length) none) ∧
    (∀ arr, buildArgs cmd = some arr → argvOf arr = cmd.command :: cmd.args.map (fun a => a.1)) ∧
    argListToArray cmd.command (cmd.args.map (fun a => a.1))
      = some (Slot.str cmd.command :: (cmd.args.map (fun a => a.1)).map Slot.str
          ++ [Slot.null]) ∧
    (∀ s : Shell, builtinIndex cmd.command = none →
      ∃ child, (processCommand s cmd).1.children = s.children ++ [child] ∧
        child.cmd = cmd ∧
        (child.execArgs = none ∨ child.execArgs = buildArgs cmd) ∧
        (cmd.input ≠ InputKind.IFILE → s.inputFlag ≠ 1 → child.execArgs = buildArgs cmd) ∧
        (child.execArgs ≠ none →
          child.exitCode
            = (s.run cmd.command (cmd.command :: cmd.args.map (fun a => a.1))).getD 1)) ∧
    (∀ (t : ProgramTechShell.Shell) (c : ProgramTechShell.Command),
      ProgramTechShell.builtinIndex c.command = none →
      t.procCount < ProgramTechShell.MAX_PROCS → 0 < t.forkResult t.forkCalls →
      (ProgramTechShell.processCommand t c).execs
        = t.execs ++ [(c.command, argListToArray c.command c.args)] ∧
      argListToArray c.command c.args
        = some (Slot.str c.command :: c.args.map Slot.str ++ [Slot.null])) := by
  refine ⟨buildArgs_eq cmd h, ?_, argListToArray_eq _ _, ?_, ?_⟩
  · intro arr harr
    rw [buildArgs_eq cmd h] at harr
    cases harr
    have := argvOf_prefix (cmd.command :: cmd.args.map (fun a => a.1))
      (List.replicate (998 - cmd.args.length) none)
    simpa [List.map_map, Function.comp] using this
  · intro s hb
    obtain ⟨child, c1, c2, c3, c4, c5⟩ := processCommand_exec s cmd h hb
    rw [buildArgs_eq cmd h]
    refine ⟨child, c1, c2, c3, ?_, c5⟩
    intro h1 h2
    rcases c3 with c3 | c3
    · exact absurd c3 (c4 h1 h2)
    · exact c3
  · intro t c hb hproc hfork
    refine ⟨?_, argListToArray_eq _ _⟩
    have hnot : ¬ t.procCount ≥ ProgramTechShell.MAX_PROCS := by omega
    simp only [ProgramTechShell.processCommand, ProgramTechShell.processBuiltin, hb,
      ProgramTechShell.executeCommand, hnot, hfork, ne_eq, not_true_eq_false, if_false, if_true]

/-- The theorem `argv_is_name_then_args` at the Command `ls -l`: the array
built, and the `execvp` calls of the children in both variants. -/
theorem argv_is_name_then_args_witness :
    sampleCommand.args.length < 999 ∧
    buildArgs sampleCommand
      = some (some sampleCommand.command :: sampleCommand.args.map (fun a => some a.1)
          ++ none :: List.replicate (998 - sampleCommand.args.length) none) ∧
    (processCommand sampleShell sampleCommand).1.children.map
        (fun c => c.execArgs.map argvOf) = [some ["ls", "-l"]] ∧
    (ProgramTechShell.processCommand (ProgramTechShell.sampleShell 0 [])
        { ProgramTechShell.newCommand "ls" with args := ["-l"] }).execs
      = (ProgramTechShell.sampleShell 0 []).execs
          ++ [("ls", argListToArray "ls" ["-l"])] ∧
    argListToArray "ls" ["-l"] = some [Slot.str "ls", Slot.str "-l", Slot.null] :=
  ⟨by decide, (argv_is_name_then_args sampleCommand (by decide)).1, by decide,
    ((argv_is_name_then_args sampleCommand (by decide)).2.2.2.2
      (ProgramTechShell.sampleShell 0 [])
      { ProgramTechShell.newCommand "ls" with args := ["-l"] }
      (by decide) (by decide) (by decide)).1,
    by decide⟩

/-! ## Builtin lookup, handler by handler -/

theorem processBuiltin_at (s : Shell) (cmd : Command) (i : Nat)
    (hi : i < builtinNames.length) (hi2 : i ≠ 2)
    (hm : strcasecmpEq cmd.command (builtinNames.getD i "") = true)
    (hrun : s.outcome = Outcome.running) (hhome : s.home ≠ none)
    (hfit : s.cwd.length ≤ dirBound s) :
    processBuiltin s cmd
      = (builtinRestore (builtinFn i (builtinRedirect s cmd).1 cmd) cmd
          (builtinRedirect s cmd).2.1 (builtinRedirect s cmd).2.2, 1) ∧
    (processBuiltin s cmd).1.outcome = Outcome.running := by
  obtain ⟨rh, ro⟩ := builtinRedirect_home s cmd
  have hb : dirBound (builtinRedirect s cmd).1 = dirBound s := by
    unfold dirBound; rw [rh]
  have hout : (builtinFn i (builtinRedirect s cmd).1 cmd).outcome = Outcome.running := by
    rw [builtinFn_outcome_fit i _ cmd hi2 (by rw [rh]; exact hhome)
      (by rw [(builtinRedirect_dirs s cmd).1, hb]; exact hfit), ro, hrun]
  have hpb : processBuiltin s cmd
      = (builtinRestore (builtinFn i (builtinRedirect s cmd).1 cmd) cmd
          (builtinRedirect s cmd).2.1 (builtinRedirect s cmd).2.2, 1) := by
    simp only [processBuiltin, builtinIndex_of_match cmd.command i hi hm, hout, if_true]
  refine ⟨hpb, ?_⟩
  rw [hpb]
  simp only [builtinRestore_outcome, hout]

/-- C18 (as amended): in a running shell with `HOME` set and the working
directory named in at most 999 characters (at most 998 when `HOME` is empty),
`processBuiltin` returns 1 after
running exactly the handler of the matching table entry (between the
redirection and the restoring of the descriptors) when the command name equals
one of SET, LIST, STATUS, CD, PWD with letter case ignored, and only then does
it return 1; for a name that equals EXIT it runs `processExit`, which ends the
process with code 0, so `processBuiltin` does not return; for every other name
it returns 0 and leaves the state untouched. -/
theorem processBuiltin_by_name (s : Shell) (cmd : Command)
    (hrun : s.outcome = Outcome.running) (hhome : s.home ≠ none)
    (hfit : s.cwd.length ≤ dirBound s) :
    (strcasecmpEq cmd.command "SET" = true →
      processBuiltin s cmd
        = (builtinRestore (processSet (builtinRedirect s cmd).1 cmd) cmd
            (builtinRedirect s cmd).2.1 (builtinRedirect s cmd).2.2, 1)) ∧
    (strcasecmpEq cmd.command "LIST" = true →
      processBuiltin s cmd
        = (builtinRestore (processList (builtinRedirect s cmd).1 cmd) cmd
            (builtinRedirect s cmd).2.1 (builtinRedirect s cmd).2.2, 1)) ∧
    (strcasecmpEq cmd.command "STATUS" = true →
      processBuiltin s cmd
        = (builtinRestore (processStatus (builtinRedirect s cmd).1 cmd) cmd
            (builtinRedirect s cmd).2.1 (builtinRedirect s cmd).2.2, 1)) ∧
    (strcasecmpEq cmd.command "CD" = true →
      processBuiltin s cmd
        = (builtinRestore (processCD (builtinRedirect s cmd).1 cmd) cmd
            (builtinRedirect s cmd).2.1 (builtinRedirect s cmd).2.2, 1)) ∧
    (strcasecmpEq cmd.command "PWD" = true →
      processBuiltin s cmd
        = (builtinRestore (processPWD (builtinRedirect s cmd).1 cmd) cmd
            (builtinRedirect s cmd).2.1 (builtinRedirect s cmd).2.2, 1)) ∧
    (((processBuiltin s cmd).1.outcome = Outcome.running ∧ (processBuiltin s cmd).2 = 1) ↔
      ∃ n ∈ ["SET", "LIST", "STATUS", "CD", "PWD"], strcasecmpEq cmd.command n = true) ∧
    (strcasecmpEq cmd.command "EXIT" = true →
      (processBuiltin s cmd).1 = processExit (builtinRedirect s cmd).1 cmd ∧
      (processBuiltin s cmd).1.outcome = Outcome.exited 0) ∧
    ((∀ n ∈ builtinNames, strcasecmpEq cmd.command n = false) →
      processBuiltin s cmd = (s, 0)) := by
  have at0 := fun hm => processBuiltin_at s cmd 0 (by decide) (by decide) hm hrun hhome hfit
  have at1 := fun hm => processBuiltin_at s cmd 1 (by decide) (by decide) hm hrun hhome hfit
  have at3 := fun hm => processBuiltin_at s cmd 3 (by decide) (by decide) hm hrun hhome hfit
  have at4 := fun hm => processBuiltin_at s cmd 4 (by decide) (by decide) hm hrun hhome hfit
  have at5 := fun hm => processBuiltin_at s cmd 5 (by decide) (by decide) hm hrun hhome hfit
  refine ⟨fun hm => (at0 hm).1, fun hm => (at1 hm).1, fun hm => (at3 hm).1,
    fun hm => (at4 hm).1, fun hm => (at5 hm).1, ⟨?_, ?_⟩, ?_, ?_⟩
  · rintro ⟨ho, h1⟩
    cases hb : builtinIndex cmd.command with
    | none => simp [processBuiltin, hb] at h1
    | some i =>
      obtain ⟨hi, hm⟩ := builtinIndex_some_match _ _ hb
      have hne : i ≠ 2 := by
        intro h2
        subst h2
        have hex : (processBuiltin s cmd).1.outcome = Outcome.exited 0 := by
          simp [processBuiltin, hb, builtinFn, processExit]
        rw [hex] at ho
        cases ho
      simp only [builtinNames, List.length_cons, List.length_nil] at hi
      have h5 : i = 0 ∨ i = 1 ∨ i = 3 ∨ i = 4 ∨ i = 5 := by omega
      rcases h5 with h | h | h | h | h <;> subst h
      · exact ⟨"SET", by decide, hm⟩
      · exact ⟨"LIST", by decide, hm⟩
      · exact ⟨"STATUS", by decide, hm⟩
      · exact ⟨"CD", by decide, hm⟩
      · exact ⟨"PWD", by decide, hm⟩
  · rintro ⟨n, hn, hm⟩
    simp only [List.mem_cons, List.mem_singleton, List.not_mem_nil, or_false] at hn
    rcases hn with h | h | h | h | h <;> subst h
    · exact ⟨(at0 hm).2, by rw [(at0 hm).1]⟩
    · exact ⟨(at1 hm).2, by rw [(at1 hm).1]⟩
    · exact ⟨(at3 hm).2, by rw [(at3 hm).1]⟩
    · exact ⟨(at4 hm).2, by rw [(at4 hm).1]⟩
    · exact ⟨(at5 hm).2, by rw [(at5 hm).1]⟩
  · intro hm
    have hb := builtinIndex_of_match cmd.command 2 (by decide) hm
    have hex : processBuiltin s cmd = (processExit (builtinRedirect s cmd).1 cmd, 1) := by
      simp [processBuiltin, hb, builtinFn, processExit]
    rw [hex]
    exact ⟨rfl, rfl⟩
  · intro hall
    cases hb : builtinIndex cmd.command with
    | none => simp only [processBuiltin, hb]
    | some i =>
      obtain ⟨hi, hm⟩ := builtinIndex_some_match _ _ hb
      have hmem : builtinNames.getD i "" ∈ builtinNames := by
        rw [List.getD_eq_getElem _ _ hi]; exact List.getElem_mem _
      rw [hall _ hmem] at hm; cases hm

/-- The theorem `processBuiltin_by_name` at the names `list` and `ls` in the
sample shell. -/
theorem processBuiltin_by_name_witness :
    (sampleShell.outcome = Outcome.running ∧ sampleShell.home ≠ none ∧
      sampleShell.cwd.length ≤ dirBound sampleShell ∧
      strcasecmpEq "list" "LIST" = true) ∧
    processBuiltin sampleShell (newCommand "list")
      = (builtinRestore (processList (builtinRedirect sampleShell (newCommand "list")).1
            (newCommand "list")) (newCommand "list")
          (builtinRedirect sampleShell (newCommand "list")).2.1
          (builtinRedirect sampleShell (newCommand "list")).2.2, 1) ∧
    processBuiltin sampleShell (newCommand "ls") = (sampleShell, 0) :=
  ⟨⟨by decide, by decide, by decide, by decide⟩,
    (processBuiltin_by_name sampleShell (newCommand "list") (by decide) (by decide)
      (by decide)).2.1 (by decide),
    (processBuiltin_by_name sampleShell (newCommand "ls") (by decide) (by decide)
      (by decide)).2.2.2.2.2.2.2 (by decide)⟩

/-- C18 (counterexample to the claim as stated): for the name `exit`, which
equals EXIT when letter case is ignored, `processBuiltin` does not return 1:
the handler ends the process with code 0 inside the call, also in a shell
started by `main` on the line `exit`. And with `HOME` empty in a working
directory of 999 characters the handler of `PWD` reads past its buffer. -/
theorem exit_builtin_never_returns :
    strcasecmpEq "exit" "EXIT" = true ∧
    (processBuiltin sampleShell (newCommand "exit")).1.outcome = Outcome.exited 0 ∧
    (processLine sampleShell [word "exit", op TokenType.EOL]).outcome = Outcome.exited 0 ∧
    (main sampleShell [[word "exit", op TokenType.EOL], [word "ls", op TokenType.EOL]]).outcome
      = Outcome.exited 0 ∧
    (main sampleShell [[word "exit", op TokenType.EOL], [word "ls", op TokenType.EOL]]).handed.map
        (fun e => e.1.command) = ["exit"] ∧
    sampleLongShell.cwd.length = 999 ∧ dirBound sampleLongShell = 998 ∧
    (processBuiltin sampleLongShell (newCommand "PWD")).1.outcome = Outcome.memoryFault := by
  decide

/-! ## Start-up without `HOME` -/

/-- C24 (evaluated at the failing input): a shell started with `HOME` unset
faults in the `findDir()` call of `main` before it reads a line, whatever the
script: on the script `CD` no Command is handed over and the working directory
is never changed to `/`. Started in `/tmp` with `HOME` set to `/home/u`, the
same script returns with the working directory `/home/u`, and in every state
with `HOME` set the `CD` handler returns for every argument list. -/
theorem shell_without_home_never_runs_cd :
    (∀ lines, (main sampleHomelessShell lines).outcome = Outcome.memoryFault ∧
      (main sampleHomelessShell lines).handed = [] ∧
      (main sampleHomelessShell lines).cwd = "/home/u") ∧
    (main sampleHomelessShell [[word "CD", op TokenType.EOL]]).cwd ≠ "/" ∧
    (main { sampleShell with cwd := "/tmp" } [[word "CD", op TokenType.EOL]]).outcome
      = Outcome.returned ∧
    (main { sampleShell with cwd := "/tmp" } [[word "CD", op TokenType.EOL]]).cwd
      = "/home/u" ∧
    (∀ (s : Shell) (cmd : Command), s.home ≠ none →
      (processCD s cmd).outcome = s.outcome) := by
  refine ⟨fun lines => ⟨rfl, rfl, rfl⟩, by decide, by decide, by decide,
    fun s cmd hh => processCD_outcome s cmd hh⟩

end TechShell
